import Mathlib

/-!
# Coupled simulated annealing: `SolverCoupled::minimize`

A shallow embedding of `src/anneal/anneal_csa.hpp`.

* `float`/`double` values are idealised as elements of a linearly ordered field `R`:
  no rounding, no overflow, no NaN. The theorems that need properties of `std::exp`
  take `R = ℝ` and `Real.exp`.
* A point (`double*` of length `n`, `std::vector<double>`) is a `List R`.
* The OpenMP parallel region is a transition system: every thread has a program
  counter, the `omp_lock_t` is an explicit component of the state, and a schedule
  is a list of events, each naming the thread that moves next together with the
  values the environment supplies to that move. A move is one of: line 76; lines
  85-97 and 111-113 (propose, evaluate, decide); `omp_set_lock`; the writes made
  under the lock and `omp_unset_lock`; `omp_test_lock`; lines 121-141.
* The timing counters and the CSV export are left out.
-/

namespace CSA

variable {R : Type} {Ω : Type}

/-! ## Data model -/

/-- Modelled from the spec: the class `Context` of `context.hpp`, a header that is not
among the sources. It is the spec's Chain State (current point, current cost, best point,
best cost) under the field names `minimize` uses; the id of a chain is its index in
`shared_states`. -/
structure Context (R : Type) where
  x : List R
  cost : R
  best_x : List R
  best_cost : R
deriving DecidableEq

/-- Modelled from the spec: `Context::step(y, cost)` of `context.hpp`, a header that is
not among the sources. It is the unconditional half of the spec's `replace`
("unconditionally overwrites `currentPoint`/`currentCost`"); the conditional
best-so-far half is written out in `minimize` itself (lines 100-105). -/
def Context.step (c : Context R) (y : List R) (cost : R) : Context R :=
  { c with x := y, cost := cost }

/-- Modelled from the spec: the constructor `SharedStates(m, n, x, fx0)` of `context.hpp`
("every chain initialized to the same starting point and its cost"). -/
def SharedStates (m : Int) (x : List R) (fx0 : R) : List (Context R) :=
  List.replicate m.toNat { x := x, cost := fx0, best_x := x, best_cost := fx0 }

/-- The public fields of `class SolverCoupled` (lines 15-21). -/
structure SolverCoupled (R : Type) where
  m : Int
  max_iters : Int
  tgen_initial : R
  tgen_schedule : R
  tacc_initial : R
  tacc_schedule : R
  desired_variance : R

/-- The in-class initialisers of lines 15-21. -/
def SolverCoupled.initial [Field R] : SolverCoupled R where
  m := 4
  max_iters := 1000000
  tgen_initial := 1 / 100
  tgen_schedule := 99999 / 100000
  tacc_initial := 9 / 10
  tacc_schedule := 1 / 100
  desired_variance := 99 / 100

/-- The functions `minimize` is called with: `fx`, `step` (its first argument stands for
the random numbers the call consumes), whether `progress` is non-null, and `std::exp`. -/
structure Env (Ω R : Type) where
  exp : R → R
  fx : List R → R
  step : Ω → List R → R → List R
  progress : Bool

/-- One call of the progress hook (line 104) with its arguments. -/
structure ProgressCall (R : Type) where
  cost : R
  tgen : R
  tacc : R
  opt_id : Nat
  iter : Int
deriving DecidableEq

/-! ## The sequential pieces of the loop body -/

/-- The three outcomes of lines 97 and 111-113. -/
inductive Branch where
  | improve
  | uphill
  | reject
deriving DecidableEq

/-- The value `prob` of line 112. -/
def acceptProb (exp : R → R) [Field R] (cost max_cost tacc gamma : R) : R :=
  exp ((cost - max_cost) / tacc) / gamma

/-- Lines 97 and 111-113: which branch an iteration takes. -/
def decideBranch [LinearOrderedField R] (exp : R → R) (c : Context R)
    (cost max_cost tacc gamma unif : R) : Branch :=
  if cost < c.cost then Branch.improve
  else if acceptProb exp c.cost max_cost tacc gamma > unif then Branch.uphill
  else Branch.reject

/-- Lines 100-102: the best-so-far update of the improvement branch. -/
def updateBest [LinearOrderedField R] (c : Context R) (y : List R) (cost : R) : Context R :=
  if cost < c.best_cost then { c with best_cost := cost, best_x := y } else c

/-- The writes made while the lock is held: lines 100-107 (`imp = true`) or line 115
(`imp = false`). -/
def commit [LinearOrderedField R] (c : Context R) (imp : Bool) (y : List R) (cost : R) :
    Context R :=
  if imp then (updateBest c y cost).step y cost else c.step y cost

/-- Lines 97-118 as one sequential block acting on the thread's chain. -/
def acceptReject [LinearOrderedField R] (exp : R → R) (c : Context R) (y : List R)
    (cost max_cost tacc gamma unif : R) : Context R :=
  match decideBranch exp c cost max_cost tacc gamma unif with
  | Branch.improve => commit c true y cost
  | Branch.uphill => commit c false y cost
  | Branch.reject => c

/-- Lines 121-124: the running maximum of the current costs. -/
def maxCostLoop [LinearOrderedField R] (cs : List (Context R)) (max_cost : R) : R :=
  cs.foldl (fun mc c => if c.cost > mc then c.cost else mc) max_cost

/-- Lines 126-131: the pair `(gamma, sum_a)` accumulated from `(0, 0)`. -/
def sumLoop [Field R] (exp : R → R) (cs : List (Context R)) (max_cost tacc : R) (acc : R × R) :
    R × R :=
  cs.foldl (fun a c => (a.1 + exp ((c.cost - max_cost) / tacc),
                        a.2 + exp (2 * ((c.cost - max_cost) / tacc)))) acc

/-- Lines 132-133. -/
def probVar [Field R] (m : Int) (gamma sum_a : R) : R :=
  ((m : R) * (sum_a / (gamma * gamma)) - 1) / (((m * m : Int)) : R)

/-- What one temperature-scheduler update computes. -/
structure ParamUpdate (R : Type) where
  max_cost : R
  gamma : R
  sum_a : R
  prob_var : R
  tacc : R
  tgen : R

/-- Lines 121-139 for the population `ss` whose first chain is `c0`. -/
def paramUpdate [LinearOrderedField R] (S : SolverCoupled R) (exp : R → R)
    (ss : List (Context R)) (c0 : Context R) (tacc tgen : R) : ParamUpdate R :=
  let cs := ss.take S.m.toNat
  let max_cost := maxCostLoop cs c0.cost
  let sums := sumLoop exp cs max_cost tacc (0, 0)
  let prob_var := probVar S.m sums.1 sums.2
  { max_cost := max_cost
    gamma := sums.1
    sum_a := sums.2
    prob_var := prob_var
    tacc := if prob_var > S.desired_variance then tacc + S.tacc_schedule * tacc
            else tacc - S.tacc_schedule * tacc
    tgen := S.tgen_schedule * tgen }

/-- Lines 149-156: the scan for `best_ind`, with `k` the loop counter. -/
def bestLoop [LinearOrderedField R] :
    List (Context R) → Nat → Nat → R → Nat × R
  | [], _, best_ind, best_cost => (best_ind, best_cost)
  | c :: cs, k, best_ind, best_cost =>
    if c.best_cost < best_cost then bestLoop cs (k + 1) k c.best_cost
    else bestLoop cs (k + 1) best_ind best_cost

/-- Lines 149-159: the point copied back into `x`; `none` when `shared_states[0]` does
not exist. -/
def extract [LinearOrderedField R] (S : SolverCoupled R) (ss : List (Context R)) :
    Option (List R) :=
  match ss.head? with
  | none => none
  | some c0 =>
    match ss[(bestLoop (ss.take S.m.toNat) 0 0 c0.best_cost).1]? with
    | none => none
    | some best_state => some best_state.best_x

/-! ## The parallel region as a transition system -/

/-- Where a thread is inside the parallel region. -/
inductive Pc (R : Type) where
  /-- Before line 76. -/
  | enter
  /-- At the head of the loop (line 82). -/
  | top
  /-- Blocked in `omp_set_lock` at line 98 (`imp = true`) or line 114 (`imp = false`). -/
  | setLock (imp : Bool) (iter : Int) (y : List R) (cost : R)
  /-- Holding the lock, before the writes of lines 100-107 or line 115. -/
  | locked (imp : Bool) (iter : Int) (y : List R) (cost : R)
  /-- At `omp_test_lock` (line 120). -/
  | testLock (iter : Int)
  /-- Holding the lock, before lines 121-139. -/
  | param (iter : Int)
deriving DecidableEq

/-- The private variables of a thread that matter: its program counter and `max_cost`. -/
structure Thread (R : Type) where
  pc : Pc R
  max_cost : R
deriving DecidableEq

/-- The variables shared by the team, the threads, the loop iterations handed out so far
and the progress calls made so far. -/
structure State (R : Type) where
  shared_states : List (Context R)
  tacc : R
  tgen : R
  gamma : R
  lock : Option Nat
  threads : List (Thread R)
  started : List Int
  calls : List (ProgressCall R)

/-- One scheduling decision: thread `opt_id` moves; `iter` is the iteration the
work-sharing loop hands it if it is at the head of the loop, `rnd` the randomness its
`step` call consumes and `unif` the value `drand48()` returns at line 111. -/
structure Event (Ω R : Type) where
  opt_id : Nat
  iter : Int
  rnd : Ω
  unif : R

/-- Lines 61-72: the state in which the parallel region is entered. A thread that has not
yet executed line 76 has no `max_cost`; the field holds 0 until then. -/
def init [LinearOrderedField R] (S : SolverCoupled R) (x : List R) (fx0 : R) : State R where
  shared_states := SharedStates S.m x fx0
  tacc := S.tacc_initial
  tgen := S.tgen_initial
  gamma := (S.m : R)
  lock := none
  threads := List.replicate S.m.toNat { pc := Pc.enter, max_cost := 0 }
  started := []
  calls := []

/-- The program counter reached after lines 85-97 and 111-113. -/
def afterDecision [LinearOrderedField R] (b : Branch) (iter : Int) (y : List R) (cost : R) :
    Pc R :=
  match b with
  | Branch.improve => Pc.setLock true iter y cost
  | Branch.uphill => Pc.setLock false iter y cost
  | Branch.reject => Pc.testLock iter

/-- The progress calls after the critical section of lines 98-108 or 114-116. -/
def logCall [LinearOrderedField R] (E : Env Ω R) (s : State R) (c : Context R) (imp : Bool)
    (opt_id : Nat) (iter : Int) (cost : R) : List (ProgressCall R) :=
  if imp ∧ cost < c.best_cost ∧ E.progress = true then
    s.calls ++ [{ cost := cost, tgen := s.tgen, tacc := s.tacc, opt_id := opt_id, iter := iter }]
  else s.calls

/-- One move of thread `e.opt_id`. A move that is not possible (no such thread, a blocked
`omp_set_lock`, no such iteration left) leaves the state as it is. -/
def next [LinearOrderedField R] (S : SolverCoupled R) (E : Env Ω R) (s : State R)
    (e : Event Ω R) : State R :=
  match s.threads[e.opt_id]?, s.shared_states[e.opt_id]?, s.shared_states.head? with
  | some t, some c, some c0 =>
    match t.pc with
    | Pc.enter =>
      { s with threads := s.threads.set e.opt_id { pc := Pc.top, max_cost := c0.cost } }
    | Pc.top =>
      if 0 ≤ e.iter ∧ e.iter < S.max_iters ∧ e.iter ∉ s.started then
        let y := E.step e.rnd c.x s.tgen
        let cost := E.fx y
        let b := decideBranch E.exp c cost t.max_cost s.tacc s.gamma e.unif
        { s with started := e.iter :: s.started
                 threads := s.threads.set e.opt_id { t with pc := afterDecision b e.iter y cost } }
      else s
    | Pc.setLock imp iter y cost =>
      if s.lock = none then
        { s with lock := some e.opt_id
                 threads := s.threads.set e.opt_id { t with pc := Pc.locked imp iter y cost } }
      else s
    | Pc.locked imp iter y cost =>
      { s with shared_states := s.shared_states.set e.opt_id (commit c imp y cost)
               calls := logCall E s c imp e.opt_id iter cost
               lock := none
               threads := s.threads.set e.opt_id { t with pc := Pc.testLock iter } }
    | Pc.testLock iter =>
      if s.lock = none then
        { s with lock := some e.opt_id
                 threads := s.threads.set e.opt_id { t with pc := Pc.param iter } }
      else { s with threads := s.threads.set e.opt_id { t with pc := Pc.top } }
    | Pc.param _ =>
      let u := paramUpdate S E.exp s.shared_states c0 s.tacc s.tgen
      { s with tacc := u.tacc
               tgen := u.tgen
               gamma := u.gamma
               lock := none
               threads := s.threads.set e.opt_id { pc := Pc.top, max_cost := u.max_cost } }
  | _, _, _ => s

/-- The state after a schedule. -/
def exec [LinearOrderedField R] (S : SolverCoupled R) (E : Env Ω R) (s : State R)
    (sched : List (Event Ω R)) : State R :=
  sched.foldl (next S E) s

/-- Lines 61-147: the state in which the schedule `sched` leaves the parallel region of
`minimize` called with the point `x`. -/
def run [LinearOrderedField R] (S : SolverCoupled R) (E : Env Ω R) (x : List R)
    (sched : List (Event Ω R)) : State R :=
  exec S E (init S x (E.fx x)) sched

/-- The function `minimize` (lines 48-166) run under the schedule `sched`: the return
value and the contents of `x` on return; `none` when `shared_states[0]` does not exist. -/
def minimize [LinearOrderedField R] (S : SolverCoupled R) (E : Env Ω R) (x : List R)
    (sched : List (Event Ω R)) : Option (Int × List R) :=
  match extract S (run S E x sched).shared_states with
  | none => none
  | some x_out => some (0, x_out)

/-! ## Invariants of the parallel region -/

/-- Whether a thread at this program counter holds the lock. -/
def Pc.holdsLock : Pc R → Bool
  | Pc.locked _ _ _ _ => true
  | Pc.param _ => true
  | _ => false

/-- The candidate a thread carries into its critical section is the point it evaluated,
and the branch flag records the comparison of line 97 against its own chain `c`. -/
def Pc.candidateOk [LinearOrderedField R] (fx : List R → R) (c : Context R) : Pc R → Prop
  | Pc.setLock imp _ y cost => cost = fx y ∧ (imp = true ↔ cost < c.cost)
  | Pc.locked imp _ y cost => cost = fx y ∧ (imp = true ↔ cost < c.cost)
  | _ => True

/-- A chain records costs of points, its best cost is not above its current cost, and not
above the cost of the initial point `x0`. -/
def Context.ok [LinearOrderedField R] (fx : List R → R) (x0 : List R) (c : Context R) : Prop :=
  c.cost = fx c.x ∧ c.best_cost = fx c.best_x ∧ c.best_cost ≤ c.cost ∧ c.best_cost ≤ fx x0

/-- The invariant of the parallel region for a run started from the point `x0`. -/
structure Inv [LinearOrderedField R] (S : SolverCoupled R) (E : Env Ω R) (x0 : List R)
    (s : State R) : Prop where
  chains_len : s.shared_states.length = S.m.toNat
  threads_len : s.threads.length = S.m.toNat
  chain_ok : ∀ (i : Nat) (c : Context R), s.shared_states[i]? = some c → c.ok E.fx x0
  cand_ok : ∀ (i : Nat) (t : Thread R) (c : Context R), s.threads[i]? = some t →
    s.shared_states[i]? = some c → t.pc.candidateOk E.fx c
  lock_held : ∀ (i : Nat) (t : Thread R), s.threads[i]? = some t →
    (t.pc.holdsLock = true ↔ s.lock = some i)
  lock_owner : ∀ i : Nat, s.lock = some i → i < s.threads.length

/-! ## The spec's operation on a chain -/

/-- The operation `replace(candidatePoint, candidateCost)` of the spec, written from the
spec's words and not from the code: the current point and cost are overwritten
unconditionally, and the best point and cost are overwritten if
`candidateCost < bestCost`. -/
def specReplace [LinearOrderedField R] (c : Context R) (y : List R) (cost : R) : Context R :=
  { x := y
    cost := cost
    best_x := if cost < c.best_cost then y else c.best_x
    best_cost := if cost < c.best_cost then cost else c.best_cost }

/-! ## Concrete instances -/

/-- A two-chain solver over the rationals with which the theorems are instantiated. -/
def demoSolver : SolverCoupled ℚ where
  m := 2
  max_iters := 3
  tgen_initial := 1
  tgen_schedule := 1 / 2
  tacc_initial := 1
  tacc_schedule := 1 / 2
  desired_variance := 99 / 100

/-- An environment over the rationals with which the theorems are instantiated: the
objective is the sum of the coordinates, `step` moves every coordinate down by `tgen`. -/
def demoEnv : Env Unit ℚ where
  exp := fun t => 1 + t
  fx := fun y => y.sum
  step := fun _ x tgen => x.map (fun xi => xi - tgen)
  progress := true

/-- A single-chain solver over any field. -/
def soloSolver [Field R] : SolverCoupled R where
  m := 1
  max_iters := 3
  tgen_initial := 1
  tgen_schedule := 1 / 2
  tacc_initial := 1
  tacc_schedule := 1 / 2
  desired_variance := 99 / 100

/-- A two-chain solver over any field. -/
def pairSolver [Field R] : SolverCoupled R where
  m := 2
  max_iters := 3
  tgen_initial := 1
  tgen_schedule := 1 / 2
  tacc_initial := 1
  tacc_schedule := 1 / 2
  desired_variance := 99 / 100

/-- An environment with the exponential `exp`, the sum of the coordinates as objective and
a `step` that proposes the current point again. -/
def stayEnv [Field R] (exp : R → R) : Env Unit R where
  exp := exp
  fx := List.sum
  step := fun _ x _ => x
  progress := true

/-- A population of two chains with the same current cost. -/
def levelChains [Field R] : List (Context R) :=
  [{ x := [0], cost := 1, best_x := [0], best_cost := 1 },
   { x := [4], cost := 1, best_x := [3], best_cost := 0 }]

/-- A population of two chains: chain 0 has the lowest current cost, 0, chain 1 has the
highest, 1. -/
def slopeChains [Field R] : List (Context R) :=
  [{ x := [0], cost := 0, best_x := [0], best_cost := 0 },
   { x := [1], cost := 1, best_x := [1], best_cost := 1 }]

/-- A population of two chains for `demoSolver`; the lowest best cost is that of chain 1. -/
def demoChains : List (Context ℚ) :=
  [{ x := [2, 3], cost := 5, best_x := [1, 2], best_cost := 3 },
   { x := [0, 4], cost := 4, best_x := [0, 2], best_cost := 2 }]

/-- The event "thread 0 moves", with iteration 0 on offer and the draw 0. -/
def move0 [Field R] : Event Unit R where
  opt_id := 0
  iter := 0
  rnd := ()
  unif := 0

/-- A two-chain solver over any field whose `max_iters` is negative. -/
def negSolver [Field R] : SolverCoupled R where
  m := 2
  max_iters := -1
  tgen_initial := 1
  tgen_schedule := 1 / 2
  tacc_initial := 1
  tacc_schedule := 1 / 2
  desired_variance := 99 / 100

/-- An environment with the exponential `exp`, the sum of the coordinates as objective and
a `step` that moves every coordinate down by `tgen`. -/
def downEnv [Field R] (exp : R → R) : Env Unit R where
  exp := exp
  fx := List.sum
  step := fun _ x tgen => x.map (fun xi => xi - tgen)
  progress := true

/-- The costs passed to the progress hook for chain `i`, in the order of the calls. -/
def reportedCosts (calls : List (ProgressCall R)) (i : Nat) : List R :=
  (calls.filter (fun p => decide (p.opt_id = i))).map (fun p => p.cost)

/-! ## Where the points of a state come from -/

/-- The candidate point a thread carries between its decision and its write. -/
def Pc.candidate : Pc R → Option (List R)
  | Pc.setLock _ _ y _ => some y
  | Pc.locked _ _ y _ => some y
  | _ => none

/-- Every point stored in a chain, and every candidate carried by a thread, satisfies
`good`. -/
def Origin (good : List R → Prop) (s : State R) : Prop :=
  (∀ (i : Nat) (c : Context R), s.shared_states[i]? = some c → good c.x ∧ good c.best_x) ∧
  ∀ (i : Nat) (t : Thread R) (y : List R), s.threads[i]? = some t →
    t.pc.candidate = some y → good y

/-- The point `y` is a candidate that `step` returned during the run under `sched`: some
event `e` of the schedule found its thread at the head of the loop with an iteration to
start, and `y` is what line 85 computed from the thread's chain and `tgen` at that
moment. -/
def Produced [LinearOrderedField R] (S : SolverCoupled R) (E : Env Ω R) (x : List R)
    (sched : List (Event Ω R)) (y : List R) : Prop :=
  ∃ (pre : List (Event Ω R)) (e : Event Ω R) (post : List (Event Ω R)) (t : Thread R)
    (c : Context R),
    sched = pre ++ e :: post ∧
    (run S E x pre).threads[e.opt_id]? = some t ∧
    (run S E x pre).shared_states[e.opt_id]? = some c ∧
    t.pc = Pc.top ∧ 0 ≤ e.iter ∧ e.iter < S.max_iters ∧ e.iter ∉ (run S E x pre).started ∧
    y = E.step e.rnd c.x (run S E x pre).tgen

/-! ## Greedy descent -/

/-- Greedy descent, written from the spec's words and not from the code: starting from the
point `x`, the candidates are evaluated in order and a candidate is accepted only when its
cost is strictly lower than the cost of the current point. The result is the point
reached and its cost. -/
def greedyDescent [LinearOrderedField R] (fx : List R → R) (x : List R)
    (cands : List (List R)) : List R × R :=
  cands.foldl (fun p y => if fx y < p.2 then (y, fx y) else p) (x, fx x)

/-! ## The terms of the coupling sum -/

/-- The terms `exp((cost_k - max_cost)/tacc)` that line 129 adds up, one per chain. -/
def expTerms [Field R] (exp : R → R) (ss : List (Context R)) (max_cost tacc : R) : List R :=
  ss.map (fun c => exp ((c.cost - max_cost) / tacc))

/-! ## The temperature-scheduler update, store by store

In `next` the update of lines 121-139 is one move. The variable `gamma` is zeroed at line
126 and accumulated at line 129 while other threads read it at line 112 without the lock,
so for statements about the values of `gamma` the update is split into its stores: lines
121-126, each pass of the loop of lines 127-131, and lines 132-141. All other moves are
those of `next`. -/

/-- A temperature-scheduler update under way: thread `opt_id` holds the lock and has
executed lines 121-126 and `k` passes of the loop of lines 127-131; `max_cost` is its
private variable of that name and `sum_a` the accumulator of line 130. -/
structure Pending (R : Type) where
  opt_id : Nat
  k : Nat
  max_cost : R
  sum_a : R

/-- The variables of the parallel region (`base`) together with the update under way, if
there is one (`upd`). While an update is under way its thread stays at `Pc.param`. -/
structure FineState (R : Type) where
  base : State R
  upd : Option (Pending R)

/-- Whether thread `i` holds the lock at the start of lines 121-139. -/
def atParam (s : State R) (i : Nat) : Bool :=
  match s.threads[i]? with
  | some t =>
    match t.pc with
    | Pc.param _ => true
    | _ => false
  | none => false

/-- Lines 121-126: the maximum of the current costs is taken and `gamma` and `sum_a` are
set to 0. -/
def updateStart [LinearOrderedField R] (S : SolverCoupled R) (s : State R) (opt_id : Nat)
    (c0 : Context R) : FineState R where
  base := { s with gamma := 0 }
  upd := some { opt_id := opt_id
                k := 0
                max_cost := maxCostLoop (s.shared_states.take S.m.toNat) c0.cost
                sum_a := 0 }

/-- Lines 128-130 for the chain `c = shared_states[k]`: one term is added to `gamma` and
one to `sum_a`. -/
def updateStep [LinearOrderedField R] (E : Env Ω R) (s : State R) (u : Pending R)
    (c : Context R) : FineState R where
  base := { s with gamma := s.gamma + E.exp ((c.cost - u.max_cost) / s.tacc) }
  upd := some { u with k := u.k + 1
                       sum_a := u.sum_a + E.exp (2 * ((c.cost - u.max_cost) / s.tacc)) }

/-- Lines 132-141: `prob_var`, the new `tacc` and `tgen`, and `omp_unset_lock`; the thread
goes back to the head of the loop. -/
def updateEnd [LinearOrderedField R] (S : SolverCoupled R) (s : State R) (u : Pending R) :
    FineState R where
  base :=
    { s with tacc := if probVar S.m s.gamma u.sum_a > S.desired_variance then
                       s.tacc + S.tacc_schedule * s.tacc
                     else s.tacc - S.tacc_schedule * s.tacc
             tgen := S.tgen_schedule * s.tgen
             lock := none
             threads := s.threads.set u.opt_id { pc := Pc.top, max_cost := u.max_cost } }
  upd := none

/-- One move of thread `e.opt_id` with the update split into its stores. The thread that
runs an update continues it; a thread at `Pc.param` starts one; every other move is the
move of `next`. (A second thread at `Pc.param` while an update is under way does not
occur, since the lock is held; such a move leaves the state as it is.) -/
def nextFine [LinearOrderedField R] (S : SolverCoupled R) (E : Env Ω R) (s : FineState R)
    (e : Event Ω R) : FineState R :=
  match s.upd with
  | some u =>
    if e.opt_id = u.opt_id then
      if u.k < S.m.toNat then
        match s.base.shared_states[u.k]? with
        | some c => updateStep E s.base u c
        | none => s
      else updateEnd S s.base u
    else if atParam s.base e.opt_id = true then s
    else { s with base := next S E s.base e }
  | none =>
    if atParam s.base e.opt_id = true then
      match s.base.shared_states.head? with
      | some c0 => updateStart S s.base e.opt_id c0
      | none => s
    else { s with base := next S E s.base e }

/-- The state in which the schedule `sched` leaves the parallel region of `minimize`
called with the point `x`, with the updates split into their stores. -/
def runFine [LinearOrderedField R] (S : SolverCoupled R) (E : Env Ω R) (x : List R)
    (sched : List (Event Ω R)) : FineState R :=
  sched.foldl (nextFine S E) { base := init S x (E.fx x), upd := none }

/-- The event "thread 1 moves", with iteration 1 on offer and the draw 0. -/
def move1 [Field R] : Event Unit R where
  opt_id := 1
  iter := 1
  rnd := ()
  unif := 0

/-- The invariant of the store-by-store model over the reals: the invariant of the parallel
region; `1 ≤ gamma ≤ m` while no update is under way; and, while one is, its thread is at
`Pc.param`, its `max_cost` is the largest current cost, and `gamma` is the sum of the terms
of line 129 for the first `k` chains. -/
structure FInv (S : SolverCoupled ℝ) (E : Env Ω ℝ) (x0 : List ℝ) (s : FineState ℝ) :
    Prop where
  inv : Inv S E x0 s.base
  idle : s.upd = none → 1 ≤ s.base.gamma ∧ s.base.gamma ≤ (S.m : ℝ)
  busy : ∀ u : Pending ℝ, s.upd = some u →
    atParam s.base u.opt_id = true ∧
    (∀ c ∈ s.base.shared_states, c.cost ≤ u.max_cost) ∧
    (∃ c ∈ s.base.shared_states, c.cost = u.max_cost) ∧
    s.base.gamma =
      (expTerms E.exp (s.base.shared_states.take u.k) u.max_cost s.base.tacc).sum

/-- A schedule for two threads: thread 1 enters the region; thread 0 enters, accepts a
candidate, wins the probe of line 120 and executes its temperature-scheduler update up to
the end of the loop of lines 127-131. -/
def loopEnded [Field R] : List (Event Unit R) :=
  [move1, move0, move0, move0, move0, move0, move0, move0, move0]

/-! # Theorems -/

/-! ## Result extraction -/

/-- What the scan of lines 149-156 returns: either the initial pair, when no scanned chain
is strictly below it, or the first scanned chain that attains the minimum. -/
theorem bestLoop_spec [LinearOrderedField R] (cs : List (Context R)) :
    ∀ (k best_ind : Nat) (best_cost : R),
      ((bestLoop cs k best_ind best_cost).1 = best_ind ∧
        (bestLoop cs k best_ind best_cost).2 = best_cost ∧
        ∀ c ∈ cs, best_cost ≤ c.best_cost) ∨
      ∃ j c, cs[j]? = some c ∧ (bestLoop cs k best_ind best_cost).1 = k + j ∧
        (bestLoop cs k best_ind best_cost).2 = c.best_cost ∧ c.best_cost < best_cost ∧
        (∀ d ∈ cs, c.best_cost ≤ d.best_cost) ∧
        ∀ i d, i < j → cs[i]? = some d → c.best_cost < d.best_cost := by
  induction cs with
  | nil => intro k bi bc; left; simp [bestLoop]
  | cons c cs ih =>
    intro k bi bc
    by_cases h : c.best_cost < bc
    · rw [bestLoop, if_pos h]
      right
      rcases ih (k + 1) k c.best_cost with ⟨h1, h2, h3⟩ | ⟨j, c1, hj, h1, h2, h3, h4, h5⟩
      · refine ⟨0, c, by simp, by simpa using h1, h2, h, ?_, ?_⟩
        · intro d hd
          rcases List.mem_cons.mp hd with rfl | hd
          · exact le_refl _
          · exact h3 d hd
        · intro i d hi; omega
      · refine ⟨j + 1, c1, by simpa using hj, by omega, h2, lt_trans h3 h, ?_, ?_⟩
        · intro d hd
          rcases List.mem_cons.mp hd with rfl | hd
          · exact le_of_lt h3
          · exact h4 d hd
        · intro i d hi hd
          cases i with
          | zero =>
            simp at hd
            subst hd
            exact h3
          | succ i => exact h5 i d (by omega) (by simpa using hd)
    · rw [bestLoop, if_neg h]
      have h' : bc ≤ c.best_cost := not_lt.mp h
      rcases ih (k + 1) bi bc with ⟨h1, h2, h3⟩ | ⟨j, c1, hj, h1, h2, h3, h4, h5⟩
      · left
        refine ⟨h1, h2, ?_⟩
        intro d hd
        rcases List.mem_cons.mp hd with rfl | hd
        · exact h'
        · exact h3 d hd
      · right
        refine ⟨j + 1, c1, by simpa using hj, by omega, h2, h3, ?_, ?_⟩
        · intro d hd
          rcases List.mem_cons.mp hd with rfl | hd
          · exact le_of_lt (lt_of_lt_of_le h3 h')
          · exact h4 d hd
        · intro i d hi hd
          cases i with
          | zero =>
            simp at hd
            subst hd
            exact lt_of_lt_of_le h3 h'
          | succ i => exact h5 i d (by omega) (by simpa using hd)

/-- C1: for a population of `m ≥ 1` chains, the point copied back to `x` is `best_x` of a
chain `k` whose `best_cost` is the minimum of `best_cost` over all chains, and `k` is the
lowest index attaining that minimum. -/
theorem extract_is_first_minimum [LinearOrderedField R] (S : SolverCoupled R)
    (ss : List (Context R)) (hm : 1 ≤ S.m) (hlen : ss.length = S.m.toNat) :
    ∃ (k : Nat) (c : Context R), ss[k]? = some c ∧ extract S ss = some c.best_x ∧
      (∀ (j : Nat) (d : Context R), ss[j]? = some d → c.best_cost ≤ d.best_cost) ∧
      ∀ (j : Nat) (d : Context R), j < k → ss[j]? = some d → c.best_cost < d.best_cost := by
  have htake : ss.take S.m.toNat = ss := by rw [← hlen]; exact List.take_length ss
  cases ss with
  | nil => simp at hlen; omega
  | cons c0 cs =>
    have hmem : ∀ (c : Context R), (∀ d ∈ c0 :: cs, c.best_cost ≤ d.best_cost) →
        ∀ (j : Nat) (d : Context R), (c0 :: cs)[j]? = some d → c.best_cost ≤ d.best_cost := by
      intro c hc j d hd
      exact hc d (List.getElem?_mem hd)
    rcases bestLoop_spec (c0 :: cs) 0 0 c0.best_cost with
      ⟨h1, _, h3⟩ | ⟨j, c, hj, h1, _, _, h4, h5⟩
    · refine ⟨0, c0, by simp, ?_, hmem c0 h3, ?_⟩
      · simp only [extract, List.head?_cons, htake, h1]
        simp
      · intro j d hj; omega
    · refine ⟨j, c, hj, ?_, hmem c h4, h5⟩
      simp only [extract, List.head?_cons, htake, h1, Nat.zero_add, hj]

/-- The extraction of `demoSolver` on `demoChains`. -/
theorem extract_is_first_minimum_witness :
    1 ≤ demoSolver.m ∧ demoChains.length = demoSolver.m.toNat ∧
    ∃ (k : Nat) (c : Context ℚ), demoChains[k]? = some c ∧
      extract demoSolver demoChains = some c.best_x ∧
      (∀ (j : Nat) (d : Context ℚ), demoChains[j]? = some d → c.best_cost ≤ d.best_cost) ∧
      ∀ (j : Nat) (d : Context ℚ), j < k → demoChains[j]? = some d →
        c.best_cost < d.best_cost :=
  ⟨by decide, rfl, extract_is_first_minimum demoSolver demoChains (by decide) rfl⟩

/-! ## Effect of one move on the chains -/

theorem commit_best_cost_le [LinearOrderedField R] (c : Context R) (imp : Bool) (y : List R)
    (cost : R) : (commit c imp y cost).best_cost ≤ c.best_cost := by
  cases imp
  · simp [commit, Context.step]
  · by_cases h : cost < c.best_cost
    · simp [commit, Context.step, updateBest, h, le_of_lt h]
    · simp [commit, Context.step, updateBest, h]

/-- A move either leaves `shared_states` as it is, or thread `e.opt_id`, holding the lock
at `Pc.locked`, overwrites its own chain with `commit`. -/
theorem next_shared_states [LinearOrderedField R] (S : SolverCoupled R) (E : Env Ω R)
    (s : State R) (e : Event Ω R) :
    (next S E s e).shared_states = s.shared_states ∨
    ∃ t c imp iter y cost, s.threads[e.opt_id]? = some t ∧
      s.shared_states[e.opt_id]? = some c ∧ t.pc = Pc.locked imp iter y cost ∧
      (next S E s e).shared_states = s.shared_states.set e.opt_id (commit c imp y cost) := by
  unfold next
  split
  · next t c c0 ht hc hc0 =>
    split
    · left; rfl
    · split
      · left; rfl
      · left; rfl
    · split
      · left; rfl
      · left; rfl
    · next imp iter y cost hpc =>
      right
      exact ⟨t, c, imp, iter, y, cost, ht, hc, hpc, rfl⟩
    · split
      · left; rfl
      · left; rfl
    · left; rfl
  · left; rfl

/-- C2: whatever thread moves and whatever the environment supplies, a move does not raise
the `best_cost` of any chain; hence no schedule does. -/
theorem best_cost_nonincreasing [LinearOrderedField R] (S : SolverCoupled R) (E : Env Ω R)
    (s : State R) (k : Nat) (c : Context R) (hk : s.shared_states[k]? = some c) :
    (∀ e : Event Ω R, ∃ d : Context R,
      (next S E s e).shared_states[k]? = some d ∧ d.best_cost ≤ c.best_cost) ∧
    ∀ sched : List (Event Ω R), ∃ d : Context R,
      (exec S E s sched).shared_states[k]? = some d ∧ d.best_cost ≤ c.best_cost := by
  have step1 : ∀ (s : State R) (c : Context R), s.shared_states[k]? = some c →
      ∀ e : Event Ω R, ∃ d : Context R,
        (next S E s e).shared_states[k]? = some d ∧ d.best_cost ≤ c.best_cost := by
    intro s c hk e
    rcases next_shared_states S E s e with h | ⟨t, c1, imp, iter, y, cost, _, hc1, _, h⟩
    · exact ⟨c, by rw [h]; exact hk, le_refl _⟩
    · by_cases hi : e.opt_id = k
      · subst hi
        rw [hk] at hc1
        cases hc1
        refine ⟨commit c imp y cost, ?_, commit_best_cost_le c imp y cost⟩
        rw [h]
        have hlt : e.opt_id < s.shared_states.length := by
          rcases List.getElem?_eq_some.mp hk with ⟨hlt, _⟩
          exact hlt
        simp [List.getElem?_set, hlt]
      · refine ⟨c, ?_, le_refl _⟩
        rw [h, List.getElem?_set_ne hi]
        exact hk
  refine ⟨step1 s c hk, ?_⟩
  intro sched
  induction sched generalizing s c with
  | nil => exact ⟨c, hk, le_refl _⟩
  | cons e es ih =>
    rcases step1 s c hk e with ⟨d, hd, hle⟩
    rcases ih (next S E s e) d hd with ⟨d2, hd2, hle2⟩
    exact ⟨d2, by simpa [exec] using hd2, le_trans hle2 hle⟩

/-- The start of a run of `demoSolver` from the point `(2, 3)`. -/
theorem best_cost_nonincreasing_witness :
    (init demoSolver [2, 3] 5).shared_states[1]? = some ⟨[2, 3], 5, [2, 3], 5⟩ ∧
    ((∀ e : Event Unit ℚ, ∃ d : Context ℚ,
      (next demoSolver demoEnv (init demoSolver [2, 3] 5) e).shared_states[1]? = some d ∧
        d.best_cost ≤ (⟨[2, 3], 5, [2, 3], 5⟩ : Context ℚ).best_cost) ∧
    ∀ sched : List (Event Unit ℚ), ∃ d : Context ℚ,
      (exec demoSolver demoEnv (init demoSolver [2, 3] 5) sched).shared_states[1]? = some d ∧
        d.best_cost ≤ (⟨[2, 3], 5, [2, 3], 5⟩ : Context ℚ).best_cost) :=
  ⟨rfl, best_cost_nonincreasing demoSolver demoEnv (init demoSolver [2, 3] 5) 1
    ⟨[2, 3], 5, [2, 3], 5⟩ rfl⟩

/-! ## Case analysis of a move -/

/-- To prove a property of the state after a move it suffices to prove it of the state as
it was (the move was not possible) and of the result of each of the seven kinds of move. -/
theorem next_cases [LinearOrderedField R] (S : SolverCoupled R) (E : Env Ω R) (s : State R)
    (e : Event Ω R) (P : State R → Prop) (stay : P s)
    (enter : ∀ t c c0, s.threads[e.opt_id]? = some t → s.shared_states[e.opt_id]? = some c →
      s.shared_states.head? = some c0 → t.pc = Pc.enter →
      P { s with threads := s.threads.set e.opt_id { pc := Pc.top, max_cost := c0.cost } })
    (body : ∀ t c, s.threads[e.opt_id]? = some t → s.shared_states[e.opt_id]? = some c →
      t.pc = Pc.top → 0 ≤ e.iter → e.iter < S.max_iters → e.iter ∉ s.started →
      P { s with
          started := e.iter :: s.started
          threads := s.threads.set e.opt_id
            { t with pc := (afterDecision
                (decideBranch E.exp c (E.fx (E.step e.rnd c.x s.tgen)) t.max_cost s.tacc s.gamma
                  e.unif)
                e.iter (E.step e.rnd c.x s.tgen) (E.fx (E.step e.rnd c.x s.tgen))) } })
    (acquire : ∀ t c imp iter y cost, s.threads[e.opt_id]? = some t →
      s.shared_states[e.opt_id]? = some c → t.pc = Pc.setLock imp iter y cost →
      s.lock = none →
      P { s with
          lock := some e.opt_id
          threads := s.threads.set e.opt_id { t with pc := Pc.locked imp iter y cost } })
    (write : ∀ t c imp iter y cost, s.threads[e.opt_id]? = some t →
      s.shared_states[e.opt_id]? = some c → t.pc = Pc.locked imp iter y cost →
      P { s with
          shared_states := s.shared_states.set e.opt_id (commit c imp y cost)
          calls := logCall E s c imp e.opt_id iter cost
          lock := none
          threads := s.threads.set e.opt_id { t with pc := Pc.testLock iter } })
    (probeWon : ∀ t c iter, s.threads[e.opt_id]? = some t →
      s.shared_states[e.opt_id]? = some c → t.pc = Pc.testLock iter → s.lock = none →
      P { s with
          lock := some e.opt_id
          threads := s.threads.set e.opt_id { t with pc := Pc.param iter } })
    (probeLost : ∀ t c iter, s.threads[e.opt_id]? = some t →
      s.shared_states[e.opt_id]? = some c → t.pc = Pc.testLock iter → s.lock ≠ none →
      P { s with threads := s.threads.set e.opt_id { t with pc := Pc.top } })
    (update : ∀ t c c0 iter, s.threads[e.opt_id]? = some t →
      s.shared_states[e.opt_id]? = some c → s.shared_states.head? = some c0 →
      t.pc = Pc.param iter →
      P { s with
          tacc := (paramUpdate S E.exp s.shared_states c0 s.tacc s.tgen).tacc
          tgen := (paramUpdate S E.exp s.shared_states c0 s.tacc s.tgen).tgen
          gamma := (paramUpdate S E.exp s.shared_states c0 s.tacc s.tgen).gamma
          lock := none
          threads := s.threads.set e.opt_id
            { pc := Pc.top
              max_cost := (paramUpdate S E.exp s.shared_states c0 s.tacc s.tgen).max_cost } }) :
    P (next S E s e) := by
  unfold next
  split
  · next t c c0 ht hc hc0 =>
    split
    · next hpc => exact enter t c c0 ht hc hc0 hpc
    · next hpc =>
      split
      · next hg => exact body t c ht hc hpc hg.1 hg.2.1 hg.2.2
      · exact stay
    · next imp iter y cost hpc =>
      split
      · next hl => exact acquire t c imp iter y cost ht hc hpc hl
      · exact stay
    · next imp iter y cost hpc => exact write t c imp iter y cost ht hc hpc
    · next iter hpc =>
      split
      · next hl => exact probeWon t c iter ht hc hpc hl
      · next hl => exact probeLost t c iter ht hc hpc hl
    · next iter hpc => exact update t c c0 iter ht hc hc0 hpc
  · exact stay

/-- A property that holds of a state and is kept by every move holds after every
schedule. -/
theorem exec_invariant [LinearOrderedField R] (S : SolverCoupled R) (E : Env Ω R)
    (P : State R → Prop) (hstep : ∀ s e, P s → P (next S E s e)) :
    ∀ (sched : List (Event Ω R)) (s : State R), P s → P (exec S E s sched) := by
  intro sched
  induction sched with
  | nil => intro s hs; exact hs
  | cons e es ih => intro s hs; exact ih (next S E s e) (hstep s e hs)

/-! ## The invariant -/

theorem inv_update [LinearOrderedField R] {S : SolverCoupled R} {E : Env Ω R} {x0 : List R}
    {s s' : State R} (hI : Inv S E x0 s) {i : Nat} {t t' : Thread R} {c' : Context R}
    (ht : s.threads[i]? = some t)
    (hlen : s'.shared_states.length = s.shared_states.length)
    (hss : ∀ j, j ≠ i → s'.shared_states[j]? = s.shared_states[j]?)
    (hssi : s'.shared_states[i]? = some c')
    (hth : s'.threads = s.threads.set i t')
    (hc' : c'.ok E.fx x0)
    (hcand : t'.pc.candidateOk E.fx c')
    (hl : t'.pc.holdsLock = true ↔ s'.lock = some i)
    (hl' : ∀ j, j ≠ i → (s'.lock = some j ↔ s.lock = some j)) : Inv S E x0 s' := by
  have hi : i < s.threads.length := (List.getElem?_eq_some.mp ht).1
  refine ⟨hlen.trans hI.chains_len, by rw [hth, List.length_set]; exact hI.threads_len,
    ?_, ?_, ?_, ?_⟩
  · intro j d hd
    by_cases hj : j = i
    · subst hj
      rw [hssi] at hd
      cases hd
      exact hc'
    · rw [hss j hj] at hd
      exact hI.chain_ok j d hd
  · intro j u d hu hd
    rw [hth, List.getElem?_set] at hu
    by_cases hj : j = i
    · subst hj
      rw [hssi] at hd
      cases hd
      simp [hi] at hu
      subst hu
      exact hcand
    · rw [if_neg (Ne.symm hj)] at hu
      rw [hss j hj] at hd
      exact hI.cand_ok j u d hu hd
  · intro j u hu
    rw [hth, List.getElem?_set] at hu
    by_cases hj : j = i
    · subst hj
      simp [hi] at hu
      subst hu
      exact hl
    · rw [if_neg (Ne.symm hj)] at hu
      exact (hI.lock_held j u hu).trans (hl' j hj).symm
  · intro j hj
    rw [hth, List.length_set]
    by_cases hji : j = i
    · subst hji; exact hi
    · exact hI.lock_owner j ((hl' j hji).mp hj)

theorem commit_ok [LinearOrderedField R] (fx : List R → R) (x0 : List R) (c : Context R)
    (imp : Bool) (y : List R) (cost : R) (hc : c.ok fx x0) (hy : cost = fx y)
    (himp : imp = true ↔ cost < c.cost) : (commit c imp y cost).ok fx x0 := by
  obtain ⟨_, h2, h3, h4⟩ := hc
  cases imp
  · have hge : c.cost ≤ cost := not_lt.mp (fun h => by simpa using himp.mpr h)
    exact ⟨hy, h2, le_trans h3 hge, h4⟩
  · by_cases h : cost < c.best_cost
    · simp only [commit, updateBest, if_pos h, if_true, Context.step, Context.ok]
      exact ⟨hy, hy, le_refl _, le_trans (le_of_lt h) h4⟩
    · simp only [commit, updateBest, if_neg h, if_true, Context.step, Context.ok]
      exact ⟨hy, h2, not_lt.mp h, h4⟩

theorem afterDecision_candidateOk [LinearOrderedField R] (exp : R → R) (fx : List R → R)
    (c : Context R) (y : List R) (max_cost tacc gamma unif : R) (iter : Int) :
    (afterDecision (decideBranch exp c (fx y) max_cost tacc gamma unif) iter y
      (fx y)).candidateOk fx c := by
  unfold decideBranch
  split
  · next h => simp [afterDecision, Pc.candidateOk, h]
  · next h =>
    split
    · simp [afterDecision, Pc.candidateOk, h]
    · simp [afterDecision, Pc.candidateOk]

/-- The invariant holds when the parallel region is entered. -/
theorem inv_init [LinearOrderedField R] (S : SolverCoupled R) (E : Env Ω R) (x : List R) :
    Inv S E x (init S x (E.fx x)) := by
  refine ⟨by simp [CSA.init, SharedStates], by simp [CSA.init], ?_, ?_, ?_, ?_⟩
  · intro i c hc
    simp only [CSA.init, SharedStates, List.getElem?_replicate] at hc
    split at hc
    · cases hc
      exact ⟨rfl, rfl, le_refl _, le_refl _⟩
    · cases hc
  · intro i t c ht _
    simp only [CSA.init, List.getElem?_replicate] at ht
    split at ht
    · cases ht
      simp [Pc.candidateOk]
    · cases ht
  · intro i t ht
    simp only [CSA.init, List.getElem?_replicate] at ht
    split at ht
    · cases ht
      simp [Pc.holdsLock, CSA.init]
    · cases ht
  · intro i hi
    simp [CSA.init] at hi

/-- Every move keeps the invariant. -/
theorem inv_next [LinearOrderedField R] {S : SolverCoupled R} {E : Env Ω R} {x0 : List R}
    {s : State R} (hI : Inv S E x0 s) (e : Event Ω R) : Inv S E x0 (next S E s e) := by
  apply next_cases S E s e (Inv S E x0) hI
  · intro t c c0 ht hc _ hpc
    have hl := hI.lock_held _ t ht
    rw [hpc] at hl
    exact inv_update hI ht rfl (fun _ _ => rfl) hc rfl (hI.chain_ok _ _ hc)
      (by simp [Pc.candidateOk]) (by simpa [Pc.holdsLock] using hl) (fun _ _ => Iff.rfl)
  · intro t c ht hc hpc _ _ _
    have hl := hI.lock_held _ t ht
    rw [hpc] at hl
    refine inv_update hI ht rfl (fun _ _ => rfl) hc rfl (hI.chain_ok _ _ hc)
      (afterDecision_candidateOk _ _ _ _ _ _ _ _ _) ?_ (fun _ _ => Iff.rfl)
    have hno : s.lock ≠ some e.opt_id := fun h => by simpa [Pc.holdsLock] using hl.mpr h
    cases decideBranch E.exp c (E.fx (E.step e.rnd c.x s.tgen)) t.max_cost s.tacc s.gamma
      e.unif <;> simp [afterDecision, Pc.holdsLock, hno]
  · intro t c imp iter y cost ht hc hpc hlock
    have hcand := hI.cand_ok _ t c ht hc
    rw [hpc] at hcand
    refine inv_update hI ht rfl (fun _ _ => rfl) hc rfl (hI.chain_ok _ _ hc) hcand
      (by simp [Pc.holdsLock]) ?_
    intro j hj
    simp [hlock, Ne.symm hj]
  · intro t c imp iter y cost ht hc hpc
    have hcand := hI.cand_ok _ t c ht hc
    have hl := hI.lock_held _ t ht
    rw [hpc] at hcand hl
    have hlock : s.lock = some e.opt_id := by simpa [Pc.holdsLock] using hl
    have hi : e.opt_id < s.shared_states.length := (List.getElem?_eq_some.mp hc).1
    refine inv_update hI ht (by simp) (fun j hj => List.getElem?_set_ne (Ne.symm hj))
      (List.getElem?_set_self hi) rfl
      (commit_ok E.fx x0 c imp y cost (hI.chain_ok _ _ hc) hcand.1 hcand.2)
      (by simp [Pc.candidateOk]) (by simp [Pc.holdsLock]) ?_
    intro j hj
    simp [hlock, Ne.symm hj]
  · intro t c iter ht hc hpc hlock
    refine inv_update hI ht rfl (fun _ _ => rfl) hc rfl (hI.chain_ok _ _ hc)
      (by simp [Pc.candidateOk]) (by simp [Pc.holdsLock]) ?_
    intro j hj
    simp [hlock, Ne.symm hj]
  · intro t c iter ht hc hpc _
    have hl := hI.lock_held _ t ht
    rw [hpc] at hl
    exact inv_update hI ht rfl (fun _ _ => rfl) hc rfl (hI.chain_ok _ _ hc)
      (by simp [Pc.candidateOk]) (by simpa [Pc.holdsLock] using hl) (fun _ _ => Iff.rfl)
  · intro t c c0 iter ht hc _ hpc
    have hl := hI.lock_held _ t ht
    rw [hpc] at hl
    have hlock : s.lock = some e.opt_id := by simpa [Pc.holdsLock] using hl
    refine inv_update hI ht rfl (fun _ _ => rfl) hc rfl (hI.chain_ok _ _ hc)
      (by simp [Pc.candidateOk]) (by simp [Pc.holdsLock]) ?_
    intro j hj
    simp [hlock, Ne.symm hj]

/-- The invariant holds after every schedule of a run started from `x`. -/
theorem inv_exec [LinearOrderedField R] (S : SolverCoupled R) (E : Env Ω R) (x : List R)
    (sched : List (Event Ω R)) : Inv S E x (run S E x sched) :=
  exec_invariant S E (Inv S E x) (fun _ e h => inv_next h e) sched _ (inv_init S E x)

/-! ## The returned point -/

/-- On a population of `m ≥ 1` chains the extraction returns `best_x` of one of them. -/
theorem extract_mem [LinearOrderedField R] (S : SolverCoupled R) (ss : List (Context R))
    (hm : 1 ≤ S.m) (hlen : ss.length = S.m.toNat) :
    ∃ (k : Nat) (c : Context R), ss[k]? = some c ∧ extract S ss = some c.best_x := by
  have htake : ss.take S.m.toNat = ss := by rw [← hlen]; exact List.take_length ss
  cases ss with
  | nil => simp at hlen; omega
  | cons c0 cs =>
    rcases bestLoop_spec (c0 :: cs) 0 0 c0.best_cost with
      ⟨h1, _, _⟩ | ⟨j, c, hj, h1, _, _, _, _⟩
    · refine ⟨0, c0, by simp, ?_⟩
      simp only [extract, List.head?_cons, htake, h1]
      simp
    · refine ⟨j, c, hj, ?_⟩
      simp only [extract, List.head?_cons, htake, h1, Nat.zero_add, hj]

/-- When the loop has no iterations (`max_iters ≤ 0`) no schedule changes a chain. -/
theorem exec_no_iterations [LinearOrderedField R] (S : SolverCoupled R) (E : Env Ω R)
    (x : List R) (fx0 : R) (h0 : S.max_iters ≤ 0) (sched : List (Event Ω R)) :
    (exec S E (init S x fx0) sched).shared_states = SharedStates S.m x fx0 := by
  have key := exec_invariant S E
    (fun s => s.shared_states = SharedStates S.m x fx0 ∧
      ∀ (i : Nat) (t : Thread R), s.threads[i]? = some t → t.pc = Pc.enter ∨ t.pc = Pc.top)
    (by
      intro s e ⟨hs, hp⟩
      have hset : ∀ (pc : Pc R) (mc : R), (pc = Pc.enter ∨ pc = Pc.top) →
          ∀ (i : Nat) (t : Thread R),
            (s.threads.set e.opt_id { pc := pc, max_cost := mc })[i]? = some t →
            t.pc = Pc.enter ∨ t.pc = Pc.top := by
        intro pc mc hpc i t ht
        rw [List.getElem?_set] at ht
        split at ht
        · split at ht
          · cases ht; exact hpc
          · cases ht
        · exact hp i t ht
      apply next_cases S E s e (fun s => s.shared_states = SharedStates S.m x fx0 ∧
        ∀ (i : Nat) (t : Thread R), s.threads[i]? = some t → t.pc = Pc.enter ∨ t.pc = Pc.top)
        ⟨hs, hp⟩
      · intro t c c0 _ _ _ _
        exact ⟨hs, hset _ _ (Or.inr rfl)⟩
      · intro t c _ _ _ h1 h2 _
        omega
      · intro t c imp iter y cost ht _ hpc _
        rcases hp _ t ht with h | h <;> rw [hpc] at h <;> cases h
      · intro t c imp iter y cost ht _ hpc
        rcases hp _ t ht with h | h <;> rw [hpc] at h <;> cases h
      · intro t c iter ht _ hpc _
        rcases hp _ t ht with h | h <;> rw [hpc] at h <;> cases h
      · intro t c iter ht _ hpc _
        rcases hp _ t ht with h | h <;> rw [hpc] at h <;> cases h
      · intro t c c0 iter ht _ _ hpc
        rcases hp _ t ht with h | h <;> rw [hpc] at h <;> cases h)
    sched (init S x fx0) ⟨rfl, by
      intro i t ht
      simp only [init, List.getElem?_replicate] at ht
      split at ht
      · cases ht; exact Or.inl rfl
      · cases ht⟩
  exact key.1

/-- C3: for `m ≥ 1`, every `max_iters` (in particular every `max_iters ≥ 0`), every
objective, step function, sequence of draws and schedule, `minimize` returns 0 and leaves
in `x` a point whose cost is at most the cost of the initial point; with `max_iters = 0`
that point is the initial point. -/
theorem minimize_not_worse [LinearOrderedField R] (S : SolverCoupled R) (E : Env Ω R)
    (x : List R) (sched : List (Event Ω R)) (hm : 1 ≤ S.m) :
    ∃ x_out : List R, minimize S E x sched = some (0, x_out) ∧ E.fx x_out ≤ E.fx x ∧
      (S.max_iters = 0 → x_out = x) := by
  have hI := inv_exec S E x sched
  rcases extract_mem S _ hm hI.chains_len with ⟨k, c, hk, hex⟩
  have hc := hI.chain_ok k c hk
  refine ⟨c.best_x, by simp [minimize, hex], ?_, ?_⟩
  · rw [← hc.2.1]
    exact hc.2.2.2
  · intro h0
    rw [run, exec_no_iterations S E x (E.fx x) (le_of_eq h0) sched] at hk
    simp only [SharedStates, List.getElem?_replicate] at hk
    split at hk
    · cases hk; rfl
    · cases hk

/-- Thread 0 of `demoSolver` enters, evaluates a candidate, takes the lock and writes. -/
theorem minimize_not_worse_witness :
    1 ≤ demoSolver.m ∧
    ∃ x_out : List ℚ,
      minimize demoSolver demoEnv [2, 3] [move0, move0, move0, move0] = some (0, x_out) ∧
      demoEnv.fx x_out ≤ demoEnv.fx [2, 3] ∧ (demoSolver.max_iters = 0 → x_out = [2, 3]) :=
  ⟨by decide, minimize_not_worse demoSolver demoEnv [2, 3] [move0, move0, move0, move0]
    (by decide)⟩

/-! ## The acceptance rule -/

/-- The sequential block `acceptReject` is what the moves of one thread do to its chain
when no other thread moves in between: from the head of the loop with the lock free, a
rejected candidate leaves the chain as it is after the decision, and an accepted one is
written by the third move (decision, `omp_set_lock`, writes). -/
theorem iteration_acceptReject [LinearOrderedField R] (S : SolverCoupled R) (E : Env Ω R)
    (s : State R) (e : Event Ω R) (t : Thread R) (c c0 : Context R)
    (ht : s.threads[e.opt_id]? = some t) (hc : s.shared_states[e.opt_id]? = some c)
    (hc0 : s.shared_states.head? = some c0) (hpc : t.pc = Pc.top) (hlock : s.lock = none)
    (h1 : 0 ≤ e.iter) (h2 : e.iter < S.max_iters) (h3 : e.iter ∉ s.started) :
    (decideBranch E.exp c (E.fx (E.step e.rnd c.x s.tgen)) t.max_cost s.tacc s.gamma e.unif
        = Branch.reject →
      (next S E s e).shared_states[e.opt_id]? =
        some (acceptReject E.exp c (E.step e.rnd c.x s.tgen) (E.fx (E.step e.rnd c.x s.tgen))
          t.max_cost s.tacc s.gamma e.unif)) ∧
    (decideBranch E.exp c (E.fx (E.step e.rnd c.x s.tgen)) t.max_cost s.tacc s.gamma e.unif
        ≠ Branch.reject →
      (exec S E s [e, e, e]).shared_states[e.opt_id]? =
        some (acceptReject E.exp c (E.step e.rnd c.x s.tgen) (E.fx (E.step e.rnd c.x s.tgen))
          t.max_cost s.tacc s.gamma e.unif)) := by
  have hi : e.opt_id < s.threads.length := (List.getElem?_eq_some.mp ht).1
  have hj : e.opt_id < s.shared_states.length := (List.getElem?_eq_some.mp hc).1
  have hg : 0 ≤ e.iter ∧ e.iter < S.max_iters ∧ e.iter ∉ s.started := ⟨h1, h2, h3⟩
  constructor
  · intro hb
    simp only [next, ht, hc, hc0, hpc, if_pos hg, acceptReject, hb]
  · intro hb
    cases hd : decideBranch E.exp c (E.fx (E.step e.rnd c.x s.tgen)) t.max_cost s.tacc
      s.gamma e.unif with
    | reject => exact absurd hd hb
    | improve =>
      simp [exec, next, ht, hc, hc0, hpc, hg, acceptReject, hd, afterDecision, hlock,
        List.getElem?_set_self hi, List.getElem?_set_self hj]
    | uphill =>
      simp [exec, next, ht, hc, hc0, hpc, hg, acceptReject, hd, afterDecision, hlock,
        List.getElem?_set_self hi, List.getElem?_set_self hj]

/-- C4: with "accepted" meaning that lines 97-118 take one of the two branches that call
`Context::step`: a candidate with `cost < currentCost` is accepted; any other candidate is
accepted if and only if `exp((currentCost - maxCost)/tacc)/gamma > u`; an accepted
candidate becomes the chain's current point and cost; a rejected one leaves the chain
(current point, current cost, best point, best cost) as it was. -/
theorem acceptance_rule [LinearOrderedField R] (exp : R → R) (c : Context R) (y : List R)
    (cost max_cost tacc gamma unif : R) :
    (cost < c.cost → decideBranch exp c cost max_cost tacc gamma unif ≠ Branch.reject) ∧
    (¬ cost < c.cost →
      (decideBranch exp c cost max_cost tacc gamma unif ≠ Branch.reject ↔
        exp ((c.cost - max_cost) / tacc) / gamma > unif)) ∧
    (decideBranch exp c cost max_cost tacc gamma unif ≠ Branch.reject →
      (acceptReject exp c y cost max_cost tacc gamma unif).x = y ∧
      (acceptReject exp c y cost max_cost tacc gamma unif).cost = cost) ∧
    (decideBranch exp c cost max_cost tacc gamma unif = Branch.reject →
      acceptReject exp c y cost max_cost tacc gamma unif = c) := by
  by_cases h1 : cost < c.cost
  · have hb : decideBranch exp c cost max_cost tacc gamma unif = Branch.improve := by
      simp [decideBranch, h1]
    refine ⟨fun _ => by simp [hb], fun h => absurd h1 h, fun _ => ?_, fun h => ?_⟩
    · by_cases h3 : cost < c.best_cost <;>
        simp [acceptReject, hb, commit, updateBest, Context.step, h3]
    · rw [hb] at h; cases h
  · by_cases h2 : exp ((c.cost - max_cost) / tacc) / gamma > unif
    · have hb : decideBranch exp c cost max_cost tacc gamma unif = Branch.uphill := by
        simp only [decideBranch, acceptProb, if_neg h1, if_pos h2]
      refine ⟨fun h => absurd h h1, fun _ => ⟨fun _ => h2, fun _ => by simp [hb]⟩,
        fun _ => ?_, fun h => ?_⟩
      · simp [acceptReject, hb, commit, Context.step]
      · rw [hb] at h; cases h
    · have hb : decideBranch exp c cost max_cost tacc gamma unif = Branch.reject := by
        simp only [decideBranch, acceptProb, if_neg h1, if_neg h2]
      refine ⟨fun h => absurd h h1, fun _ => ⟨fun h => absurd hb h, fun h => absurd h h2⟩,
        fun h => absurd hb h, fun _ => ?_⟩
      simp [acceptReject, hb]

/-! ## The temperature scheduler -/

/-- The scan of lines 121-124 returns the larger of its initial value and the largest
current cost it has seen. -/
theorem maxCostLoop_spec [LinearOrderedField R] (cs : List (Context R)) :
    ∀ init : R, init ≤ maxCostLoop cs init ∧
      (∀ c ∈ cs, c.cost ≤ maxCostLoop cs init) ∧
      (maxCostLoop cs init = init ∨ ∃ c ∈ cs, c.cost = maxCostLoop cs init) := by
  induction cs with
  | nil => intro init; simp [maxCostLoop]
  | cons c cs ih =>
    intro init
    have hstep : maxCostLoop (c :: cs) init =
        maxCostLoop cs (if c.cost > init then c.cost else init) := rfl
    rw [hstep]
    rcases ih (if c.cost > init then c.cost else init) with ⟨h1, h2, h3⟩
    by_cases h : c.cost > init
    · rw [if_pos h] at h1 h2 h3 ⊢
      refine ⟨le_trans (le_of_lt h) h1, ?_, ?_⟩
      · intro d hd
        rcases List.mem_cons.mp hd with rfl | hd
        · exact h1
        · exact h2 d hd
      · right
        rcases h3 with h3 | ⟨d, hd, hd2⟩
        · exact ⟨c, List.mem_cons_self _ _, h3.symm⟩
        · exact ⟨d, List.mem_cons_of_mem _ hd, hd2⟩
    · rw [if_neg h] at h1 h2 h3 ⊢
      refine ⟨h1, ?_, ?_⟩
      · intro d hd
        rcases List.mem_cons.mp hd with rfl | hd
        · exact le_trans (not_lt.mp h) h1
        · exact h2 d hd
      · rcases h3 with h3 | ⟨d, hd, hd2⟩
        · exact Or.inl h3
        · exact Or.inr ⟨d, List.mem_cons_of_mem _ hd, hd2⟩

/-- The loop of lines 127-131 adds to its accumulators the two sums of exponentials. -/
theorem sumLoop_spec [Field R] (exp : R → R) (max_cost tacc : R) (cs : List (Context R)) :
    ∀ acc : R × R, sumLoop exp cs max_cost tacc acc =
      (acc.1 + (cs.map (fun c => exp ((c.cost - max_cost) / tacc))).sum,
       acc.2 + (cs.map (fun c => exp (2 * (c.cost - max_cost) / tacc))).sum) := by
  induction cs with
  | nil => intro acc; simp [sumLoop]
  | cons c cs ih =>
    intro acc
    have hstep : sumLoop exp (c :: cs) max_cost tacc acc =
        sumLoop exp cs max_cost tacc (acc.1 + exp ((c.cost - max_cost) / tacc),
          acc.2 + exp (2 * ((c.cost - max_cost) / tacc))) := rfl
    rw [hstep, ih]
    simp only [List.map_cons, List.sum_cons, mul_div_assoc, add_assoc]

/-- The maximum found by an update is the largest current cost of the population. -/
theorem paramUpdate_max_cost [LinearOrderedField R] (S : SolverCoupled R) (exp : R → R)
    (ss : List (Context R)) (c0 : Context R) (tacc tgen : R)
    (hlen : ss.length = S.m.toNat) (h0 : ss.head? = some c0) :
    (∃ c ∈ ss, c.cost = (paramUpdate S exp ss c0 tacc tgen).max_cost) ∧
    ∀ c ∈ ss, c.cost ≤ (paramUpdate S exp ss c0 tacc tgen).max_cost := by
  have htake : ss.take S.m.toNat = ss := by rw [← hlen]; exact List.take_length ss
  have hmem : c0 ∈ ss := List.mem_of_mem_head? h0
  simp only [paramUpdate, htake]
  rcases maxCostLoop_spec ss c0.cost with ⟨_, h2, h3 | h3⟩
  · exact ⟨⟨c0, hmem, h3.symm⟩, h2⟩
  · exact ⟨h3, h2⟩

/-- C5: one temperature-scheduler update on a population of `m ≥ 1` chains with `tacc > 0`.
With `maxCost` the maximum current cost, `gamma = Σ exp((cost_k - maxCost)/tacc)`,
`sumA = Σ exp(2(cost_k - maxCost)/tacc)` and
`probVariance = (m (sumA / gamma²) - 1) / m²`, the update computes these values, the new
`tacc` is `tacc (1 + tacc_schedule)` if `probVariance > desired_variance` and
`tacc (1 - tacc_schedule)` otherwise, and the new `tgen` is `tgen_schedule * tgen`. -/
theorem scheduler_update [LinearOrderedField R] (S : SolverCoupled R) (exp : R → R)
    (ss : List (Context R)) (c0 : Context R) (tacc tgen : R)
    (hlen : ss.length = S.m.toNat) (h0 : ss.head? = some c0) (_htacc : 0 < tacc) :
    ∃ maxCost gamma sumA probVariance : R,
      (∃ c ∈ ss, c.cost = maxCost) ∧ (∀ c ∈ ss, c.cost ≤ maxCost) ∧
      gamma = (ss.map (fun c => exp ((c.cost - maxCost) / tacc))).sum ∧
      sumA = (ss.map (fun c => exp (2 * (c.cost - maxCost) / tacc))).sum ∧
      probVariance = ((S.m : R) * (sumA / gamma ^ 2) - 1) / (S.m : R) ^ 2 ∧
      (paramUpdate S exp ss c0 tacc tgen).max_cost = maxCost ∧
      (paramUpdate S exp ss c0 tacc tgen).gamma = gamma ∧
      (paramUpdate S exp ss c0 tacc tgen).sum_a = sumA ∧
      (paramUpdate S exp ss c0 tacc tgen).prob_var = probVariance ∧
      (paramUpdate S exp ss c0 tacc tgen).tacc =
        (if probVariance > S.desired_variance then tacc * (1 + S.tacc_schedule)
         else tacc * (1 - S.tacc_schedule)) ∧
      (paramUpdate S exp ss c0 tacc tgen).tgen = S.tgen_schedule * tgen := by
  have htake : ss.take S.m.toNat = ss := by rw [← hlen]; exact List.take_length ss
  have hmax := paramUpdate_max_cost S exp ss c0 tacc tgen hlen h0
  refine ⟨(paramUpdate S exp ss c0 tacc tgen).max_cost,
    (paramUpdate S exp ss c0 tacc tgen).gamma, (paramUpdate S exp ss c0 tacc tgen).sum_a,
    (paramUpdate S exp ss c0 tacc tgen).prob_var, hmax.1, hmax.2, ?_, ?_, ?_, rfl, rfl, rfl,
    rfl, ?_, rfl⟩
  · simp [paramUpdate, htake, sumLoop_spec]
  · simp [paramUpdate, htake, sumLoop_spec]
  · simp only [paramUpdate, probVar]
    push_cast
    ring
  · simp only [paramUpdate]
    split
    · ring
    · ring

/-- The update of `demoSolver` on `demoChains` at `tacc = 1`, `tgen = 1`. -/
theorem scheduler_update_witness :
    demoChains.length = demoSolver.m.toNat ∧
    demoChains.head? = some ⟨[2, 3], 5, [1, 2], 3⟩ ∧ (0 : ℚ) < 1 ∧
    ∃ maxCost gamma sumA probVariance : ℚ,
      (∃ c ∈ demoChains, c.cost = maxCost) ∧ (∀ c ∈ demoChains, c.cost ≤ maxCost) ∧
      gamma = (demoChains.map (fun c => demoEnv.exp ((c.cost - maxCost) / 1))).sum ∧
      sumA = (demoChains.map (fun c => demoEnv.exp (2 * (c.cost - maxCost) / 1))).sum ∧
      probVariance = ((demoSolver.m : ℚ) * (sumA / gamma ^ 2) - 1) / (demoSolver.m : ℚ) ^ 2 ∧
      (paramUpdate demoSolver demoEnv.exp demoChains ⟨[2, 3], 5, [1, 2], 3⟩ 1 1).max_cost
        = maxCost ∧
      (paramUpdate demoSolver demoEnv.exp demoChains ⟨[2, 3], 5, [1, 2], 3⟩ 1 1).gamma
        = gamma ∧
      (paramUpdate demoSolver demoEnv.exp demoChains ⟨[2, 3], 5, [1, 2], 3⟩ 1 1).sum_a
        = sumA ∧
      (paramUpdate demoSolver demoEnv.exp demoChains ⟨[2, 3], 5, [1, 2], 3⟩ 1 1).prob_var
        = probVariance ∧
      (paramUpdate demoSolver demoEnv.exp demoChains ⟨[2, 3], 5, [1, 2], 3⟩ 1 1).tacc =
        (if probVariance > demoSolver.desired_variance then 1 * (1 + demoSolver.tacc_schedule)
         else 1 * (1 - demoSolver.tacc_schedule)) ∧
      (paramUpdate demoSolver demoEnv.exp demoChains ⟨[2, 3], 5, [1, 2], 3⟩ 1 1).tgen =
        demoSolver.tgen_schedule * 1 :=
  ⟨rfl, rfl, by norm_num, scheduler_update demoSolver demoEnv.exp demoChains
    ⟨[2, 3], 5, [1, 2], 3⟩ 1 1 rfl rfl (by norm_num)⟩

/-- Only the update of lines 121-139 writes `tgen`: any other move leaves it as it is. -/
theorem next_tgen [LinearOrderedField R] (S : SolverCoupled R) (E : Env Ω R) (s : State R)
    (e : Event Ω R) :
    (next S E s e).tgen = s.tgen ∨
    ((∃ (t : Thread R) (iter : Int), s.threads[e.opt_id]? = some t ∧ t.pc = Pc.param iter) ∧
      (next S E s e).tgen = S.tgen_schedule * s.tgen) := by
  apply next_cases S E s e (fun s' => s'.tgen = s.tgen ∨
    ((∃ (t : Thread R) (iter : Int), s.threads[e.opt_id]? = some t ∧ t.pc = Pc.param iter) ∧
      s'.tgen = S.tgen_schedule * s.tgen)) (Or.inl rfl)
  · intros; exact Or.inl rfl
  · intros; exact Or.inl rfl
  · intros; exact Or.inl rfl
  · intros; exact Or.inl rfl
  · intros; exact Or.inl rfl
  · intros; exact Or.inl rfl
  · intro t c c0 iter ht _ _ hpc
    exact Or.inr ⟨⟨t, iter, ht, hpc⟩, rfl⟩

/-- With `tgen_initial > 0` and `tgen_schedule > 0`, `tgen` is positive after every
schedule. -/
theorem tgen_pos [LinearOrderedField R] (S : SolverCoupled R) (E : Env Ω R) (x : List R)
    (h0 : 0 < S.tgen_initial) (h1 : 0 < S.tgen_schedule) (sched : List (Event Ω R)) :
    0 < (run S E x sched).tgen := by
  refine exec_invariant S E (fun s => 0 < s.tgen) ?_ sched _ h0
  intro s e hs
  rcases next_tgen S E s e with h | ⟨_, h⟩
  · rw [h]; exact hs
  · rw [h]; exact mul_pos h1 hs

/-- A thread that holds the lock at `Pc.param` can always make its move, which multiplies
`tgen` by `tgen_schedule`. -/
theorem next_param_tgen [LinearOrderedField R] {S : SolverCoupled R} {E : Env Ω R}
    {x0 : List R} {s : State R} (hI : Inv S E x0 s) (e : Event Ω R) (t : Thread R)
    (iter : Int) (ht : s.threads[e.opt_id]? = some t) (hpc : t.pc = Pc.param iter) :
    (next S E s e).tgen = S.tgen_schedule * s.tgen := by
  have hi : e.opt_id < s.shared_states.length := by
    rw [hI.chains_len, ← hI.threads_len]
    exact (List.getElem?_eq_some.mp ht).1
  have hc : s.shared_states[e.opt_id]? = some s.shared_states[e.opt_id] :=
    List.getElem?_eq_getElem hi
  have hpos : 0 < s.shared_states.length := by omega
  have hc0 : s.shared_states.head? = some s.shared_states[0] := by
    rw [List.head?_eq_getElem?, List.getElem?_eq_getElem hpos]
  simp only [next, ht, hc, hc0, hpc]
  rfl

/-- C6: for `tgen_initial > 0` and `tgen_schedule` in `(0, 1]`, at every state `s` of a run
and for every move from it: `tgen` is positive before and after, it does not increase, a
move that changes it is a temperature-scheduler update (the thread is at `Pc.param`), and
every such update sets it to `tgen_schedule * tgen`, which is strictly smaller when
`tgen_schedule < 1`. -/
theorem tgen_nonincreasing [LinearOrderedField R] (S : SolverCoupled R) (E : Env Ω R)
    (x : List R) (h0 : 0 < S.tgen_initial) (h1 : 0 < S.tgen_schedule)
    (h2 : S.tgen_schedule ≤ 1) (sched : List (Event Ω R)) (e : Event Ω R) :
    0 < (run S E x sched).tgen ∧
    0 < (next S E (run S E x sched) e).tgen ∧
    (next S E (run S E x sched) e).tgen ≤
      (run S E x sched).tgen ∧
    ((next S E (run S E x sched) e).tgen ≠
        (run S E x sched).tgen →
      ∃ (t : Thread R) (iter : Int),
        (run S E x sched).threads[e.opt_id]? = some t ∧
        t.pc = Pc.param iter) ∧
    ∀ (t : Thread R) (iter : Int),
      (run S E x sched).threads[e.opt_id]? = some t →
      t.pc = Pc.param iter →
      (next S E (run S E x sched) e).tgen =
        S.tgen_schedule * (run S E x sched).tgen ∧
      (S.tgen_schedule < 1 →
        (next S E (run S E x sched) e).tgen <
          (run S E x sched).tgen) := by
  have hpos := tgen_pos S E x h0 h1 sched
  have hI := inv_exec S E x sched
  generalize run S E x sched = s at hpos hI
  have hcase := next_tgen S E s e
  refine ⟨hpos, ?_, ?_, ?_, ?_⟩
  · rcases hcase with h | ⟨_, h⟩
    · rw [h]; exact hpos
    · rw [h]; exact mul_pos h1 hpos
  · rcases hcase with h | ⟨_, h⟩
    · rw [h]
    · rw [h]
      calc S.tgen_schedule * s.tgen ≤ 1 * s.tgen :=
            mul_le_mul_of_nonneg_right h2 (le_of_lt hpos)
        _ = s.tgen := one_mul _
  · intro hne
    rcases hcase with h | ⟨h, _⟩
    · exact absurd h hne
    · exact h
  · intro t iter ht hpc
    have h := next_param_tgen hI e t iter ht hpc
    refine ⟨h, fun hlt => ?_⟩
    rw [h]
    calc S.tgen_schedule * s.tgen < 1 * s.tgen := mul_lt_mul_of_pos_right hlt hpos
      _ = s.tgen := one_mul _

/-- The first move of a run of `demoSolver`, whose `tgen_schedule` is `1/2`. -/
theorem tgen_nonincreasing_witness :
    (0 : ℚ) < demoSolver.tgen_initial ∧ 0 < demoSolver.tgen_schedule ∧
    demoSolver.tgen_schedule ≤ 1 ∧
    (0 < (run demoSolver demoEnv [2, 3] []).tgen ∧
    0 < (next demoSolver demoEnv (run demoSolver demoEnv [2, 3] []) move0).tgen ∧
    (next demoSolver demoEnv (run demoSolver demoEnv [2, 3] []) move0).tgen ≤
      (run demoSolver demoEnv [2, 3] []).tgen ∧
    ((next demoSolver demoEnv (run demoSolver demoEnv [2, 3] []) move0).tgen ≠
        (run demoSolver demoEnv [2, 3] []).tgen →
      ∃ (t : Thread ℚ) (iter : Int),
        (run demoSolver demoEnv [2, 3] []).threads[(move0 : Event Unit ℚ).opt_id]? = some t ∧
        t.pc = Pc.param iter) ∧
    ∀ (t : Thread ℚ) (iter : Int),
      (run demoSolver demoEnv [2, 3] []).threads[(move0 : Event Unit ℚ).opt_id]? = some t →
      t.pc = Pc.param iter →
      (next demoSolver demoEnv (run demoSolver demoEnv [2, 3] []) move0).tgen =
        demoSolver.tgen_schedule * (run demoSolver demoEnv [2, 3] []).tgen ∧
      (demoSolver.tgen_schedule < 1 →
        (next demoSolver demoEnv (run demoSolver demoEnv [2, 3] []) move0).tgen <
          (run demoSolver demoEnv [2, 3] []).tgen)) :=
  ⟨by norm_num [demoSolver], by norm_num [demoSolver], by norm_num [demoSolver],
    tgen_nonincreasing demoSolver demoEnv [2, 3] (by norm_num [demoSolver])
      (by norm_num [demoSolver]) (by norm_num [demoSolver]) [] move0⟩

/-- When every chain has the current cost of the first one, the update finds that cost as
the maximum. -/
theorem paramUpdate_max_cost_same [LinearOrderedField R] (S : SolverCoupled R) (exp : R → R)
    (ss : List (Context R)) (c0 : Context R) (tacc tgen : R)
    (hlen : ss.length = S.m.toNat) (h0 : ss.head? = some c0)
    (hsame : ∀ c ∈ ss, c.cost = c0.cost) :
    (paramUpdate S exp ss c0 tacc tgen).max_cost = c0.cost := by
  rcases (paramUpdate_max_cost S exp ss c0 tacc tgen hlen h0).1 with ⟨c, hc, h⟩
  rw [← h]
  exact hsame c hc

/-- A sum of `exp(k (cost - cost0)/tacc)` over chains that all have current cost `cost0`
is the number of chains. -/
theorem sum_exp_same (cost0 tacc k : ℝ) (l : List (Context ℝ))
    (hl : ∀ c ∈ l, c.cost = cost0) :
    (l.map (fun c => Real.exp (k * (c.cost - cost0) / tacc))).sum = (l.length : ℝ) := by
  induction l with
  | nil => simp
  | cons c l ih =>
    have hc : c.cost = cost0 := hl c (List.mem_cons_self _ _)
    rw [List.map_cons, List.sum_cons, ih (fun d hd => hl d (List.mem_cons_of_mem _ hd)), hc]
    simp only [sub_self, mul_zero, zero_div, Real.exp_zero, List.length_cons]
    push_cast
    ring

/-- When every chain has the current cost of the first one, the update computes the number
of chains as `gamma`. -/
theorem paramUpdate_gamma_same (S : SolverCoupled ℝ) (ss : List (Context ℝ))
    (c0 : Context ℝ) (tacc tgen : ℝ) (hlen : ss.length = S.m.toNat)
    (h0 : ss.head? = some c0) (hsame : ∀ c ∈ ss, c.cost = c0.cost) :
    (paramUpdate S Real.exp ss c0 tacc tgen).gamma = (ss.length : ℝ) := by
  have htake : ss.take S.m.toNat = ss := by rw [← hlen]; exact List.take_length ss
  have hmax := paramUpdate_max_cost_same S Real.exp ss c0 tacc tgen hlen h0 hsame
  simp only [paramUpdate, htake] at hmax
  simp only [paramUpdate, htake, sumLoop_spec, hmax, zero_add]
  have h := sum_exp_same c0.cost tacc 1 ss hsame
  simp only [one_mul] at h
  exact h

/-- C7: if all `m ≥ 1` chains have the same current cost and `tacc > 0`, a
temperature-scheduler update computes `gamma = m`, `sum_a = m` and `prob_var = 0`, and for
`desired_variance > 0` it takes the decrease branch: the new `tacc` is
`tacc - tacc_schedule * tacc`. -/
theorem equal_costs_update (S : SolverCoupled ℝ) (ss : List (Context ℝ)) (c0 : Context ℝ)
    (tacc tgen : ℝ) (hm : 1 ≤ S.m) (hlen : ss.length = S.m.toNat) (h0 : ss.head? = some c0)
    (_htacc : 0 < tacc) (hsame : ∀ c ∈ ss, c.cost = c0.cost) :
    (paramUpdate S Real.exp ss c0 tacc tgen).gamma = (S.m : ℝ) ∧
    (paramUpdate S Real.exp ss c0 tacc tgen).sum_a = (S.m : ℝ) ∧
    (paramUpdate S Real.exp ss c0 tacc tgen).prob_var = 0 ∧
    (0 < S.desired_variance →
      (paramUpdate S Real.exp ss c0 tacc tgen).tacc = tacc - S.tacc_schedule * tacc) := by
  have htake : ss.take S.m.toNat = ss := by rw [← hlen]; exact List.take_length ss
  have hmax := paramUpdate_max_cost_same S Real.exp ss c0 tacc tgen hlen h0 hsame
  simp only [paramUpdate, htake] at hmax
  have hmR : ((ss.length : Nat) : ℝ) = (S.m : ℝ) := by
    rw [hlen]
    have h : ((S.m.toNat : Int) : ℝ) = (S.m : ℝ) := by rw [Int.toNat_of_nonneg (by omega)]
    exact_mod_cast h
  have hm0 : (S.m : ℝ) ≠ 0 := by
    have : (1 : ℝ) ≤ (S.m : ℝ) := by exact_mod_cast hm
    linarith
  have hg : (paramUpdate S Real.exp ss c0 tacc tgen).gamma = (S.m : ℝ) := by
    rw [paramUpdate_gamma_same S ss c0 tacc tgen hlen h0 hsame, hmR]
  have ha : (paramUpdate S Real.exp ss c0 tacc tgen).sum_a = (S.m : ℝ) := by
    simp only [paramUpdate, htake, sumLoop_spec, hmax, zero_add]
    rw [sum_exp_same c0.cost tacc 2 ss hsame, hmR]
  have hv : (paramUpdate S Real.exp ss c0 tacc tgen).prob_var = 0 := by
    have h : (paramUpdate S Real.exp ss c0 tacc tgen).prob_var =
        probVar S.m (paramUpdate S Real.exp ss c0 tacc tgen).gamma
          (paramUpdate S Real.exp ss c0 tacc tgen).sum_a := rfl
    rw [h, hg, ha]
    simp only [probVar]
    push_cast
    field_simp
  refine ⟨hg, ha, hv, fun hd => ?_⟩
  have h : (paramUpdate S Real.exp ss c0 tacc tgen).tacc =
      (if (paramUpdate S Real.exp ss c0 tacc tgen).prob_var > S.desired_variance then
        tacc + S.tacc_schedule * tacc else tacc - S.tacc_schedule * tacc) := rfl
  rw [h, hv, if_neg (not_lt.mpr (le_of_lt hd))]

/-- The update of `pairSolver` on `levelChains` at `tacc = 1`. -/
theorem equal_costs_update_witness :
    (1 : Int) ≤ (pairSolver : SolverCoupled ℝ).m ∧
    (levelChains : List (Context ℝ)).length = (pairSolver : SolverCoupled ℝ).m.toNat ∧
    (levelChains : List (Context ℝ)).head? = some ⟨[0], 1, [0], 1⟩ ∧
    (0 : ℝ) < 1 ∧
    (∀ c ∈ (levelChains : List (Context ℝ)),
      c.cost = (⟨[0], 1, [0], 1⟩ : Context ℝ).cost) ∧
    (paramUpdate pairSolver Real.exp levelChains ⟨[0], 1, [0], 1⟩ 1 1).gamma =
      ((pairSolver : SolverCoupled ℝ).m : ℝ) ∧
    (paramUpdate pairSolver Real.exp levelChains ⟨[0], 1, [0], 1⟩ 1 1).sum_a =
      ((pairSolver : SolverCoupled ℝ).m : ℝ) ∧
    (paramUpdate pairSolver Real.exp levelChains ⟨[0], 1, [0], 1⟩ 1 1).prob_var = 0 ∧
    (0 < (pairSolver : SolverCoupled ℝ).desired_variance →
      (paramUpdate pairSolver Real.exp levelChains ⟨[0], 1, [0], 1⟩ 1 1).tacc =
        1 - (pairSolver : SolverCoupled ℝ).tacc_schedule * 1) :=
  ⟨by decide, rfl, rfl, by norm_num, by simp [levelChains],
    equal_costs_update pairSolver levelChains ⟨[0], 1, [0], 1⟩ 1 1 (by decide) rfl rfl
      (by norm_num) (by simp [levelChains])⟩

/-! ## A single chain -/

/-- In a run with `m = 1`, `gamma` is 1 at every state, and whenever the thread is at the
head of the loop its `max_cost` is the current cost of the chain. -/
theorem single_chain_inv (S : SolverCoupled ℝ) (E : Env Ω ℝ) (hexp : E.exp = Real.exp)
    (hm : S.m = 1) (x : List ℝ) (sched : List (Event Ω ℝ)) :
    (run S E x sched).gamma = 1 ∧
    ∀ (t : Thread ℝ) (c : Context ℝ),
      (run S E x sched).threads[0]? = some t →
      (run S E x sched).shared_states[0]? = some c →
      t.pc = Pc.top → t.max_cost = c.cost := by
  have key := exec_invariant S E
    (fun s => Inv S E x s ∧ s.gamma = 1 ∧
      ∀ (t : Thread ℝ) (c : Context ℝ), s.threads[0]? = some t →
        s.shared_states[0]? = some c → t.pc = Pc.top → t.max_cost = c.cost)
    (by
      intro s e ⟨hI, hg, hmx⟩
      refine ⟨inv_next hI e, ?_⟩
      have hone : s.threads.length = 1 := by rw [hI.threads_len, hm]; rfl
      have hone' : s.shared_states.length = 1 := by rw [hI.chains_len, hm]; rfl
      have hid : ∀ t : Thread ℝ, s.threads[e.opt_id]? = some t → e.opt_id = 0 := by
        intro t ht
        have := (List.getElem?_eq_some.mp ht).1
        omega
      have hset : ∀ (a t' : Thread ℝ), (s.threads.set 0 a)[0]? = some t' → t' = a := by
        intro a t' h
        rw [List.getElem?_set_self (by omega)] at h
        cases h
        rfl
      apply next_cases S E s e (fun s' => s'.gamma = 1 ∧
        ∀ (t : Thread ℝ) (c : Context ℝ), s'.threads[0]? = some t →
          s'.shared_states[0]? = some c → t.pc = Pc.top → t.max_cost = c.cost) ⟨hg, hmx⟩
      · intro t c c0 ht _ hc0 _
        refine ⟨hg, ?_⟩
        intro t' c' ht' hc' _
        simp only [hid t ht] at ht'
        rw [hset _ t' ht']
        rw [List.head?_eq_getElem?, hc'] at hc0
        cases hc0
        rfl
      · intro t c ht _ _ _ _ _
        refine ⟨hg, ?_⟩
        intro t' c' ht' _ hpc'
        simp only [hid t ht] at ht'
        rw [hset _ t' ht'] at hpc'
        revert hpc'
        cases decideBranch E.exp c (E.fx (E.step e.rnd c.x s.tgen)) t.max_cost s.tacc s.gamma
          e.unif <;> simp [afterDecision]
      · intro t c imp iter y cost ht _ _ _
        refine ⟨hg, ?_⟩
        intro t' c' ht' _ hpc'
        simp only [hid t ht] at ht'
        rw [hset _ t' ht'] at hpc'
        cases hpc'
      · intro t c imp iter y cost ht _ _
        refine ⟨hg, ?_⟩
        intro t' c' ht' _ hpc'
        simp only [hid t ht] at ht'
        rw [hset _ t' ht'] at hpc'
        cases hpc'
      · intro t c iter ht _ _ _
        refine ⟨hg, ?_⟩
        intro t' c' ht' _ hpc'
        simp only [hid t ht] at ht'
        rw [hset _ t' ht'] at hpc'
        cases hpc'
      · intro t c iter ht _ hpc hlock
        exfalso
        cases hl : s.lock with
        | none => exact hlock hl
        | some j =>
          have hj : j = 0 := by have := hI.lock_owner j hl; omega
          have h := (hI.lock_held _ t ht).mpr (by rw [hl, hj, hid t ht])
          rw [hpc] at h
          cases h
      · intro t c c0 iter ht _ hc0 _
        have hss : s.shared_states = [c0] := by
          cases hs : s.shared_states with
          | nil => rw [hs] at hone'; cases hone'
          | cons a l =>
            rw [hs] at hone' hc0
            cases l with
            | nil => simp at hc0; rw [hc0]
            | cons b l => simp at hone'
        have hlen : s.shared_states.length = S.m.toNat := hI.chains_len
        have hsame : ∀ d ∈ s.shared_states, d.cost = c0.cost := by
          intro d hd
          rw [hss] at hd
          simp at hd
          rw [hd]
        refine ⟨?_, ?_⟩
        · show (paramUpdate S E.exp s.shared_states c0 s.tacc s.tgen).gamma = 1
          rw [hexp, paramUpdate_gamma_same S _ c0 _ _ hlen hc0 hsame, hone']
          norm_num
        · intro t' c' ht' hc' _
          simp only [hid t ht] at ht'
          rw [hset _ t' ht']
          show (paramUpdate S E.exp s.shared_states c0 s.tacc s.tgen).max_cost = c'.cost
          rw [paramUpdate_max_cost_same S E.exp _ c0 _ _ hlen hc0 hsame]
          have hc'' : s.shared_states[0]? = some c' := hc'
          rw [hss] at hc''
          simp at hc''
          rw [hc''])
    sched (init S x (E.fx x)) ⟨inv_init S E x, by simp [init, hm], by
      intro t c ht _ hpc
      simp only [init, List.getElem?_replicate] at ht
      split at ht
      · cases ht; cases hpc
      · cases ht⟩
  exact key.2

/-- C8: in a run with `m = 1` in which `tacc` stays positive, at every state `gamma = 1`,
and at every acceptance decision (the thread at the head of the loop) the thread's
`max_cost` is the chain's current cost; so a candidate with `cost < currentCost` takes the
improvement branch, and for any other candidate `exp((currentCost - maxCost)/tacc)/gamma`
is 1 and the candidate is accepted for every draw `u < 1`. -/
theorem single_chain_acceptance (S : SolverCoupled ℝ) (E : Env Ω ℝ)
    (hexp : E.exp = Real.exp) (hm : S.m = 1) (x : List ℝ) (sched : List (Event Ω ℝ))
    (_htacc : ∀ k : Nat, 0 < (run S E x (sched.take k)).tacc) :
    (run S E x sched).gamma = 1 ∧
    ∀ (t : Thread ℝ) (c : Context ℝ),
      (run S E x sched).threads[0]? = some t →
      (run S E x sched).shared_states[0]? = some c →
      t.pc = Pc.top →
      t.max_cost = c.cost ∧
      ∀ cost unif : ℝ, unif < 1 →
        (cost < c.cost →
          decideBranch E.exp c cost t.max_cost (run S E x sched).tacc
            (run S E x sched).gamma unif = Branch.improve) ∧
        (¬ cost < c.cost →
          Real.exp ((c.cost - t.max_cost) / (run S E x sched).tacc) /
            (run S E x sched).gamma = 1 ∧
          decideBranch E.exp c cost t.max_cost (run S E x sched).tacc
            (run S E x sched).gamma unif = Branch.uphill) := by
  have hinv := single_chain_inv S E hexp hm x sched
  refine ⟨hinv.1, ?_⟩
  intro t c ht hc hpc
  have hmax := hinv.2 t c ht hc hpc
  refine ⟨hmax, ?_⟩
  intro cost unif hu
  have hprob : Real.exp ((c.cost - t.max_cost) /
      (run S E x sched).tacc) /
      (run S E x sched).gamma = 1 := by
    rw [hinv.1, hmax, sub_self, zero_div, Real.exp_zero, div_one]
  refine ⟨fun h => by simp [decideBranch, h], fun h => ⟨hprob, ?_⟩⟩
  simp only [decideBranch, acceptProb, if_neg h, hexp, hprob]
  rw [if_pos hu]

/-- A single-chain run over the reals after the thread has entered the loop. -/
theorem single_chain_acceptance_witness :
    (stayEnv Real.exp).exp = Real.exp ∧ (soloSolver : SolverCoupled ℝ).m = 1 ∧
    (∀ k : Nat, 0 < (run soloSolver (stayEnv Real.exp) [2, 3] ([move0].take k)).tacc) ∧
    ((run soloSolver (stayEnv Real.exp) [2, 3] [move0]).gamma = 1 ∧
    ∀ (t : Thread ℝ) (c : Context ℝ),
      (run soloSolver (stayEnv Real.exp) [2, 3] [move0]).threads[0]? = some t →
      (run soloSolver (stayEnv Real.exp) [2, 3] [move0]).shared_states[0]? = some c →
      t.pc = Pc.top →
      t.max_cost = c.cost ∧
      ∀ cost unif : ℝ, unif < 1 →
        (cost < c.cost →
          decideBranch (stayEnv Real.exp).exp c cost t.max_cost
            (run soloSolver (stayEnv Real.exp) [2, 3] [move0]).tacc
            (run soloSolver (stayEnv Real.exp) [2, 3] [move0]).gamma unif = Branch.improve) ∧
        (¬ cost < c.cost →
          Real.exp ((c.cost - t.max_cost) /
              (run soloSolver (stayEnv Real.exp) [2, 3] [move0]).tacc) /
            (run soloSolver (stayEnv Real.exp) [2, 3] [move0]).gamma = 1 ∧
          decideBranch (stayEnv Real.exp).exp c cost t.max_cost
            (run soloSolver (stayEnv Real.exp) [2, 3] [move0]).tacc
            (run soloSolver (stayEnv Real.exp) [2, 3] [move0]).gamma unif = Branch.uphill)) :=
  ⟨rfl, rfl,
    by intro k; cases k <;>
      simp [run, exec, next, init, SharedStates, List.replicate, soloSolver, stayEnv, move0],
    single_chain_acceptance soloSolver (stayEnv Real.exp) rfl rfl [2, 3] [move0]
      (by intro k; cases k <;>
        simp [run, exec, next, init, SharedStates, List.replicate, soloSolver, stayEnv,
          move0])⟩

/-! ## The accept path and the spec's `replace` -/

/-- On a chain whose best cost is not above its current cost, the writes of either accept
branch are the spec's `replace`, provided the branch flag agrees with the comparison of
line 97. -/
theorem commit_eq_specReplace [LinearOrderedField R] (c : Context R) (imp : Bool)
    (y : List R) (cost : R) (hbest : c.best_cost ≤ c.cost)
    (himp : imp = true ↔ cost < c.cost) : commit c imp y cost = specReplace c y cost := by
  cases imp
  · have hge : c.cost ≤ cost := not_lt.mp (fun h => by simpa using himp.mpr h)
    have hnot : ¬ cost < c.best_cost := not_lt.mpr (le_trans hbest hge)
    simp [commit, Context.step, specReplace, hnot]
  · by_cases h : cost < c.best_cost
    · simp [commit, updateBest, Context.step, specReplace, h]
    · simp [commit, updateBest, Context.step, specReplace, h]

/-- C9: in every state of a run, when a thread holds the lock with an accepted candidate
`(y, cost)` (from the improvement branch, `imp = true`, or from the probabilistic branch,
`imp = false`), its move turns its chain `c` into `replace(y, cost)` of the spec: current
point and cost overwritten, best point and cost overwritten if and only if
`cost < best_cost`. -/
theorem accept_refines_replace [LinearOrderedField R] (S : SolverCoupled R) (E : Env Ω R)
    (x : List R) (sched : List (Event Ω R)) (e : Event Ω R) (t : Thread R) (c : Context R)
    (imp : Bool) (iter : Int) (y : List R) (cost : R)
    (ht : (run S E x sched).threads[e.opt_id]? = some t)
    (hc : (run S E x sched).shared_states[e.opt_id]? = some c)
    (hpc : t.pc = Pc.locked imp iter y cost) :
    (next S E (run S E x sched) e).shared_states[e.opt_id]? =
      some (specReplace c y cost) := by
  have hI := inv_exec S E x sched
  generalize run S E x sched = s at ht hc hI
  have hcand := hI.cand_ok _ t c ht hc
  rw [hpc] at hcand
  have hok := hI.chain_ok _ c hc
  have hi : e.opt_id < s.shared_states.length := (List.getElem?_eq_some.mp hc).1
  have hc0 : s.shared_states.head? = some s.shared_states[0] := by
    rw [List.head?_eq_getElem?, List.getElem?_eq_getElem (by omega)]
  simp only [next, ht, hc, hc0, hpc]
  rw [List.getElem?_set_self hi, commit_eq_specReplace c imp y cost hok.2.2.1 hcand.2]

/-- Thread 0 of `demoSolver` has entered, found the candidate `(1, 2)` of cost 3 below its
current cost 5, and taken the lock. -/
theorem accept_refines_replace_witness :
    (run demoSolver demoEnv [2, 3] [move0, move0, move0]).threads[
        (move0 : Event Unit ℚ).opt_id]? = some ⟨Pc.locked true 0 [1, 2] 3, 5⟩ ∧
    (run demoSolver demoEnv [2, 3] [move0, move0, move0]).shared_states[
        (move0 : Event Unit ℚ).opt_id]? = some ⟨[2, 3], 5, [2, 3], 5⟩ ∧
    (next demoSolver demoEnv (run demoSolver demoEnv [2, 3] [move0, move0, move0])
      move0).shared_states[(move0 : Event Unit ℚ).opt_id]? =
      some (specReplace ⟨[2, 3], 5, [2, 3], 5⟩ [1, 2] 3) :=
  have ht : (run demoSolver demoEnv [2, 3] [move0, move0, move0]).threads[
      (move0 : Event Unit ℚ).opt_id]? = some ⟨Pc.locked true 0 [1, 2] 3, 5⟩ := by
    simp [run, exec, next, init, demoSolver, demoEnv, SharedStates, decideBranch,
      afterDecision, List.replicate, move0]
    norm_num
  have hc : (run demoSolver demoEnv [2, 3] [move0, move0, move0]).shared_states[
      (move0 : Event Unit ℚ).opt_id]? = some ⟨[2, 3], 5, [2, 3], 5⟩ := by
    simp [run, exec, next, init, demoSolver, demoEnv, SharedStates, decideBranch,
      afterDecision, List.replicate, move0]
    norm_num
  ⟨ht, hc, accept_refines_replace demoSolver demoEnv [2, 3] [move0, move0, move0] move0
    ⟨Pc.locked true 0 [1, 2] 3, 5⟩ ⟨[2, 3], 5, [2, 3], 5⟩ true 0 [1, 2] 3 ht hc rfl⟩

/-! ## Coupling -/

/-- C10, as the spec states it, fails: take the two chains of `slopeChains`, with current
costs 0 and 1, at `tacc = 1`, with `max_cost = 1` and `gamma = exp(-1) + 1` as a
temperature-scheduler update computes them. The chain at cost 0 is the one nearer the
population's best cost (it attains it), and its acceptance probability
`exp((0 - 1)/1)/gamma` is not higher than `exp((1 - 1)/1)/gamma` of the other chain. -/
theorem coupling_nearer_best_not_higher :
    ¬ (acceptProb Real.exp 0
        (paramUpdate (pairSolver : SolverCoupled ℝ) Real.exp slopeChains
          ⟨[0], 0, [0], 0⟩ 1 1).max_cost 1
        (paramUpdate (pairSolver : SolverCoupled ℝ) Real.exp slopeChains
          ⟨[0], 0, [0], 0⟩ 1 1).gamma >
      acceptProb Real.exp 1
        (paramUpdate (pairSolver : SolverCoupled ℝ) Real.exp slopeChains
          ⟨[0], 0, [0], 0⟩ 1 1).max_cost 1
        (paramUpdate (pairSolver : SolverCoupled ℝ) Real.exp slopeChains
          ⟨[0], 0, [0], 0⟩ 1 1).gamma) := by
  have hmax : (paramUpdate (pairSolver : SolverCoupled ℝ) Real.exp slopeChains
      ⟨[0], 0, [0], 0⟩ 1 1).max_cost = 1 := by
    simp [paramUpdate, pairSolver, slopeChains, maxCostLoop]
  have hgamma : (paramUpdate (pairSolver : SolverCoupled ℝ) Real.exp slopeChains
      ⟨[0], 0, [0], 0⟩ 1 1).gamma = Real.exp (-1) + 1 := by
    simp [paramUpdate, pairSolver, slopeChains, maxCostLoop, sumLoop]
  have hpos : (0 : ℝ) < Real.exp (-1) + 1 := by positivity
  have hle : Real.exp (-1) ≤ Real.exp 0 := Real.exp_le_exp.mpr (by norm_num)
  rw [hmax, hgamma, gt_iff_lt, not_lt]
  unfold acceptProb
  have h1 : ((0 : ℝ) - 1) / 1 = -1 := by norm_num
  have h2 : ((1 : ℝ) - 1) / 1 = 0 := by norm_num
  rw [h1, h2]
  exact div_le_div_of_nonneg_right hle (le_of_lt hpos)

/-- C10, amended: for fixed `maxCost`, `tacc > 0` and `gamma > 0`, of two chains with
different current costs the one with the higher current cost (farther from the
population's lowest cost, nearer `maxCost`) has the strictly higher uphill acceptance
probability `exp((currentCost - maxCost)/tacc)/gamma`. -/
theorem coupling_higher_cost_higher_prob (c1 c2 maxCost tacc gamma : ℝ) (htacc : 0 < tacc)
    (hgamma : 0 < gamma) (h : c1 < c2) :
    acceptProb Real.exp c1 maxCost tacc gamma < acceptProb Real.exp c2 maxCost tacc gamma := by
  unfold acceptProb
  have h1 : (c1 - maxCost) / tacc < (c2 - maxCost) / tacc :=
    (div_lt_div_iff_of_pos_right htacc).mpr (sub_lt_sub_right h maxCost)
  exact (div_lt_div_iff_of_pos_right hgamma).mpr (Real.exp_lt_exp.mpr h1)

/-- The two chains of the counterexample: costs 0 and 1, `maxCost = 1`, `tacc = 1`,
`gamma = 1`. -/
theorem coupling_higher_cost_higher_prob_witness :
    (0 : ℝ) < 1 ∧ (0 : ℝ) < 1 ∧ (0 : ℝ) < 1 ∧
    acceptProb Real.exp 0 1 1 1 < acceptProb Real.exp 1 1 1 1 :=
  ⟨by norm_num, by norm_num, by norm_num,
    coupling_higher_cost_higher_prob 0 1 1 1 1 (by norm_num) (by norm_num) (by norm_num)⟩

/-! ## Best cost and current cost -/

/-- C20: in every state of a run every chain has `best_cost ≤ cost`; in particular a
candidate that lines 111-113 accept through the probabilistic branch does not have a cost
below the chain's `best_cost`, neither at the decision nor while the thread waits for or
holds the lock, and the write of line 115 keeps `best_cost ≤ cost`. -/
theorem best_cost_le_cost [LinearOrderedField R] (S : SolverCoupled R) (E : Env Ω R)
    (x : List R) (sched : List (Event Ω R)) :
    (∀ (i : Nat) (c : Context R), (run S E x sched).shared_states[i]? = some c →
      c.best_cost ≤ c.cost) ∧
    (∀ (i : Nat) (c : Context R) (cost max_cost tacc gamma unif : R),
      (run S E x sched).shared_states[i]? = some c →
      decideBranch E.exp c cost max_cost tacc gamma unif = Branch.uphill →
      ¬ cost < c.best_cost) ∧
    ∀ (i : Nat) (t : Thread R) (c : Context R) (iter : Int) (y : List R) (cost : R),
      (run S E x sched).threads[i]? = some t →
      (run S E x sched).shared_states[i]? = some c →
      (t.pc = Pc.setLock false iter y cost ∨ t.pc = Pc.locked false iter y cost) →
      ¬ cost < c.best_cost ∧
      (commit c false y cost).best_cost ≤ (commit c false y cost).cost := by
  have hI := inv_exec S E x sched
  refine ⟨fun i c hc => (hI.chain_ok i c hc).2.2.1, ?_, ?_⟩
  · intro i c cost max_cost tacc gamma unif hc hb
    have hbest := (hI.chain_ok i c hc).2.2.1
    have hge : ¬ cost < c.cost := by
      intro h
      simp [decideBranch, h] at hb
    exact not_lt.mpr (le_trans hbest (not_lt.mp hge))
  · intro i t c iter y cost ht hc hpc
    have hbest := (hI.chain_ok i c hc).2.2.1
    have hcand := hI.cand_ok i t c ht hc
    have hge : ¬ cost < c.cost := by
      rcases hpc with h | h <;> rw [h] at hcand <;>
        exact fun hlt => by simpa using hcand.2.mpr hlt
    have hle : c.best_cost ≤ cost := le_trans hbest (not_lt.mp hge)
    exact ⟨not_lt.mpr hle, by simpa [commit, Context.step] using hle⟩

/-! ## Frame of a move -/

/-- C12: a move of thread `e.opt_id` leaves every other chain and every other thread's
private variables as they were. If the thread is not at `Pc.param` (its move belongs to
the accept/reject step, or is line 76 or `omp_test_lock`), `tacc`, `tgen` and `gamma` are
unchanged. If it is at `Pc.param` (its move is the temperature-scheduler update), no chain
changes, and neither do the progress calls or the iterations handed out: the update writes
only `tacc`, `tgen`, `gamma`, the thread's `max_cost`, and releases the lock. -/
theorem frame_of_move [LinearOrderedField R] (S : SolverCoupled R) (E : Env Ω R)
    (s : State R) (e : Event Ω R) :
    (∀ j : Nat, j ≠ e.opt_id →
      (next S E s e).shared_states[j]? = s.shared_states[j]? ∧
      (next S E s e).threads[j]? = s.threads[j]?) ∧
    (∀ t : Thread R, s.threads[e.opt_id]? = some t → (∀ iter : Int, t.pc ≠ Pc.param iter) →
      (next S E s e).tacc = s.tacc ∧ (next S E s e).tgen = s.tgen ∧
      (next S E s e).gamma = s.gamma) ∧
    ∀ (t : Thread R) (iter : Int), s.threads[e.opt_id]? = some t → t.pc = Pc.param iter →
      (next S E s e).shared_states = s.shared_states ∧ (next S E s e).calls = s.calls ∧
      (next S E s e).started = s.started := by
  apply next_cases S E s e (fun s' =>
    (∀ j : Nat, j ≠ e.opt_id →
      s'.shared_states[j]? = s.shared_states[j]? ∧ s'.threads[j]? = s.threads[j]?) ∧
    (∀ t : Thread R, s.threads[e.opt_id]? = some t → (∀ iter : Int, t.pc ≠ Pc.param iter) →
      s'.tacc = s.tacc ∧ s'.tgen = s.tgen ∧ s'.gamma = s.gamma) ∧
    ∀ (t : Thread R) (iter : Int), s.threads[e.opt_id]? = some t → t.pc = Pc.param iter →
      s'.shared_states = s.shared_states ∧ s'.calls = s.calls ∧ s'.started = s.started)
  · exact ⟨fun _ _ => ⟨rfl, rfl⟩, fun _ _ _ => ⟨rfl, rfl, rfl⟩, fun _ _ _ _ => ⟨rfl, rfl, rfl⟩⟩
  · intro t c c0 ht _ _ hpc
    refine ⟨fun j hj => ⟨rfl, List.getElem?_set_ne (Ne.symm hj)⟩, fun _ _ _ => ⟨rfl, rfl, rfl⟩,
      ?_⟩
    intro t' iter ht' hpc'
    rw [ht] at ht'; cases ht'; rw [hpc] at hpc'; cases hpc'
  · intro t c ht _ hpc _ _ _
    refine ⟨fun j hj => ⟨rfl, List.getElem?_set_ne (Ne.symm hj)⟩, fun _ _ _ => ⟨rfl, rfl, rfl⟩,
      ?_⟩
    intro t' iter ht' hpc'
    rw [ht] at ht'; cases ht'; rw [hpc] at hpc'; cases hpc'
  · intro t c imp iter0 y cost ht _ hpc _
    refine ⟨fun j hj => ⟨rfl, List.getElem?_set_ne (Ne.symm hj)⟩, fun _ _ _ => ⟨rfl, rfl, rfl⟩,
      ?_⟩
    intro t' iter ht' hpc'
    rw [ht] at ht'; cases ht'; rw [hpc] at hpc'; cases hpc'
  · intro t c imp iter0 y cost ht _ hpc
    refine ⟨fun j hj => ⟨List.getElem?_set_ne (Ne.symm hj), List.getElem?_set_ne (Ne.symm hj)⟩,
      fun _ _ _ => ⟨rfl, rfl, rfl⟩, ?_⟩
    intro t' iter ht' hpc'
    rw [ht] at ht'; cases ht'; rw [hpc] at hpc'; cases hpc'
  · intro t c iter0 ht _ hpc _
    refine ⟨fun j hj => ⟨rfl, List.getElem?_set_ne (Ne.symm hj)⟩, fun _ _ _ => ⟨rfl, rfl, rfl⟩,
      ?_⟩
    intro t' iter ht' hpc'
    rw [ht] at ht'; cases ht'; rw [hpc] at hpc'; cases hpc'
  · intro t c iter0 ht _ hpc _
    refine ⟨fun j hj => ⟨rfl, List.getElem?_set_ne (Ne.symm hj)⟩, fun _ _ _ => ⟨rfl, rfl, rfl⟩,
      ?_⟩
    intro t' iter ht' hpc'
    rw [ht] at ht'; cases ht'; rw [hpc] at hpc'; cases hpc'
  · intro t c c0 iter0 ht _ _ hpc
    refine ⟨fun j hj => ⟨rfl, List.getElem?_set_ne (Ne.symm hj)⟩, ?_,
      fun _ _ _ _ => ⟨rfl, rfl, rfl⟩⟩
    intro t' ht' hnp
    rw [ht] at ht'; cases ht'
    exact absurd hpc (hnp iter0)

/-! ## Lock discipline -/

/-- C16: in every state of a run, a move that changes a chain or one of `tacc`, `tgen`,
`gamma` is made by a thread that holds the lock when it moves. -/
theorem writes_hold_lock [LinearOrderedField R] (S : SolverCoupled R) (E : Env Ω R)
    (x : List R) (sched : List (Event Ω R)) (e : Event Ω R)
    (hw : (next S E (run S E x sched) e).shared_states ≠ (run S E x sched).shared_states ∨
      (next S E (run S E x sched) e).tacc ≠ (run S E x sched).tacc ∨
      (next S E (run S E x sched) e).tgen ≠ (run S E x sched).tgen ∨
      (next S E (run S E x sched) e).gamma ≠ (run S E x sched).gamma) :
    (run S E x sched).lock = some e.opt_id := by
  have hI : Inv S E x (run S E x sched) := inv_exec S E x sched
  revert hw
  generalize run S E x sched = s at hI
  have hnone : ∀ s' : State R, s'.shared_states = s.shared_states → s'.tacc = s.tacc →
      s'.tgen = s.tgen → s'.gamma = s.gamma →
      (s'.shared_states ≠ s.shared_states ∨ s'.tacc ≠ s.tacc ∨ s'.tgen ≠ s.tgen ∨
        s'.gamma ≠ s.gamma) → s.lock = some e.opt_id := by
    intro s' h1 h2 h3 h4 h
    rcases h with h | h | h | h
    · exact absurd h1 h
    · exact absurd h2 h
    · exact absurd h3 h
    · exact absurd h4 h
  apply next_cases S E s e (fun s' =>
    (s'.shared_states ≠ s.shared_states ∨ s'.tacc ≠ s.tacc ∨ s'.tgen ≠ s.tgen ∨
      s'.gamma ≠ s.gamma) → s.lock = some e.opt_id)
  · exact hnone s rfl rfl rfl rfl
  · intro t c c0 _ _ _ _
    exact hnone _ rfl rfl rfl rfl
  · intro t c _ _ _ _ _ _
    exact hnone _ rfl rfl rfl rfl
  · intro t c imp iter y cost _ _ _ _
    exact hnone _ rfl rfl rfl rfl
  · intro t c imp iter y cost ht _ hpc _
    have h := hI.lock_held _ t ht
    rw [hpc] at h
    exact h.mp rfl
  · intro t c iter _ _ _ _
    exact hnone _ rfl rfl rfl rfl
  · intro t c iter _ _ _ _
    exact hnone _ rfl rfl rfl rfl
  · intro t c c0 iter ht _ _ hpc _
    have h := hI.lock_held _ t ht
    rw [hpc] at h
    exact h.mp rfl

/-- Thread 0 of `demoSolver`, holding the lock with the candidate `(1, 2)`, writes it. -/
theorem writes_hold_lock_witness :
    ((next demoSolver demoEnv (run demoSolver demoEnv [2, 3] [move0, move0, move0])
        move0).shared_states ≠
        (run demoSolver demoEnv [2, 3] [move0, move0, move0]).shared_states ∨
      (next demoSolver demoEnv (run demoSolver demoEnv [2, 3] [move0, move0, move0])
        move0).tacc ≠ (run demoSolver demoEnv [2, 3] [move0, move0, move0]).tacc ∨
      (next demoSolver demoEnv (run demoSolver demoEnv [2, 3] [move0, move0, move0])
        move0).tgen ≠ (run demoSolver demoEnv [2, 3] [move0, move0, move0]).tgen ∨
      (next demoSolver demoEnv (run demoSolver demoEnv [2, 3] [move0, move0, move0])
        move0).gamma ≠ (run demoSolver demoEnv [2, 3] [move0, move0, move0]).gamma) ∧
    (run demoSolver demoEnv [2, 3] [move0, move0, move0]).lock =
      some (move0 : Event Unit ℚ).opt_id :=
  have hw : (next demoSolver demoEnv (run demoSolver demoEnv [2, 3] [move0, move0, move0])
      move0).shared_states ≠
      (run demoSolver demoEnv [2, 3] [move0, move0, move0]).shared_states := by
    simp [run, exec, next, init, demoSolver, demoEnv, SharedStates, decideBranch,
      afterDecision, List.replicate, move0, commit, updateBest, Context.step]
    norm_num
  ⟨Or.inl hw, writes_hold_lock demoSolver demoEnv [2, 3] [move0, move0, move0] move0
    (Or.inl hw)⟩

/-! ## Configuration -/

/-- When the loop has no iterations (`max_iters ≤ 0`) no iteration is ever handed out, so
`step` and `fx` are not called inside the parallel region. -/
theorem exec_no_iterations_started [LinearOrderedField R] (S : SolverCoupled R)
    (E : Env Ω R) (x : List R) (fx0 : R) (h0 : S.max_iters ≤ 0) (sched : List (Event Ω R)) :
    (exec S E (init S x fx0) sched).started = [] := by
  refine exec_invariant S E (fun s => s.started = []) ?_ sched (init S x fx0) rfl
  intro s e hs
  apply next_cases S E s e (fun s' => s'.started = []) hs
  · intros; exact hs
  · intro t c _ _ _ h1 h2 _
    omega
  · intros; exact hs
  · intros; exact hs
  · intros; exact hs
  · intros; exact hs
  · intros; exact hs

/-- C11, as stated, fails: `negSolver` has `max_iters = -1 < 0`, and `minimize` called with
it on the point `(2, 3)` returns 0, the success value, with `x` as it was. -/
theorem negative_max_iters_returns_success :
    (negSolver : SolverCoupled ℚ).max_iters < 0 ∧
    minimize negSolver demoEnv [2, 3] [move0, move0] = some (0, [2, 3]) := by
  constructor
  · decide
  · simp [minimize, run, exec, next, init, negSolver, demoEnv, SharedStates, List.replicate,
      move0, extract, bestLoop]

/-- C11, amended: `minimize` makes no check of the configuration. For every `m ≥ 1` and
every `max_iters`, negative ones included, it returns 0 under every schedule; when
`max_iters ≤ 0` no iteration is handed out (no step proposal is evaluated) and `x` is left
as it was. -/
theorem minimize_no_config_check [LinearOrderedField R] (S : SolverCoupled R) (E : Env Ω R)
    (x : List R) (sched : List (Event Ω R)) (hm : 1 ≤ S.m) :
    (∃ x_out : List R, minimize S E x sched = some (0, x_out)) ∧
    (S.max_iters ≤ 0 →
      minimize S E x sched = some (0, x) ∧ (run S E x sched).started = []) := by
  have hI := inv_exec S E x sched
  rcases extract_mem S _ hm hI.chains_len with ⟨k, c, hk, hex⟩
  have hmin : minimize S E x sched = some (0, c.best_x) := by
    simp only [minimize, hex]
  refine ⟨⟨c.best_x, hmin⟩, fun h0 => ⟨?_, exec_no_iterations_started S E x (E.fx x) h0 sched⟩⟩
  rw [run, exec_no_iterations S E x (E.fx x) h0 sched] at hk
  simp only [SharedStates, List.getElem?_replicate] at hk
  split at hk
  · cases hk
    exact hmin
  · cases hk

/-- The solver `negSolver`, with two chains and `max_iters = -1`. -/
theorem minimize_no_config_check_witness :
    1 ≤ (negSolver : SolverCoupled ℚ).m ∧
    (∃ x_out : List ℚ, minimize negSolver demoEnv [2, 3] [move0, move0] = some (0, x_out)) ∧
    ((negSolver : SolverCoupled ℚ).max_iters ≤ 0 →
      minimize negSolver demoEnv [2, 3] [move0, move0] = some (0, [2, 3]) ∧
      (run negSolver demoEnv [2, 3] [move0, move0]).started = []) :=
  ⟨by decide, minimize_no_config_check negSolver demoEnv [2, 3] [move0, move0] (by decide)⟩

/-! ## Positivity of the acceptance temperature -/

/-- Only the update of lines 121-139 writes `tacc`, and it either adds or subtracts
`tacc_schedule * tacc`. -/
theorem next_tacc [LinearOrderedField R] (S : SolverCoupled R) (E : Env Ω R) (s : State R)
    (e : Event Ω R) :
    (next S E s e).tacc = s.tacc ∨
    (next S E s e).tacc = s.tacc + S.tacc_schedule * s.tacc ∨
    (next S E s e).tacc = s.tacc - S.tacc_schedule * s.tacc := by
  apply next_cases S E s e (fun s' => s'.tacc = s.tacc ∨
    s'.tacc = s.tacc + S.tacc_schedule * s.tacc ∨
    s'.tacc = s.tacc - S.tacc_schedule * s.tacc) (Or.inl rfl)
  · intros; exact Or.inl rfl
  · intros; exact Or.inl rfl
  · intros; exact Or.inl rfl
  · intros; exact Or.inl rfl
  · intros; exact Or.inl rfl
  · intros; exact Or.inl rfl
  · intro t c c0 iter _ _ _ _
    show (paramUpdate S E.exp s.shared_states c0 s.tacc s.tgen).tacc = s.tacc ∨ _
    simp only [paramUpdate]
    split
    · exact Or.inr (Or.inl rfl)
    · exact Or.inr (Or.inr rfl)

/-- A move either changes no `best_cost` and makes no progress call, or it is the write of
a thread holding the lock that strictly lowers the `best_cost` of its own chain, changes no
other chain, and (when a hook is supplied) makes exactly one call, with the new best cost,
the current `tgen` and `tacc`, the thread's number and its iteration. -/
theorem next_calls [LinearOrderedField R] (S : SolverCoupled R) (E : Env Ω R) (s : State R)
    (e : Event Ω R) :
    ((next S E s e).calls = s.calls ∧
      ∀ (k : Nat) (c : Context R), s.shared_states[k]? = some c →
        ∃ d : Context R, (next S E s e).shared_states[k]? = some d ∧
          d.best_cost = c.best_cost) ∨
    ∃ (t : Thread R) (c d : Context R) (imp : Bool) (iter : Int) (y : List R) (cost : R),
      s.threads[e.opt_id]? = some t ∧ s.shared_states[e.opt_id]? = some c ∧
      t.pc = Pc.locked imp iter y cost ∧
      (next S E s e).shared_states[e.opt_id]? = some d ∧ d.best_cost < c.best_cost ∧
      (∀ k : Nat, k ≠ e.opt_id → (next S E s e).shared_states[k]? = s.shared_states[k]?) ∧
      (next S E s e).calls =
        if E.progress = true then
          s.calls ++ [ProgressCall.mk d.best_cost s.tgen s.tacc e.opt_id iter]
        else s.calls := by
  have hsame : ∀ s' : State R, s'.calls = s.calls → s'.shared_states = s.shared_states →
      (s'.calls = s.calls ∧
        ∀ (k : Nat) (c : Context R), s.shared_states[k]? = some c →
          ∃ d : Context R, s'.shared_states[k]? = some d ∧ d.best_cost = c.best_cost) := by
    intro s' h1 h2
    exact ⟨h1, fun k c hc => ⟨c, by rw [h2]; exact hc, rfl⟩⟩
  apply next_cases S E s e (fun s' =>
    (s'.calls = s.calls ∧
      ∀ (k : Nat) (c : Context R), s.shared_states[k]? = some c →
        ∃ d : Context R, s'.shared_states[k]? = some d ∧ d.best_cost = c.best_cost) ∨
    ∃ (t : Thread R) (c d : Context R) (imp : Bool) (iter : Int) (y : List R) (cost : R),
      s.threads[e.opt_id]? = some t ∧ s.shared_states[e.opt_id]? = some c ∧
      t.pc = Pc.locked imp iter y cost ∧
      s'.shared_states[e.opt_id]? = some d ∧ d.best_cost < c.best_cost ∧
      (∀ k : Nat, k ≠ e.opt_id → s'.shared_states[k]? = s.shared_states[k]?) ∧
      s'.calls =
        if E.progress = true then
          s.calls ++ [ProgressCall.mk d.best_cost s.tgen s.tacc e.opt_id iter]
        else s.calls)
  · exact Or.inl (hsame s rfl rfl)
  · intros; exact Or.inl (hsame _ rfl rfl)
  · intros; exact Or.inl (hsame _ rfl rfl)
  · intros; exact Or.inl (hsame _ rfl rfl)
  · intro t c imp iter y cost ht hc hpc
    have hi : e.opt_id < s.shared_states.length := (List.getElem?_eq_some.mp hc).1
    by_cases hlow : imp = true ∧ cost < c.best_cost
    · right
      have hbest : (commit c imp y cost).best_cost = cost := by
        simp [commit, updateBest, Context.step, hlow.1, hlow.2]
      refine ⟨t, c, commit c imp y cost, imp, iter, y, cost, ht, hc, hpc,
        List.getElem?_set_self hi, by rw [hbest]; exact hlow.2,
        fun k hk => List.getElem?_set_ne (Ne.symm hk), ?_⟩
      show logCall E s c imp e.opt_id iter cost = _
      rw [hbest]
      by_cases hp : E.progress = true
      · simp [logCall, hlow.1, hlow.2, hp]
      · simp [logCall, hp]
    · left
      have hbest : (commit c imp y cost).best_cost = c.best_cost := by
        cases imp
        · simp [commit, Context.step]
        · have : ¬ cost < c.best_cost := fun h => hlow ⟨rfl, h⟩
          simp [commit, updateBest, Context.step, this]
      refine ⟨?_, ?_⟩
      · show logCall E s c imp e.opt_id iter cost = s.calls
        have : ¬ (imp = true ∧ cost < c.best_cost ∧ E.progress = true) :=
          fun h => hlow ⟨h.1, h.2.1⟩
        simp only [logCall, if_neg this]
      · intro k d hd
        by_cases hk : k = e.opt_id
        · subst hk
          rw [hc] at hd
          cases hd
          exact ⟨commit c imp y cost, List.getElem?_set_self hi, hbest⟩
        · exact ⟨d, by
            show (s.shared_states.set e.opt_id (commit c imp y cost))[k]? = some d
            rw [List.getElem?_set_ne (Ne.symm hk)]; exact hd, rfl⟩
  · intros; exact Or.inl (hsame _ rfl rfl)
  · intros; exact Or.inl (hsame _ rfl rfl)
  · intros; exact Or.inl (hsame _ rfl rfl)

theorem reportedCosts_append [LinearOrderedField R] (calls : List (ProgressCall R))
    (p : ProgressCall R) (i : Nat) :
    reportedCosts (calls ++ [p]) i =
      if p.opt_id = i then reportedCosts calls i ++ [p.cost] else reportedCosts calls i := by
  by_cases h : p.opt_id = i
  · simp [reportedCosts, List.filter_append, h]
  · simp [reportedCosts, List.filter_append, h]

/-- In every state of a run the costs reported for a chain are strictly decreasing, each
is below the cost of the initial point, and none is below the chain's `best_cost`. -/
theorem reportedCosts_inv [LinearOrderedField R] (S : SolverCoupled R) (E : Env Ω R)
    (x : List R) (sched : List (Event Ω R)) (i : Nat) :
    List.Pairwise (fun a b => a > b) (reportedCosts (run S E x sched).calls i) ∧
    ∀ v ∈ reportedCosts (run S E x sched).calls i, v < E.fx x ∧
      ∀ c : Context R, (run S E x sched).shared_states[i]? = some c → c.best_cost ≤ v := by
  have key := exec_invariant S E
    (fun s => Inv S E x s ∧ List.Pairwise (fun a b => a > b) (reportedCosts s.calls i) ∧
      ∀ v ∈ reportedCosts s.calls i, v < E.fx x ∧
        ∀ c : Context R, s.shared_states[i]? = some c → c.best_cost ≤ v)
    (by
      intro s e ⟨hI, hp, hv⟩
      have hI' := inv_next hI e
      refine ⟨hI', ?_⟩
      rcases next_calls S E s e with ⟨hcalls, hbest⟩ |
        ⟨t, c, d, imp, iter, y, cost, _, hc, _, hd, hlt, hframe, hcalls⟩
      · rw [hcalls]
        refine ⟨hp, fun v hvm => ⟨(hv v hvm).1, ?_⟩⟩
        intro d hd
        have hi : i < s.shared_states.length := by
          have := (List.getElem?_eq_some.mp hd).1
          rw [hI'.chains_len, ← hI.chains_len] at this
          exact this
        rcases hbest i _ (List.getElem?_eq_getElem hi) with ⟨d', hd', hbd⟩
        rw [hd] at hd'
        cases hd'
        rw [hbd]
        exact (hv v hvm).2 _ (List.getElem?_eq_getElem hi)
      · by_cases hie : e.opt_id = i
        · subst hie
          have hold : ∀ v ∈ reportedCosts s.calls e.opt_id, d.best_cost < v :=
            fun v hvm => lt_of_lt_of_le hlt ((hv v hvm).2 c hc)
          have hdx : d.best_cost < E.fx x := lt_of_lt_of_le hlt (hI.chain_ok _ c hc).2.2.2
          rw [hcalls]
          by_cases hprog : E.progress = true
          · rw [if_pos hprog, reportedCosts_append, if_pos rfl]
            refine ⟨?_, ?_⟩
            · rw [List.pairwise_append]
              refine ⟨hp, List.pairwise_singleton _ _, ?_⟩
              intro a ha b hb
              rw [List.mem_singleton] at hb
              rw [hb]
              exact hold a ha
            · intro v hvm
              rcases List.mem_append.mp hvm with hvm | hvm
              · refine ⟨(hv v hvm).1, fun d' hd' => ?_⟩
                rw [hd] at hd'
                cases hd'
                exact le_of_lt (hold v hvm)
              · rw [List.mem_singleton] at hvm
                rw [hvm]
                refine ⟨hdx, fun d' hd' => ?_⟩
                rw [hd] at hd'
                cases hd'
                exact le_refl _
          · rw [if_neg hprog]
            refine ⟨hp, fun v hvm => ⟨(hv v hvm).1, fun d' hd' => ?_⟩⟩
            rw [hd] at hd'
            cases hd'
            exact le_of_lt (hold v hvm)
        · have hre : reportedCosts (next S E s e).calls i = reportedCosts s.calls i := by
            rw [hcalls]
            by_cases hprog : E.progress = true
            · rw [if_pos hprog, reportedCosts_append, if_neg hie]
            · rw [if_neg hprog]
          rw [hre]
          refine ⟨hp, fun v hvm => ⟨(hv v hvm).1, fun d' hd' => ?_⟩⟩
          rw [hframe i (Ne.symm hie)] at hd'
          exact (hv v hvm).2 d' hd')
    sched (init S x (E.fx x)) ⟨inv_init S E x, by simp [init, reportedCosts],
      by simp [init, reportedCosts]⟩
  exact key.2

/-- C13: with a progress hook supplied, at every state of a run a move either makes no
call and lowers no `best_cost`, or it is the write of a thread whose iteration `iter`
strictly lowers the `best_cost` of its chain, and then it makes exactly one call, with the
new best cost, the current `tgen` and `tacc`, the chain's number and `iter`. Consequently
the costs reported for any one chain are strictly decreasing and each is strictly below
the cost of the initial point. -/
theorem progress_calls [LinearOrderedField R] (S : SolverCoupled R) (E : Env Ω R)
    (x : List R) (sched : List (Event Ω R)) (e : Event Ω R) (hprog : E.progress = true) :
    (((next S E (run S E x sched) e).calls = (run S E x sched).calls ∧
        ∀ (k : Nat) (c : Context R), (run S E x sched).shared_states[k]? = some c →
          ∃ d : Context R, (next S E (run S E x sched) e).shared_states[k]? = some d ∧
            d.best_cost = c.best_cost) ∨
      ∃ (t : Thread R) (c d : Context R) (imp : Bool) (iter : Int) (y : List R) (cost : R),
        (run S E x sched).threads[e.opt_id]? = some t ∧
        (run S E x sched).shared_states[e.opt_id]? = some c ∧
        t.pc = Pc.locked imp iter y cost ∧
        (next S E (run S E x sched) e).shared_states[e.opt_id]? = some d ∧
        d.best_cost < c.best_cost ∧
        (next S E (run S E x sched) e).calls =
          (run S E x sched).calls ++
            [ProgressCall.mk d.best_cost (run S E x sched).tgen (run S E x sched).tacc
              e.opt_id iter]) ∧
    ∀ i : Nat,
      List.Pairwise (fun a b => a > b) (reportedCosts (run S E x sched).calls i) ∧
      ∀ v ∈ reportedCosts (run S E x sched).calls i, v < E.fx x := by
  refine ⟨?_, fun i => ⟨(reportedCosts_inv S E x sched i).1,
    fun v hv => ((reportedCosts_inv S E x sched i).2 v hv).1⟩⟩
  rcases next_calls S E (run S E x sched) e with h |
    ⟨t, c, d, imp, iter, y, cost, ht, hc, hpc, hd, hlt, _, hcalls⟩
  · exact Or.inl h
  · rw [if_pos hprog] at hcalls
    exact Or.inr ⟨t, c, d, imp, iter, y, cost, ht, hc, hpc, hd, hlt, hcalls⟩

/-- The move by which thread 0 of `demoSolver` writes the candidate `(1, 2)`; `demoEnv`
supplies a hook. -/
theorem progress_calls_witness :
    demoEnv.progress = true ∧
    ((((next demoSolver demoEnv (run demoSolver demoEnv [2, 3] [move0, move0, move0])
          move0).calls = (run demoSolver demoEnv [2, 3] [move0, move0, move0]).calls ∧
        ∀ (k : Nat) (c : Context ℚ),
          (run demoSolver demoEnv [2, 3] [move0, move0, move0]).shared_states[k]? = some c →
          ∃ d : Context ℚ,
            (next demoSolver demoEnv (run demoSolver demoEnv [2, 3] [move0, move0, move0])
              move0).shared_states[k]? = some d ∧ d.best_cost = c.best_cost) ∨
      ∃ (t : Thread ℚ) (c d : Context ℚ) (imp : Bool) (iter : Int) (y : List ℚ) (cost : ℚ),
        (run demoSolver demoEnv [2, 3] [move0, move0, move0]).threads[
          (move0 : Event Unit ℚ).opt_id]? = some t ∧
        (run demoSolver demoEnv [2, 3] [move0, move0, move0]).shared_states[
          (move0 : Event Unit ℚ).opt_id]? = some c ∧
        t.pc = Pc.locked imp iter y cost ∧
        (next demoSolver demoEnv (run demoSolver demoEnv [2, 3] [move0, move0, move0])
          move0).shared_states[(move0 : Event Unit ℚ).opt_id]? = some d ∧
        d.best_cost < c.best_cost ∧
        (next demoSolver demoEnv (run demoSolver demoEnv [2, 3] [move0, move0, move0])
          move0).calls =
          (run demoSolver demoEnv [2, 3] [move0, move0, move0]).calls ++
            [ProgressCall.mk d.best_cost
              (run demoSolver demoEnv [2, 3] [move0, move0, move0]).tgen
              (run demoSolver demoEnv [2, 3] [move0, move0, move0]).tacc
              (move0 : Event Unit ℚ).opt_id iter]) ∧
    ∀ i : Nat,
      List.Pairwise (fun a b => a > b)
        (reportedCosts (run demoSolver demoEnv [2, 3] [move0, move0, move0]).calls i) ∧
      ∀ v ∈ reportedCosts (run demoSolver demoEnv [2, 3] [move0, move0, move0]).calls i,
        v < demoEnv.fx [2, 3]) :=
  ⟨rfl, progress_calls demoSolver demoEnv [2, 3] [move0, move0, move0] move0 rfl⟩

/-! ## Origin of the returned point -/

theorem origin_update [LinearOrderedField R] {good : List R → Prop} {s s' : State R}
    (h : Origin good s) {i : Nat} {t' : Thread R}
    (hss : ∀ (j : Nat) (c : Context R), s'.shared_states[j]? = some c →
      s.shared_states[j]? = some c ∨ (good c.x ∧ good c.best_x))
    (hth : s'.threads = s.threads.set i t')
    (hcand : ∀ y : List R, t'.pc.candidate = some y → good y) : Origin good s' := by
  refine ⟨?_, ?_⟩
  · intro j c hc
    rcases hss j c hc with h1 | h1
    · exact h.1 j c h1
    · exact h1
  · intro j t y ht hy
    rw [hth, List.getElem?_set] at ht
    split at ht
    · split at ht
      · cases ht
        exact hcand y hy
      · cases ht
    · exact h.2 j t y ht hy

/-- A move keeps `Origin good` if the candidate a decision move would propose is `good`. -/
theorem origin_next [LinearOrderedField R] (S : SolverCoupled R) (E : Env Ω R)
    (good : List R → Prop) (s : State R) (e : Event Ω R) (h : Origin good s)
    (hbody : ∀ (t : Thread R) (c : Context R), s.threads[e.opt_id]? = some t →
      s.shared_states[e.opt_id]? = some c → t.pc = Pc.top → 0 ≤ e.iter →
      e.iter < S.max_iters → e.iter ∉ s.started → good (E.step e.rnd c.x s.tgen)) :
    Origin good (next S E s e) := by
  apply next_cases S E s e (Origin good) h
  · intro t c c0 _ _ _ _
    exact origin_update h (fun j c hc => Or.inl hc) rfl (by simp [Pc.candidate])
  · intro t c ht hc hpc h1 h2 h3
    refine origin_update h (fun j c hc => Or.inl hc) rfl ?_
    intro y hy
    have hg := hbody t c ht hc hpc h1 h2 h3
    revert hy
    cases decideBranch E.exp c (E.fx (E.step e.rnd c.x s.tgen)) t.max_cost s.tacc s.gamma
      e.unif <;> simp only [afterDecision, Pc.candidate] <;> intro hy
    · cases hy; exact hg
    · cases hy; exact hg
    · cases hy
  · intro t c imp iter y cost ht _ hpc _
    refine origin_update h (fun j c hc => Or.inl hc) rfl ?_
    intro y' hy'
    simp only [Pc.candidate] at hy'
    cases hy'
    exact h.2 _ t y ht (by rw [hpc]; rfl)
  · intro t c imp iter y cost ht hc hpc
    have hy : good y := h.2 _ t y ht (by rw [hpc]; rfl)
    have hcx := h.1 _ c hc
    refine origin_update h ?_ rfl (by simp [Pc.candidate])
    intro j d hd
    have hd' : (s.shared_states.set e.opt_id (commit c imp y cost))[j]? = some d := hd
    rw [List.getElem?_set] at hd'
    split at hd'
    · split at hd'
      · cases hd'
        right
        cases imp
        · exact ⟨hy, hcx.2⟩
        · by_cases hlt : cost < c.best_cost
          · simp only [commit, updateBest, if_pos hlt, if_true, Context.step]
            exact ⟨hy, hy⟩
          · simp only [commit, updateBest, if_neg hlt, if_true, Context.step]
            exact ⟨hy, hcx.2⟩
      · cases hd'
    · exact Or.inl hd'
  · intro t c iter _ _ _ _
    exact origin_update h (fun j c hc => Or.inl hc) rfl (by simp [Pc.candidate])
  · intro t c iter _ _ _ _
    exact origin_update h (fun j c hc => Or.inl hc) rfl (by simp [Pc.candidate])
  · intro t c c0 iter _ _ _ _
    exact origin_update h (fun j c hc => Or.inl hc) rfl (by simp [Pc.candidate])

theorem run_snoc [LinearOrderedField R] (S : SolverCoupled R) (E : Env Ω R) (x : List R)
    (sched : List (Event Ω R)) (e : Event Ω R) :
    run S E x (sched ++ [e]) = next S E (run S E x sched) e := by
  simp [run, exec, List.foldl_append]

theorem origin_mono [LinearOrderedField R] {good good' : List R → Prop} {s : State R}
    (hg : ∀ y : List R, good y → good' y) (h : Origin good s) : Origin good' s :=
  ⟨fun i c hc => ⟨hg _ (h.1 i c hc).1, hg _ (h.1 i c hc).2⟩,
    fun i t y ht hy => hg _ (h.2 i t y ht hy)⟩

/-- A candidate produced under a schedule is produced under every extension of it. -/
theorem produced_snoc [LinearOrderedField R] (S : SolverCoupled R) (E : Env Ω R)
    (x : List R) (sched : List (Event Ω R)) (a : Event Ω R) (y : List R)
    (h : Produced S E x sched y) : Produced S E x (sched ++ [a]) y := by
  rcases h with ⟨pre, e, post, t, c, hs, h1, h2, h3, h4, h5, h6, h7⟩
  exact ⟨pre, e, post ++ [a], t, c, by rw [hs]; simp, h1, h2, h3, h4, h5, h6, h7⟩

/-- In the state a schedule leads to, every point stored in a chain and every candidate
carried by a thread is the initial point or a candidate produced under that schedule. -/
theorem origin_run [LinearOrderedField R] (S : SolverCoupled R) (E : Env Ω R) (x : List R)
    (sched : List (Event Ω R)) :
    Origin (fun y => y = x ∨ Produced S E x sched y) (run S E x sched) := by
  induction sched using List.reverseRecOn with
  | nil =>
    refine ⟨?_, ?_⟩
    · intro i c hc
      simp only [run, exec, List.foldl_nil, init, SharedStates, List.getElem?_replicate] at hc
      split at hc
      · cases hc
        exact ⟨Or.inl rfl, Or.inl rfl⟩
      · cases hc
    · intro i t y ht hy
      simp only [run, exec, List.foldl_nil, init, List.getElem?_replicate] at ht
      split at ht
      · cases ht
        cases hy
      · cases ht
  | append_singleton l a ih =>
    rw [run_snoc]
    have hmono : Origin (fun y => y = x ∨ Produced S E x (l ++ [a]) y) (run S E x l) :=
      origin_mono (fun y hy => hy.imp id (produced_snoc S E x l a y)) ih
    apply origin_next S E _ _ a hmono
    intro t c ht hc hpc h1 h2 h3
    exact Or.inr ⟨l, a, [], t, c, rfl, ht, hc, hpc, h1, h2, h3, rfl⟩

/-- C14: for `m ≥ 1`, under every schedule, the point `minimize` leaves in `x` is the
initial point or a candidate that `step` returned during the run; hence, for any domain
`D`, if the initial point lies in `D` and `step` only returns points of `D`, the returned
point lies in `D`. -/
theorem returned_point_origin [LinearOrderedField R] (S : SolverCoupled R) (E : Env Ω R)
    (x : List R) (sched : List (Event Ω R)) (hm : 1 ≤ S.m) :
    ∃ x_out : List R, minimize S E x sched = some (0, x_out) ∧
      (x_out = x ∨ Produced S E x sched x_out) ∧
      ∀ D : List R → Prop, D x →
        (∀ (rnd : Ω) (p : List R) (tgen : R), D (E.step rnd p tgen)) → D x_out := by
  have hI := inv_exec S E x sched
  rcases extract_mem S _ hm hI.chains_len with ⟨k, c, hk, hex⟩
  have horig := ((origin_run S E x sched).1 k c hk).2
  refine ⟨c.best_x, by simp only [minimize, hex], horig, ?_⟩
  intro D hx hstep
  rcases horig with h | ⟨pre, e, post, t, c', _, _, _, _, _, _, _, hy⟩
  · rw [h]; exact hx
  · rw [hy]; exact hstep _ _ _

/-- Thread 0 of `demoSolver` enters, evaluates a candidate, takes the lock and writes. -/
theorem returned_point_origin_witness :
    1 ≤ demoSolver.m ∧
    ∃ x_out : List ℚ,
      minimize demoSolver demoEnv [2, 3] [move0, move0, move0, move0] = some (0, x_out) ∧
      (x_out = [2, 3] ∨
        Produced demoSolver demoEnv [2, 3] [move0, move0, move0, move0] x_out) ∧
      ∀ D : List ℚ → Prop, D [2, 3] →
        (∀ (rnd : Unit) (p : List ℚ) (tgen : ℚ), D (demoEnv.step rnd p tgen)) → D x_out :=
  ⟨by decide, returned_point_origin demoSolver demoEnv [2, 3] [move0, move0, move0, move0]
    (by decide)⟩

/-! ## A step function that proposes the current point -/

/-- With a `step` that returns its input, every point stored in a chain or carried by a
thread is the initial point, in every state of a run. -/
theorem origin_identity_step [LinearOrderedField R] (S : SolverCoupled R) (E : Env Ω R)
    (x : List R) (sched : List (Event Ω R))
    (hstep : ∀ (rnd : Ω) (p : List R) (tgen : R), E.step rnd p tgen = p) :
    Origin (fun y => y = x) (run S E x sched) := by
  refine exec_invariant S E (Origin (fun y => y = x)) ?_ sched (init S x (E.fx x)) ?_
  · intro s e h
    apply origin_next S E _ s e h
    intro t c _ hc _ _ _ _
    rw [hstep]
    exact (h.1 _ c hc).1
  · refine ⟨?_, ?_⟩
    · intro i c hc
      simp only [init, SharedStates, List.getElem?_replicate] at hc
      split at hc
      · cases hc
        exact ⟨rfl, rfl⟩
      · cases hc
    · intro i t y ht hy
      simp only [init, List.getElem?_replicate] at ht
      split at ht
      · cases ht
        cases hy
      · cases ht

/-- Greedy descent over candidates that all equal the starting point stays there. -/
theorem greedyDescent_same [LinearOrderedField R] (fx : List R → R) (x : List R)
    (cands : List (List R)) (h : ∀ y ∈ cands, y = x) :
    greedyDescent fx x cands = (x, fx x) := by
  unfold greedyDescent
  induction cands with
  | nil => rfl
  | cons y ys ih =>
    have hy : y = x := h y (List.mem_cons_self _ _)
    rw [List.foldl_cons, hy, if_neg (lt_irrefl _)]
    exact ih (fun z hz => h z (List.mem_cons_of_mem _ hz))

/-- C15: with a `step` that returns its input unchanged, for every objective, every
`max_iters`, every sequence of draws and every schedule, a run with `m ≥ 1` chains (in
particular the single-chain run, `m = 1`) returns the initial point; every candidate of
the run is the initial point, and greedy descent on any number of those candidates
returns the same point and the same cost, the initial point and its cost. -/
theorem identity_step_matches_greedy [LinearOrderedField R] (S : SolverCoupled R)
    (E : Env Ω R) (x : List R) (sched : List (Event Ω R)) (hm : 1 ≤ S.m)
    (hstep : ∀ (rnd : Ω) (p : List R) (tgen : R), E.step rnd p tgen = p) :
    minimize S E x sched = some (0, x) ∧
    (∀ y : List R, Produced S E x sched y → y = x) ∧
    ∀ cands : List (List R), (∀ y ∈ cands, Produced S E x sched y) →
      greedyDescent E.fx x cands = (x, E.fx x) ∧
      minimize S E x sched = some (0, (greedyDescent E.fx x cands).1) ∧
      E.fx (greedyDescent E.fx x cands).1 = (greedyDescent E.fx x cands).2 := by
  have hI := inv_exec S E x sched
  rcases extract_mem S _ hm hI.chains_len with ⟨k, c, hk, hex⟩
  have hbx : c.best_x = x := ((origin_identity_step S E x sched hstep).1 k c hk).2
  have hmin : minimize S E x sched = some (0, x) := by
    simp only [minimize, hex, hbx]
  have hprod : ∀ y : List R, Produced S E x sched y → y = x := by
    rintro y ⟨pre, e, post, t, c', _, _, hc', _, _, _, _, hy⟩
    rw [hy, hstep]
    exact ((origin_identity_step S E x pre hstep).1 _ c' hc').1
  refine ⟨hmin, hprod, ?_⟩
  intro cands hc
  have hg := greedyDescent_same E.fx x cands (fun y hy => hprod y (hc y hy))
  rw [hg]
  exact ⟨rfl, hmin, rfl⟩

/-- A single-chain run with `stayEnv`, whose `step` returns its input. -/
theorem identity_step_matches_greedy_witness :
    1 ≤ (soloSolver : SolverCoupled ℚ).m ∧
    (∀ (rnd : Unit) (p : List ℚ) (tgen : ℚ),
      (stayEnv (fun t : ℚ => 1 + t)).step rnd p tgen = p) ∧
    minimize soloSolver (stayEnv (fun t : ℚ => 1 + t)) [2, 3] [move0, move0, move0, move0] =
      some (0, [2, 3]) ∧
    (∀ y : List ℚ,
      Produced soloSolver (stayEnv (fun t : ℚ => 1 + t)) [2, 3] [move0, move0, move0, move0] y →
        y = [2, 3]) ∧
    ∀ cands : List (List ℚ),
      (∀ y ∈ cands,
        Produced soloSolver (stayEnv (fun t : ℚ => 1 + t)) [2, 3]
          [move0, move0, move0, move0] y) →
      greedyDescent (stayEnv (fun t : ℚ => 1 + t)).fx [2, 3] cands =
        ([2, 3], (stayEnv (fun t : ℚ => 1 + t)).fx [2, 3]) ∧
      minimize soloSolver (stayEnv (fun t : ℚ => 1 + t)) [2, 3]
          [move0, move0, move0, move0] =
        some (0, (greedyDescent (stayEnv (fun t : ℚ => 1 + t)).fx [2, 3] cands).1) ∧
      (stayEnv (fun t : ℚ => 1 + t)).fx
          (greedyDescent (stayEnv (fun t : ℚ => 1 + t)).fx [2, 3] cands).1 =
        (greedyDescent (stayEnv (fun t : ℚ => 1 + t)).fx [2, 3] cands).2 :=
  ⟨by decide, fun _ _ _ => rfl,
    identity_step_matches_greedy soloSolver (stayEnv (fun t : ℚ => 1 + t)) [2, 3]
      [move0, move0, move0, move0] (by decide) (fun _ _ _ => rfl)⟩

/-! ## Bounds on the coupling term and on the variance -/

theorem sum_sq_le_sq_sum (l : List ℝ) (h : ∀ a ∈ l, 0 ≤ a) :
    (l.map (fun a => a ^ 2)).sum ≤ l.sum ^ 2 := by
  induction l with
  | nil => simp
  | cons a l ih =>
    have ha : 0 ≤ a := h a (List.mem_cons_self _ _)
    have hl : ∀ b ∈ l, 0 ≤ b := fun b hb => h b (List.mem_cons_of_mem _ hb)
    have hs : 0 ≤ l.sum := List.sum_nonneg hl
    have := ih hl
    simp only [List.map_cons, List.sum_cons]
    nlinarith [mul_nonneg ha hs]

theorem sq_sum_le_length_mul (l : List ℝ) :
    l.sum ^ 2 ≤ (l.length : ℝ) * (l.map (fun a => a ^ 2)).sum := by
  induction l with
  | nil => simp
  | cons a l ih =>
    simp only [List.map_cons, List.sum_cons, List.length_cons]
    push_cast
    have key : 2 * a * l.sum ≤ (l.length : ℝ) * a ^ 2 + (l.map (fun a => a ^ 2)).sum := by
      rcases Nat.eq_zero_or_pos l.length with h0 | hpos
      · have : l = [] := List.length_eq_zero.mp h0
        subst this
        simp
      · have hn : (0 : ℝ) < (l.length : ℝ) := by exact_mod_cast hpos
        have h1 : 0 ≤ ((l.length : ℝ) * a - l.sum) ^ 2 := sq_nonneg _
        have h2 : 2 * a * l.sum * (l.length : ℝ) ≤
            ((l.length : ℝ) * a ^ 2 + (l.map (fun a => a ^ 2)).sum) * (l.length : ℝ) := by
          nlinarith
        exact le_of_mul_le_mul_right h2 hn
    nlinarith

/-- Over the reals, `gamma` and `sum_a` of an update are the sum of the terms of line 129
and the sum of their squares. -/
theorem paramUpdate_sums (S : SolverCoupled ℝ) (ss : List (Context ℝ)) (c0 : Context ℝ)
    (tacc tgen : ℝ) (hlen : ss.length = S.m.toNat) :
    (paramUpdate S Real.exp ss c0 tacc tgen).gamma =
      (expTerms Real.exp ss (paramUpdate S Real.exp ss c0 tacc tgen).max_cost tacc).sum ∧
    (paramUpdate S Real.exp ss c0 tacc tgen).sum_a =
      ((expTerms Real.exp ss (paramUpdate S Real.exp ss c0 tacc tgen).max_cost tacc).map
        (fun a => a ^ 2)).sum := by
  have htake : ss.take S.m.toNat = ss := by rw [← hlen]; exact List.take_length ss
  constructor
  · simp [paramUpdate, htake, sumLoop_spec, expTerms]
  · simp only [paramUpdate, htake, sumLoop_spec, expTerms, zero_add, List.map_map]
    congr 1
    apply List.map_congr_left
    intro c _
    simp only [Function.comp]
    rw [sq, ← Real.exp_add]
    congr 1
    ring

/-- With `tacc > 0` every term of line 129 lies in `(0, 1]`, and the term of a chain at the
maximum cost is 1. -/
theorem expTerms_bounds (S : SolverCoupled ℝ) (ss : List (Context ℝ)) (c0 : Context ℝ)
    (tacc tgen : ℝ) (hlen : ss.length = S.m.toNat) (h0 : ss.head? = some c0)
    (htacc : 0 < tacc) :
    (∀ w ∈ expTerms Real.exp ss (paramUpdate S Real.exp ss c0 tacc tgen).max_cost tacc,
      0 < w ∧ w ≤ 1) ∧
    (1 : ℝ) ∈ expTerms Real.exp ss (paramUpdate S Real.exp ss c0 tacc tgen).max_cost tacc := by
  have hmax := paramUpdate_max_cost S Real.exp ss c0 tacc tgen hlen h0
  constructor
  · intro w hw
    rcases List.mem_map.mp hw with ⟨c, hc, rfl⟩
    refine ⟨Real.exp_pos _, ?_⟩
    rw [← Real.exp_zero]
    apply Real.exp_le_exp.mpr
    apply div_nonpos_of_nonpos_of_nonneg _ (le_of_lt htacc)
    linarith [hmax.2 c hc]
  · rcases hmax.1 with ⟨c, hc, hcm⟩
    apply List.mem_map.mpr
    refine ⟨c, hc, ?_⟩
    rw [hcm, sub_self, zero_div, Real.exp_zero]

/-- With `tacc > 0` an update computes a `gamma` between 1 and the number of chains. -/
theorem paramUpdate_gamma_bounds (S : SolverCoupled ℝ) (ss : List (Context ℝ))
    (c0 : Context ℝ) (tacc tgen : ℝ) (hlen : ss.length = S.m.toNat)
    (h0 : ss.head? = some c0) (htacc : 0 < tacc) :
    1 ≤ (paramUpdate S Real.exp ss c0 tacc tgen).gamma ∧
    (paramUpdate S Real.exp ss c0 tacc tgen).gamma ≤ (ss.length : ℝ) := by
  have hb := expTerms_bounds S ss c0 tacc tgen hlen h0 htacc
  rw [(paramUpdate_sums S ss c0 tacc tgen hlen).1]
  constructor
  · exact List.single_le_sum (fun w hw => le_of_lt (hb.1 w hw).1) 1 hb.2
  · have h := List.sum_le_card_nsmul _ (1 : ℝ) (fun w hw => (hb.1 w hw).2)
    simpa [expTerms] using h

/-- C17: for `m ≥ 1` chains with any current costs and `tacc > 0`, the `prob_var` of a
temperature-scheduler update satisfies `0 ≤ prob_var ≤ (m - 1)/m² ≤ 1/4`; hence with
`desired_variance ≥ 1/4` the update does not take the branch that increases `tacc` and
sets `tacc` to `tacc (1 - tacc_schedule)`. The initial value 0.99 of `desired_variance`
is such a value. -/
theorem prob_var_bounds (S : SolverCoupled ℝ) (ss : List (Context ℝ)) (c0 : Context ℝ)
    (tacc tgen : ℝ) (hm : 1 ≤ S.m) (hlen : ss.length = S.m.toNat) (h0 : ss.head? = some c0)
    (htacc : 0 < tacc) :
    0 ≤ (paramUpdate S Real.exp ss c0 tacc tgen).prob_var ∧
    (paramUpdate S Real.exp ss c0 tacc tgen).prob_var ≤ ((S.m : ℝ) - 1) / (S.m : ℝ) ^ 2 ∧
    ((S.m : ℝ) - 1) / (S.m : ℝ) ^ 2 ≤ 1 / 4 ∧
    (1 / 4 ≤ S.desired_variance →
      (paramUpdate S Real.exp ss c0 tacc tgen).tacc = tacc * (1 - S.tacc_schedule)) ∧
    (1 / 4 : ℝ) ≤ (SolverCoupled.initial : SolverCoupled ℝ).desired_variance := by
  have hmR : ((ss.length : Nat) : ℝ) = (S.m : ℝ) := by
    rw [hlen]
    have h : ((S.m.toNat : Int) : ℝ) = (S.m : ℝ) := by rw [Int.toNat_of_nonneg (by omega)]
    exact_mod_cast h
  have hm1 : (1 : ℝ) ≤ (S.m : ℝ) := by exact_mod_cast hm
  have hmpos : (0 : ℝ) < (S.m : ℝ) := by linarith
  have hsums := paramUpdate_sums S ss c0 tacc tgen hlen
  have hb := expTerms_bounds S ss c0 tacc tgen hlen h0 htacc
  have hg1 := (paramUpdate_gamma_bounds S ss c0 tacc tgen hlen h0 htacc).1
  have hA1 : (paramUpdate S Real.exp ss c0 tacc tgen).sum_a ≤
      (paramUpdate S Real.exp ss c0 tacc tgen).gamma ^ 2 := by
    rw [hsums.1, hsums.2]
    exact sum_sq_le_sq_sum _ (fun w hw => le_of_lt (hb.1 w hw).1)
  have hA2 : (paramUpdate S Real.exp ss c0 tacc tgen).gamma ^ 2 ≤
      (S.m : ℝ) * (paramUpdate S Real.exp ss c0 tacc tgen).sum_a := by
    rw [hsums.1, hsums.2, ← hmR]
    have h := sq_sum_le_length_mul
      (expTerms Real.exp ss (paramUpdate S Real.exp ss c0 tacc tgen).max_cost tacc)
    simpa [expTerms] using h
  have hv : (paramUpdate S Real.exp ss c0 tacc tgen).prob_var =
      ((S.m : ℝ) * ((paramUpdate S Real.exp ss c0 tacc tgen).sum_a /
        (paramUpdate S Real.exp ss c0 tacc tgen).gamma ^ 2) - 1) / (S.m : ℝ) ^ 2 := by
    simp only [paramUpdate, probVar]
    push_cast
    ring
  generalize (paramUpdate S Real.exp ss c0 tacc tgen).gamma = g at hg1 hA1 hA2 hv
  generalize (paramUpdate S Real.exp ss c0 tacc tgen).sum_a = a at hA1 hA2 hv
  have hgpos : 0 < g ^ 2 := by positivity
  have hr1 : a / g ^ 2 ≤ 1 := (div_le_one hgpos).mpr hA1
  have hr2 : 1 ≤ (S.m : ℝ) * (a / g ^ 2) := by
    rw [← mul_div_assoc, le_div_iff₀ hgpos]
    linarith
  have hm2 : (0 : ℝ) < (S.m : ℝ) ^ 2 := by positivity
  have hlow : 0 ≤ (paramUpdate S Real.exp ss c0 tacc tgen).prob_var := by
    rw [hv]
    exact div_nonneg (by linarith) (le_of_lt hm2)
  have hup : (paramUpdate S Real.exp ss c0 tacc tgen).prob_var ≤
      ((S.m : ℝ) - 1) / (S.m : ℝ) ^ 2 := by
    rw [hv]
    apply div_le_div_of_nonneg_right _ (le_of_lt hm2)
    nlinarith
  have hquarter : ((S.m : ℝ) - 1) / (S.m : ℝ) ^ 2 ≤ 1 / 4 := by
    rw [div_le_div_iff₀ hm2 (by norm_num)]
    nlinarith [sq_nonneg ((S.m : ℝ) - 2)]
  refine ⟨hlow, hup, hquarter, fun hd => ?_, by norm_num [SolverCoupled.initial]⟩
  have hnot : ¬ (paramUpdate S Real.exp ss c0 tacc tgen).prob_var > S.desired_variance :=
    not_lt.mpr (le_trans hup (le_trans hquarter hd))
  have ht : (paramUpdate S Real.exp ss c0 tacc tgen).tacc =
      (if (paramUpdate S Real.exp ss c0 tacc tgen).prob_var > S.desired_variance then
        tacc + S.tacc_schedule * tacc else tacc - S.tacc_schedule * tacc) := rfl
  rw [ht, if_neg hnot]
  ring

/-- The update of `pairSolver` on `slopeChains` at `tacc = 1`. -/
theorem prob_var_bounds_witness :
    (1 : Int) ≤ (pairSolver : SolverCoupled ℝ).m ∧
    (slopeChains : List (Context ℝ)).length = (pairSolver : SolverCoupled ℝ).m.toNat ∧
    (slopeChains : List (Context ℝ)).head? = some ⟨[0], 0, [0], 0⟩ ∧
    (0 : ℝ) < 1 ∧
    0 ≤ (paramUpdate pairSolver Real.exp slopeChains ⟨[0], 0, [0], 0⟩ 1 1).prob_var ∧
    (paramUpdate pairSolver Real.exp slopeChains ⟨[0], 0, [0], 0⟩ 1 1).prob_var ≤
      (((pairSolver : SolverCoupled ℝ).m : ℝ) - 1) /
        ((pairSolver : SolverCoupled ℝ).m : ℝ) ^ 2 ∧
    (((pairSolver : SolverCoupled ℝ).m : ℝ) - 1) /
      ((pairSolver : SolverCoupled ℝ).m : ℝ) ^ 2 ≤ 1 / 4 ∧
    (1 / 4 ≤ (pairSolver : SolverCoupled ℝ).desired_variance →
      (paramUpdate pairSolver Real.exp slopeChains ⟨[0], 0, [0], 0⟩ 1 1).tacc =
        1 * (1 - (pairSolver : SolverCoupled ℝ).tacc_schedule)) ∧
    (1 / 4 : ℝ) ≤ (SolverCoupled.initial : SolverCoupled ℝ).desired_variance :=
  ⟨by decide, rfl, rfl, by norm_num,
    prob_var_bounds pairSolver slopeChains ⟨[0], 0, [0], 0⟩ 1 1 (by decide) rfl rfl
      (by norm_num)⟩

/-! ## The coupling term, store by store -/

/-- With `tacc > 0` and `max_cost` at least every current cost, every term of line 129
lies in `(0, 1]`. -/
theorem expTerms_unit (ss : List (Context ℝ)) (max_cost tacc : ℝ)
    (hub : ∀ c ∈ ss, c.cost ≤ max_cost) (htacc : 0 < tacc) :
    ∀ w ∈ expTerms Real.exp ss max_cost tacc, 0 < w ∧ w ≤ 1 := by
  intro w hw
  rcases List.mem_map.mp hw with ⟨c, hc, rfl⟩
  refine ⟨Real.exp_pos _, ?_⟩
  rw [← Real.exp_zero]
  apply Real.exp_le_exp.mpr
  apply div_nonpos_of_nonpos_of_nonneg _ (le_of_lt htacc)
  linarith [hub c hc]

/-- The term of a chain whose current cost is `max_cost` is 1. -/
theorem expTerms_one_mem (ss : List (Context ℝ)) (max_cost tacc : ℝ)
    (hatt : ∃ c ∈ ss, c.cost = max_cost) : (1 : ℝ) ∈ expTerms Real.exp ss max_cost tacc := by
  rcases hatt with ⟨c, hc, hcm⟩
  apply List.mem_map.mpr
  refine ⟨c, hc, ?_⟩
  rw [hcm, sub_self, zero_div, Real.exp_zero]

/-- The sum of the terms of all chains lies between 1 and the number of chains. -/
theorem expTerms_sum_bounds (ss : List (Context ℝ)) (max_cost tacc : ℝ)
    (hub : ∀ c ∈ ss, c.cost ≤ max_cost) (hatt : ∃ c ∈ ss, c.cost = max_cost)
    (htacc : 0 < tacc) :
    1 ≤ (expTerms Real.exp ss max_cost tacc).sum ∧
    (expTerms Real.exp ss max_cost tacc).sum ≤ (ss.length : ℝ) := by
  have hb := expTerms_unit ss max_cost tacc hub htacc
  constructor
  · exact List.single_le_sum (fun w hw => le_of_lt (hb w hw).1) 1
      (expTerms_one_mem ss max_cost tacc hatt)
  · have h := List.sum_le_card_nsmul _ (1 : ℝ) (fun w hw => (hb w hw).2)
    simpa [expTerms] using h

/-- The sum of the terms of the first `k` chains lies between 0 and `k`. -/
theorem expTerms_partial_bounds (ss : List (Context ℝ)) (max_cost tacc : ℝ) (k : Nat)
    (hub : ∀ c ∈ ss, c.cost ≤ max_cost) (htacc : 0 < tacc) :
    0 ≤ (expTerms Real.exp (ss.take k) max_cost tacc).sum ∧
    (expTerms Real.exp (ss.take k) max_cost tacc).sum ≤ (k : ℝ) := by
  have hub' : ∀ c ∈ ss.take k, c.cost ≤ max_cost := fun c hc => hub c (List.mem_of_mem_take hc)
  have hb := expTerms_unit (ss.take k) max_cost tacc hub' htacc
  constructor
  · exact List.sum_nonneg (fun w hw => le_of_lt (hb w hw).1)
  · have h := List.sum_le_card_nsmul _ (1 : ℝ) (fun w hw => (hb w hw).2)
    have hlen : ((ss.take k).length : ℝ) ≤ (k : ℝ) := by
      exact_mod_cast List.length_take_le k ss
    have h' : (expTerms Real.exp (ss.take k) max_cost tacc).sum ≤ ((ss.take k).length : ℝ) := by
      simpa [expTerms] using h
    exact le_trans h' hlen

/-- When `gamma` is the sum of the terms of all chains, the values
`exp((cost_k - max_cost)/tacc)/gamma` lie in `(0, 1]` and add up to 1. -/
theorem expTerms_probabilities (ss : List (Context ℝ)) (max_cost tacc gamma : ℝ)
    (hub : ∀ c ∈ ss, c.cost ≤ max_cost) (hatt : ∃ c ∈ ss, c.cost = max_cost)
    (htacc : 0 < tacc) (hg : gamma = (expTerms Real.exp ss max_cost tacc).sum) :
    (∀ c ∈ ss, 0 < acceptProb Real.exp c.cost max_cost tacc gamma ∧
      acceptProb Real.exp c.cost max_cost tacc gamma ≤ 1) ∧
    (ss.map (fun c => acceptProb Real.exp c.cost max_cost tacc gamma)).sum = 1 := by
  have hb := expTerms_unit ss max_cost tacc hub htacc
  have hg1 := (expTerms_sum_bounds ss max_cost tacc hub hatt htacc).1
  rw [← hg] at hg1
  have hgpos : 0 < gamma := by linarith
  constructor
  · intro c hc
    have hmem : Real.exp ((c.cost - max_cost) / tacc) ∈ expTerms Real.exp ss max_cost tacc :=
      List.mem_map.mpr ⟨c, hc, rfl⟩
    have hle : Real.exp ((c.cost - max_cost) / tacc) ≤ gamma := by
      rw [hg]
      exact List.single_le_sum (fun w hw => le_of_lt (hb w hw).1) _ hmem
    exact ⟨div_pos (Real.exp_pos _) hgpos, (div_le_one hgpos).mpr hle⟩
  · have hsum : (ss.map (fun c => acceptProb Real.exp c.cost max_cost tacc gamma)).sum =
        (expTerms Real.exp ss max_cost tacc).sum / gamma := by
      simp only [acceptProb, expTerms, div_eq_mul_inv, List.sum_map_mul_right]
    rw [hsum, ← hg]
    exact div_self (ne_of_gt hgpos)

theorem atParam_iff (s : State R) (i : Nat) :
    atParam s i = true ↔
      ∃ (t : Thread R) (iter : Int), s.threads[i]? = some t ∧ t.pc = Pc.param iter := by
  unfold atParam
  constructor
  · intro h
    split at h
    · next t ht =>
      split at h
      · next iter hpc => exact ⟨t, iter, ht, hpc⟩
      · cases h
    · cases h
  · rintro ⟨t, iter, ht, hpc⟩
    simp only [ht, hpc]

/-- A thread at `Pc.param` holds the lock. -/
theorem atParam_lock [LinearOrderedField R] {S : SolverCoupled R} {E : Env Ω R}
    {x0 : List R} {s : State R} (hI : Inv S E x0 s) (i : Nat) (h : atParam s i = true) :
    s.lock = some i := by
  rcases (atParam_iff s i).mp h with ⟨t, iter, ht, hpc⟩
  have hl := hI.lock_held i t ht
  rw [hpc] at hl
  exact hl.mp rfl

/-- While thread `i` holds the lock, a move of another thread changes no chain, none of
`tacc`, `tgen`, `gamma`, and nothing of thread `i`. -/
theorem next_under_lock [LinearOrderedField R] {S : SolverCoupled R} {E : Env Ω R}
    {x0 : List R} {s : State R} (hI : Inv S E x0 s) (i : Nat) (hl : s.lock = some i)
    (e : Event Ω R) (he : e.opt_id ≠ i) :
    (next S E s e).shared_states = s.shared_states ∧ (next S E s e).tacc = s.tacc ∧
    (next S E s e).tgen = s.tgen ∧ (next S E s e).gamma = s.gamma ∧
    (next S E s e).threads[i]? = s.threads[i]? := by
  have hnot : ∀ t : Thread R, s.threads[e.opt_id]? = some t → t.pc.holdsLock = true →
      False := by
    intro t ht hh
    have h := (hI.lock_held _ t ht).mp hh
    rw [hl] at h
    cases h
    exact he rfl
  apply next_cases S E s e (fun s' => s'.shared_states = s.shared_states ∧
    s'.tacc = s.tacc ∧ s'.tgen = s.tgen ∧ s'.gamma = s.gamma ∧
    s'.threads[i]? = s.threads[i]?) ⟨rfl, rfl, rfl, rfl, rfl⟩
  · intro t c c0 _ _ _ _
    exact ⟨rfl, rfl, rfl, rfl, List.getElem?_set_ne he⟩
  · intro t c _ _ _ _ _ _
    exact ⟨rfl, rfl, rfl, rfl, List.getElem?_set_ne he⟩
  · intro t c imp iter y cost _ _ _ hnone
    rw [hl] at hnone
    cases hnone
  · intro t c imp iter y cost ht _ hpc
    exact (hnot t ht (by rw [hpc]; rfl)).elim
  · intro t c iter _ _ _ hnone
    rw [hl] at hnone
    cases hnone
  · intro t c iter _ _ _ _
    exact ⟨rfl, rfl, rfl, rfl, List.getElem?_set_ne he⟩
  · intro t c c0 iter ht _ _ hpc
    exact (hnot t ht (by rw [hpc]; rfl)).elim

/-- A move of a thread that is not at `Pc.param` leaves `gamma` as it is. -/
theorem next_gamma_of_not_atParam [LinearOrderedField R] (S : SolverCoupled R) (E : Env Ω R)
    (s : State R) (e : Event Ω R) (h : ¬ atParam s e.opt_id = true) :
    (next S E s e).gamma = s.gamma := by
  apply next_cases S E s e (fun s' => s'.gamma = s.gamma) rfl
  · intros; rfl
  · intros; rfl
  · intros; rfl
  · intros; rfl
  · intros; rfl
  · intros; rfl
  · intro t c c0 iter ht _ _ hpc
    exact (h ((atParam_iff s e.opt_id).mpr ⟨t, iter, ht, hpc⟩)).elim

/-- The invariant of the parallel region does not depend on `tacc`, `tgen`, `gamma`, the
iterations handed out or the progress calls. -/
theorem inv_congr [LinearOrderedField R] {S : SolverCoupled R} {E : Env Ω R} {x0 : List R}
    {s s' : State R} (hI : Inv S E x0 s) (h1 : s'.shared_states = s.shared_states)
    (h2 : s'.threads = s.threads) (h3 : s'.lock = s.lock) : Inv S E x0 s' := by
  refine ⟨by rw [h1]; exact hI.chains_len, by rw [h2]; exact hI.threads_len, ?_, ?_, ?_, ?_⟩
  · intro i c hc
    rw [h1] at hc
    exact hI.chain_ok i c hc
  · intro i t c ht hc
    rw [h2] at ht
    rw [h1] at hc
    exact hI.cand_ok i t c ht hc
  · intro i t ht
    rw [h2] at ht
    rw [h3]
    exact hI.lock_held i t ht
  · intro i hi
    rw [h3] at hi
    rw [h2]
    exact hI.lock_owner i hi

theorem cast_length_eq_m [LinearOrderedField R] {S : SolverCoupled R} {E : Env Ω R}
    {x0 : List R} {s : State R} (hI : Inv S E x0 s) (hm : 1 ≤ S.m) :
    ((s.shared_states.length : Nat) : R) = (S.m : R) := by
  rw [hI.chains_len]
  have h : ((S.m.toNat : Int) : R) = (S.m : R) := by rw [Int.toNat_of_nonneg (by omega)]
  exact_mod_cast h

/-- Every move of the store-by-store model made while `tacc > 0` keeps its invariant. -/
theorem finv_next (S : SolverCoupled ℝ) (E : Env Ω ℝ) (hexp : E.exp = Real.exp)
    (x0 : List ℝ) (hm : 1 ≤ S.m) (s : FineState ℝ) (e : Event Ω ℝ) (hF : FInv S E x0 s)
    (hpos : 0 < s.base.tacc) : FInv S E x0 (nextFine S E s e) := by
  have hI := hF.inv
  unfold nextFine
  split
  · next u hupd =>
    obtain ⟨hpar, hub, hatt, hgam⟩ := hF.busy u hupd
    have hlock := atParam_lock hI u.opt_id hpar
    by_cases he : e.opt_id = u.opt_id
    · rw [if_pos he]
      by_cases hk : u.k < S.m.toNat
      · rw [if_pos hk]
        have hklen : u.k < s.base.shared_states.length := by rw [hI.chains_len]; exact hk
        rw [List.getElem?_eq_getElem hklen]
        refine ⟨inv_congr hI rfl rfl rfl, (fun h => by cases h), ?_⟩
        intro u' hu'
        simp only [updateStep, Option.some.injEq] at hu'
        subst hu'
        refine ⟨hpar, hub, hatt, ?_⟩
        show s.base.gamma + E.exp ((s.base.shared_states[u.k].cost - u.max_cost) / s.base.tacc)
          = (expTerms E.exp (s.base.shared_states.take (u.k + 1)) u.max_cost s.base.tacc).sum
        rw [hgam, List.take_succ, List.getElem?_eq_getElem hklen]
        simp only [expTerms, Option.toList, List.map_append, List.sum_append, List.map_cons,
          List.map_nil, List.sum_cons, List.sum_nil, add_zero]
      · rw [if_neg hk]
        have hge : s.base.shared_states.length ≤ u.k := by rw [hI.chains_len]; omega
        rw [List.take_of_length_le hge, hexp] at hgam
        rcases (atParam_iff s.base u.opt_id).mp hpar with ⟨t, iter, ht, hpc⟩
        have hit : u.opt_id < s.base.threads.length := (List.getElem?_eq_some.mp ht).1
        have hic : u.opt_id < s.base.shared_states.length := by
          rw [hI.chains_len, ← hI.threads_len]; exact hit
        have hc : s.base.shared_states[u.opt_id]? = some s.base.shared_states[u.opt_id] :=
          List.getElem?_eq_getElem hic
        refine ⟨?_, fun _ => ?_, fun u' hu' => by cases hu'⟩
        · refine inv_update hI ht rfl (fun _ _ => rfl) hc rfl (hI.chain_ok _ _ hc)
            (by simp [Pc.candidateOk]) (by simp [updateEnd, Pc.holdsLock]) ?_
          intro j hj
          simp [updateEnd, hlock, Ne.symm hj]
        · show 1 ≤ s.base.gamma ∧ s.base.gamma ≤ (S.m : ℝ)
          have hb := expTerms_sum_bounds s.base.shared_states u.max_cost s.base.tacc hub hatt
            hpos
          rw [← hgam, cast_length_eq_m hI hm] at hb
          exact hb
    · rw [if_neg he]
      by_cases hp : atParam s.base e.opt_id = true
      · rw [if_pos hp]; exact hF
      · rw [if_neg hp]
        obtain ⟨h1, h2, _, h4, h5⟩ := next_under_lock hI u.opt_id hlock e he
        refine ⟨inv_next hI e, fun h => ?_, fun u' hu' => ?_⟩
        · have h' : s.upd = none := h
          rw [hupd] at h'
          cases h'
        · have hu'' : s.upd = some u' := hu'
          rw [hupd] at hu''
          cases hu''
          refine ⟨?_, ?_, ?_, ?_⟩
          · show atParam (next S E s.base e) u.opt_id = true
            unfold atParam
            rw [h5]
            exact hpar
          · show ∀ c ∈ (next S E s.base e).shared_states, c.cost ≤ u.max_cost
            rw [h1]; exact hub
          · show ∃ c ∈ (next S E s.base e).shared_states, c.cost = u.max_cost
            rw [h1]; exact hatt
          · show (next S E s.base e).gamma = (expTerms E.exp
              ((next S E s.base e).shared_states.take u.k) u.max_cost
              (next S E s.base e).tacc).sum
            rw [h1, h2, h4]; exact hgam
  · next hupd =>
    by_cases hp : atParam s.base e.opt_id = true
    · rw [if_pos hp]
      split
      · next c0 hc0 =>
        refine ⟨inv_congr hI rfl rfl rfl, (fun h => by cases h), ?_⟩
        intro u hu
        simp only [updateStart, Option.some.injEq] at hu
        subst hu
        have htake : s.base.shared_states.take S.m.toNat = s.base.shared_states := by
          rw [← hI.chains_len]; exact List.take_length _
        have hmem : c0 ∈ s.base.shared_states := List.mem_of_mem_head? hc0
        refine ⟨hp, ?_, ?_, ?_⟩
        · show ∀ c ∈ s.base.shared_states, c.cost ≤ maxCostLoop _ c0.cost
          rw [htake]
          exact (maxCostLoop_spec s.base.shared_states c0.cost).2.1
        · show ∃ c ∈ s.base.shared_states, c.cost = maxCostLoop _ c0.cost
          rw [htake]
          rcases (maxCostLoop_spec s.base.shared_states c0.cost).2.2 with h | h
          · exact ⟨c0, hmem, h.symm⟩
          · exact h
        · show (0 : ℝ) = _
          simp [expTerms]
      · exact hF
    · rw [if_neg hp]
      refine ⟨inv_next hI e, fun _ => ?_, fun u hu => ?_⟩
      · show 1 ≤ (next S E s.base e).gamma ∧ (next S E s.base e).gamma ≤ (S.m : ℝ)
        rw [next_gamma_of_not_atParam S E s.base e hp]
        exact hF.idle hupd
      · have hu' : s.upd = some u := hu
        rw [hupd] at hu'
        cases hu'

theorem runFine_snoc [LinearOrderedField R] (S : SolverCoupled R) (E : Env Ω R) (x : List R)
    (sched : List (Event Ω R)) (e : Event Ω R) :
    runFine S E x (sched ++ [e]) = nextFine S E (runFine S E x sched) e := by
  simp [runFine, List.foldl_append]

/-- A store-by-store move leaves `tacc` as it is, or adds or subtracts
`tacc_schedule * tacc`. -/
theorem nextFine_tacc [LinearOrderedField R] (S : SolverCoupled R) (E : Env Ω R)
    (s : FineState R) (e : Event Ω R) :
    (nextFine S E s e).base.tacc = s.base.tacc ∨
    (nextFine S E s e).base.tacc = s.base.tacc + S.tacc_schedule * s.base.tacc ∨
    (nextFine S E s e).base.tacc = s.base.tacc - S.tacc_schedule * s.base.tacc := by
  unfold nextFine
  split
  · next u _ =>
    split
    · split
      · split
        · exact Or.inl rfl
        · exact Or.inl rfl
      · simp only [updateEnd]
        split
        · exact Or.inr (Or.inl rfl)
        · exact Or.inr (Or.inr rfl)
    · split
      · exact Or.inl rfl
      · exact next_tacc S E s.base e
  · split
    · split
      · exact Or.inl rfl
      · exact Or.inl rfl
    · exact next_tacc S E s.base e

/-- With `tacc_initial > 0` and `tacc_schedule` in `(0, 1)`, `tacc` is positive in every
state of the store-by-store model. -/
theorem runFine_tacc_pos [LinearOrderedField R] (S : SolverCoupled R) (E : Env Ω R)
    (x : List R) (h0 : 0 < S.tacc_initial) (h1 : 0 < S.tacc_schedule)
    (h2 : S.tacc_schedule < 1) (sched : List (Event Ω R)) :
    0 < (runFine S E x sched).base.tacc := by
  induction sched using List.reverseRecOn with
  | nil => exact h0
  | append_singleton l a ih =>
    rw [runFine_snoc]
    rcases nextFine_tacc S E (runFine S E x l) a with h | h | h
    · rw [h]; exact ih
    · rw [h]
      have : 0 < S.tacc_schedule * (runFine S E x l).base.tacc := mul_pos h1 ih
      linarith
    · rw [h]
      have : S.tacc_schedule * (runFine S E x l).base.tacc < 1 * (runFine S E x l).base.tacc :=
        mul_lt_mul_of_pos_right h2 ih
      linarith

/-- Over the reals, along a schedule on which `tacc` stays positive, the invariant of the
store-by-store model holds. -/
theorem finv_run (S : SolverCoupled ℝ) (E : Env Ω ℝ) (hexp : E.exp = Real.exp)
    (x : List ℝ) (hm : 1 ≤ S.m) (sched : List (Event Ω ℝ))
    (htacc : ∀ k : Nat, 0 < (runFine S E x (sched.take k)).base.tacc) :
    FInv S E x (runFine S E x sched) := by
  induction sched using List.reverseRecOn with
  | nil =>
    refine ⟨inv_init S E x, fun _ => ?_, fun u hu => by cases hu⟩
    have h : (runFine S E x []).base.gamma = (S.m : ℝ) := rfl
    rw [h]
    exact ⟨by exact_mod_cast hm, le_refl _⟩
  | append_singleton l a ih =>
    have hl : ∀ k : Nat, 0 < (runFine S E x (l.take k)).base.tacc := by
      intro k
      by_cases hk : k ≤ l.length
      · have h := htacc k
        rw [List.take_append_of_le_length hk] at h
        exact h
      · have h := htacc l.length
        rw [List.take_append_of_le_length (le_refl _), List.take_length] at h
        rw [List.take_of_length_le (by omega)]
        exact h
    have hpos : 0 < (runFine S E x l).base.tacc := by
      have h := hl l.length
      rw [List.take_length] at h
      exact h
    rw [runFine_snoc]
    exact finv_next S E hexp x hm _ a (ih hl) hpos

/-- The passes of the loop of lines 127-131, taken one by one by the thread inside the
update, accumulate what `sumLoop` computes. -/
theorem fine_loop [LinearOrderedField R] (S : SolverCoupled R) (E : Env Ω R) (e : Event Ω R)
    (j : Nat) : ∀ (s : State R) (u : Pending R), e.opt_id = u.opt_id →
      u.k + j ≤ S.m.toNat → s.shared_states.length = S.m.toNat →
      (List.replicate j e).foldl (nextFine S E) { base := s, upd := some u } =
        { base := { s with gamma := (sumLoop E.exp ((s.shared_states.drop u.k).take j)
                      u.max_cost s.tacc (s.gamma, u.sum_a)).1 }
          upd := some { u with k := u.k + j
                               sum_a := (sumLoop E.exp ((s.shared_states.drop u.k).take j)
                                 u.max_cost s.tacc (s.gamma, u.sum_a)).2 } } := by
  induction j with
  | zero =>
    intro s u _ _ _
    simp [sumLoop]
  | succ j ih =>
    intro s u he hk hlen
    have hlt : u.k < s.shared_states.length := by omega
    have hstep : nextFine S E { base := s, upd := some u } e
        = updateStep E s u (s.shared_states[u.k]) := by
      have hkm : u.k < S.m.toNat := by omega
      simp only [nextFine, he, if_true, hkm, List.getElem?_eq_getElem hlt]
    rw [List.replicate_succ, List.foldl_cons, hstep]
    have hd : s.shared_states.drop u.k
        = s.shared_states[u.k] :: s.shared_states.drop (u.k + 1) :=
      List.drop_eq_getElem_cons hlt
    have h := ih (updateStep E s u (s.shared_states[u.k])).base
      { u with k := u.k + 1
               sum_a := u.sum_a + E.exp (2 * ((s.shared_states[u.k].cost - u.max_cost) / s.tacc)) }
      he (by show u.k + 1 + j ≤ _; omega) hlen
    simp only [updateStep] at h ⊢
    rw [h, hd, List.take_succ_cons]
    simp only [sumLoop, List.foldl_cons]
    have ha : u.k + 1 + j = u.k + (j + 1) := by omega
    rw [ha]

/-- Without interleaving, the store-by-store update is the update of `next`: from a state
in which thread `e.opt_id` is at line 121, `m + 2` consecutive moves of that thread in the
store-by-store model lead to the state its single move leads to in `next`. -/
theorem fine_update_eq_next [LinearOrderedField R] (S : SolverCoupled R) (E : Env Ω R)
    (x0 : List R) (s : State R) (e : Event Ω R) (hI : Inv S E x0 s)
    (hp : atParam s e.opt_id = true) :
    (List.replicate (S.m.toNat + 2) e).foldl (nextFine S E) { base := s, upd := none } =
      { base := next S E s e, upd := none } := by
  rcases (atParam_iff s e.opt_id).mp hp with ⟨t, iter, ht, hpc⟩
  have hlen := hI.chains_len
  have hi : e.opt_id < s.threads.length := by
    rcases List.getElem?_eq_some.mp ht with ⟨h, _⟩
    exact h
  have hic : e.opt_id < s.shared_states.length := by
    rw [hI.chains_len, ← hI.threads_len]; exact hi
  have hc : s.shared_states[e.opt_id]? = some s.shared_states[e.opt_id] :=
    List.getElem?_eq_getElem hic
  obtain ⟨c0, h0⟩ : ∃ c0, s.shared_states.head? = some c0 := by
    cases hss : s.shared_states with
    | nil => rw [hss] at hic; exact absurd hic (by simp)
    | cons a l => exact ⟨a, rfl⟩
  have hstart : nextFine S E { base := s, upd := none } e = updateStart S s e.opt_id c0 := by
    simp only [nextFine, hp, if_true, h0]
  have hnext : next S E s e =
      { s with tacc := (paramUpdate S E.exp s.shared_states c0 s.tacc s.tgen).tacc
               tgen := (paramUpdate S E.exp s.shared_states c0 s.tacc s.tgen).tgen
               gamma := (paramUpdate S E.exp s.shared_states c0 s.tacc s.tgen).gamma
               lock := none
               threads := s.threads.set e.opt_id
                 { pc := Pc.top
                   max_cost := (paramUpdate S E.exp s.shared_states c0 s.tacc s.tgen).max_cost } } := by
    simp only [next, ht, hc, h0, hpc]
  rw [List.replicate_succ, List.foldl_cons, hstart, List.replicate_succ',
    List.foldl_append, hnext]
  have hloop := fine_loop S E e S.m.toNat (updateStart S s e.opt_id c0).base
    { opt_id := e.opt_id, k := 0
      max_cost := maxCostLoop (s.shared_states.take S.m.toNat) c0.cost, sum_a := 0 }
    rfl (by simp) hlen
  simp only [updateStart] at hloop ⊢
  rw [hloop]
  simp only [List.foldl_cons, List.foldl_nil, nextFine, if_true, Nat.zero_add, lt_irrefl,
    if_false, updateEnd, paramUpdate, List.drop_zero]

/-- The sum of the terms of the first `k` chains is at most the number of chains. -/
theorem expTerms_partial_le_length (ss : List (Context ℝ)) (max_cost tacc : ℝ) (k : Nat)
    (hub : ∀ c ∈ ss, c.cost ≤ max_cost) (htacc : 0 < tacc) :
    (expTerms Real.exp (ss.take k) max_cost tacc).sum ≤ (ss.length : ℝ) := by
  have hub' : ∀ c ∈ ss.take k, c.cost ≤ max_cost := fun c hc => hub c (List.mem_of_mem_take hc)
  have hb := expTerms_unit (ss.take k) max_cost tacc hub' htacc
  have h := List.sum_le_card_nsmul _ (1 : ℝ) (fun w hw => (hb w hw).2)
  have hlen : (expTerms Real.exp (ss.take k) max_cost tacc).length ≤ ss.length := by
    simp [expTerms]
  have hcast : ((expTerms Real.exp (ss.take k) max_cost tacc).length : ℝ) ≤ (ss.length : ℝ) := by
    exact_mod_cast hlen
  simp only [nsmul_eq_mul, mul_one] at h
  linarith

/-- C19, amended: for every `m ≥ 1`, along every run on which `tacc` stays positive, with
the temperature-scheduler update taken store by store, every reachable state `s` has
`0 ≤ gamma ≤ m`. While no update is under way `1 ≤ gamma`, so a division by `gamma` made
then is not by zero. While thread `u.opt_id` is inside an update, having executed line 126
and `u.k` passes of the loop of lines 127-131, its `max_cost` is the largest current cost
and `gamma` is the sum of the terms `exp((cost_j - max_cost)/tacc)` of the first `u.k`
chains: it is `0` when `u.k = 0` and at most `u.k`. Once that loop has ended, and before
lines 135-138 change `tacc`, `1 ≤ gamma` and the per-chain values
`exp((cost_j - max_cost)/tacc)/gamma` each lie in `(0, 1]` and sum to exactly `1`. -/
theorem coupling_term_store_by_store (S : SolverCoupled ℝ) (E : Env Ω ℝ)
    (hexp : E.exp = Real.exp) (x : List ℝ) (hm : 1 ≤ S.m) (sched : List (Event Ω ℝ))
    (htacc : ∀ k : Nat, 0 < (runFine S E x (sched.take k)).base.tacc)
    (s : FineState ℝ) (hs : s = runFine S E x sched) :
    0 ≤ s.base.gamma ∧ s.base.gamma ≤ (S.m : ℝ) ∧
    (s.upd = none → 1 ≤ s.base.gamma ∧ s.base.gamma ≠ 0) ∧
    ∀ u : Pending ℝ, s.upd = some u →
      (∀ c ∈ s.base.shared_states, c.cost ≤ u.max_cost) ∧
      (∃ c ∈ s.base.shared_states, c.cost = u.max_cost) ∧
      s.base.gamma =
        (expTerms Real.exp (s.base.shared_states.take u.k) u.max_cost s.base.tacc).sum ∧
      (u.k = 0 → s.base.gamma = 0) ∧
      s.base.gamma ≤ (u.k : ℝ) ∧
      (¬ u.k < S.m.toNat →
        1 ≤ s.base.gamma ∧
        (∀ c ∈ s.base.shared_states,
          0 < acceptProb Real.exp c.cost u.max_cost s.base.tacc s.base.gamma ∧
          acceptProb Real.exp c.cost u.max_cost s.base.tacc s.base.gamma ≤ 1) ∧
        (s.base.shared_states.map
          (fun c => acceptProb Real.exp c.cost u.max_cost s.base.tacc s.base.gamma)).sum
          = 1) := by
  have hF : FInv S E x s := by
    rw [hs]
    exact finv_run S E hexp x hm sched htacc
  have hpos : 0 < s.base.tacc := by
    have h := htacc sched.length
    rw [List.take_length] at h
    rw [hs]
    exact h
  have hbusy : ∀ u : Pending ℝ, s.upd = some u →
      (∀ c ∈ s.base.shared_states, c.cost ≤ u.max_cost) ∧
      (∃ c ∈ s.base.shared_states, c.cost = u.max_cost) ∧
      s.base.gamma =
        (expTerms Real.exp (s.base.shared_states.take u.k) u.max_cost s.base.tacc).sum := by
    intro u hu
    obtain ⟨_, hub, hatt, hgam⟩ := hF.busy u hu
    rw [hexp] at hgam
    exact ⟨hub, hatt, hgam⟩
  have hrange : 0 ≤ s.base.gamma ∧ s.base.gamma ≤ (S.m : ℝ) := by
    cases hupd : s.upd with
    | none =>
      have h := hF.idle hupd
      exact ⟨by linarith [h.1], h.2⟩
    | some u =>
      obtain ⟨hub, _, hgam⟩ := hbusy u hupd
      rw [hgam]
      refine ⟨(expTerms_partial_bounds _ _ _ u.k hub hpos).1, ?_⟩
      have h := expTerms_partial_le_length s.base.shared_states u.max_cost s.base.tacc u.k
        hub hpos
      rw [cast_length_eq_m hF.inv hm] at h
      exact h
  refine ⟨hrange.1, hrange.2, ?_, ?_⟩
  · intro hupd
    have h := (hF.idle hupd).1
    exact ⟨h, by linarith⟩
  · intro u hupd
    obtain ⟨hub, hatt, hgam⟩ := hbusy u hupd
    refine ⟨hub, hatt, hgam, ?_, ?_, ?_⟩
    · intro hk
      rw [hgam, hk]
      simp [expTerms]
    · rw [hgam]
      exact (expTerms_partial_bounds _ _ _ u.k hub hpos).2
    · intro hk
      have hfull : s.base.shared_states.take u.k = s.base.shared_states := by
        apply List.take_of_length_le
        rw [hF.inv.chains_len]
        omega
      rw [hfull] at hgam
      have hp := expTerms_probabilities s.base.shared_states u.max_cost s.base.tacc
        s.base.gamma hub hatt hpos hgam
      refine ⟨?_, hp.1, hp.2⟩
      rw [hgam]
      exact (expTerms_sum_bounds _ _ _ hub hatt hpos).1

/-- The number of chains of `pairSolver`, as a natural number. -/
theorem toNat_two : Int.toNat 2 = 2 := rfl

/-- For two chains whose terms of line 129 sum to `exp(-2) + 1` and whose squares sum to
`exp(-4) + 1`, `prob_var` does not exceed `99/100`. -/
theorem pair_probVar_small :
    ¬ ((99 : ℝ) / 100 < probVar 2 (Real.exp (-2) + 1) (Real.exp (-4) + 1)) := by
  have ha : 0 < Real.exp (-2) := Real.exp_pos _
  have h4 : Real.exp (-4) = Real.exp (-2) * Real.exp (-2) := by
    rw [← Real.exp_add]
    norm_num
  have hg : 0 < (Real.exp (-2) + 1) * (Real.exp (-2) + 1) := by positivity
  have hr : (Real.exp (-4) + 1) / ((Real.exp (-2) + 1) * (Real.exp (-2) + 1)) ≤ 1 := by
    rw [div_le_one hg, h4]
    nlinarith
  unfold probVar
  push_cast
  intro h
  have : ((2 : ℝ) * ((Real.exp (-4) + 1) / ((Real.exp (-2) + 1) * (Real.exp (-2) + 1))) - 1)
      / (2 * 2) ≤ 1 / 4 := by
    rw [div_le_iff₀ (by norm_num)]
    linarith
  linarith

/-- The run of `pairSolver` along `loopEnded`: thread 0 has ended the loop of its update,
with `max_cost = 5` and `sum_a = exp(-4) + 1`. -/
theorem coupling_term_store_by_store_witness :
    (1 : Int) ≤ (pairSolver : SolverCoupled ℝ).m ∧
    (∀ k : Nat,
      0 < (runFine pairSolver (downEnv Real.exp) [2, 3] (loopEnded.take k)).base.tacc) ∧
    (runFine pairSolver (downEnv Real.exp) [2, 3] loopEnded).upd
      = some { opt_id := 0, k := 2, max_cost := (5 : ℝ), sum_a := Real.exp (-4) + 1 } ∧
    (0 ≤ (runFine pairSolver (downEnv Real.exp) [2, 3] loopEnded).base.gamma ∧
    (runFine pairSolver (downEnv Real.exp) [2, 3] loopEnded).base.gamma
      ≤ (((pairSolver : SolverCoupled ℝ).m : Int) : ℝ) ∧
    ((runFine pairSolver (downEnv Real.exp) [2, 3] loopEnded).upd = none →
      1 ≤ (runFine pairSolver (downEnv Real.exp) [2, 3] loopEnded).base.gamma ∧
      (runFine pairSolver (downEnv Real.exp) [2, 3] loopEnded).base.gamma ≠ 0) ∧
    ∀ u : Pending ℝ, (runFine pairSolver (downEnv Real.exp) [2, 3] loopEnded).upd = some u →
      (∀ c ∈ (runFine pairSolver (downEnv Real.exp) [2, 3] loopEnded).base.shared_states,
        c.cost ≤ u.max_cost) ∧
      (∃ c ∈ (runFine pairSolver (downEnv Real.exp) [2, 3] loopEnded).base.shared_states,
        c.cost = u.max_cost) ∧
      (runFine pairSolver (downEnv Real.exp) [2, 3] loopEnded).base.gamma =
        (expTerms Real.exp
          ((runFine pairSolver (downEnv Real.exp) [2, 3] loopEnded).base.shared_states.take u.k)
          u.max_cost (runFine pairSolver (downEnv Real.exp) [2, 3] loopEnded).base.tacc).sum ∧
      (u.k = 0 → (runFine pairSolver (downEnv Real.exp) [2, 3] loopEnded).base.gamma = 0) ∧
      (runFine pairSolver (downEnv Real.exp) [2, 3] loopEnded).base.gamma ≤ (u.k : ℝ) ∧
      (¬ u.k < (pairSolver : SolverCoupled ℝ).m.toNat →
        1 ≤ (runFine pairSolver (downEnv Real.exp) [2, 3] loopEnded).base.gamma ∧
        (∀ c ∈ (runFine pairSolver (downEnv Real.exp) [2, 3] loopEnded).base.shared_states,
          0 < acceptProb Real.exp c.cost u.max_cost
            (runFine pairSolver (downEnv Real.exp) [2, 3] loopEnded).base.tacc
            (runFine pairSolver (downEnv Real.exp) [2, 3] loopEnded).base.gamma ∧
          acceptProb Real.exp c.cost u.max_cost
            (runFine pairSolver (downEnv Real.exp) [2, 3] loopEnded).base.tacc
            (runFine pairSolver (downEnv Real.exp) [2, 3] loopEnded).base.gamma ≤ 1) ∧
        ((runFine pairSolver (downEnv Real.exp) [2, 3] loopEnded).base.shared_states.map
          (fun c => acceptProb Real.exp c.cost u.max_cost
            (runFine pairSolver (downEnv Real.exp) [2, 3] loopEnded).base.tacc
            (runFine pairSolver (downEnv Real.exp) [2, 3] loopEnded).base.gamma)).sum
          = 1)) :=
  ⟨by decide,
    fun k => runFine_tacc_pos pairSolver (downEnv Real.exp) [2, 3] (by norm_num [pairSolver])
      (by norm_num [pairSolver]) (by norm_num [pairSolver]) (loopEnded.take k),
    by norm_num [runFine, nextFine, atParam, updateStart, updateStep, updateEnd, next, init,
      pairSolver, downEnv, SharedStates, List.replicate, move0, move1, decideBranch,
      afterDecision, commit, updateBest, Context.step, logCall, maxCostLoop, acceptProb,
      toNat_two, loopEnded],
    coupling_term_store_by_store pairSolver (downEnv Real.exp) rfl [2, 3] (by decide) loopEnded
      (fun k => runFine_tacc_pos pairSolver (downEnv Real.exp) [2, 3]
        (by norm_num [pairSolver]) (by norm_num [pairSolver]) (by norm_num [pairSolver])
        (loopEnded.take k))
      (runFine pairSolver (downEnv Real.exp) [2, 3] loopEnded) rfl⟩

/-- C19, as stated, fails, on both counts, for `pairSolver` (`m = 2`, `tacc_initial = 1`,
`tacc_schedule = 1/2`, so `tacc > 0` in every state) from the point `(2, 3)`.
First, with `stayEnv`: thread 1 enters; thread 0 enters, accepts its candidate, wins the
probe of line 120 and executes lines 121-126. In the state reached `gamma = 0`, below `1`,
while thread 1 is at the top of the loop with a candidate that is not better than its
chain (cost `5`), so its next move evaluates line 112 and divides by `gamma = 0`.
Second, with `downEnv`: thread 0 moves its chain to cost `3` and completes its update. In
the state reached no update is under way, the costs are `3` and `5`, `max_cost = 5`,
`gamma = exp(-2) + 1` and `tacc = 1/2`, and the values `exp((cost_k - 5)/tacc)/gamma` sum
to `(exp(-4) + 1)/(exp(-2) + 1) < 1`. -/
theorem gamma_zero_inside_update :
    (1 : Int) ≤ (pairSolver : SolverCoupled ℝ).m ∧
    (∀ sched : List (Event Unit ℝ),
      0 < (runFine pairSolver (stayEnv Real.exp) [2, 3] sched).base.tacc) ∧
    (∀ sched : List (Event Unit ℝ),
      0 < (runFine pairSolver (downEnv Real.exp) [2, 3] sched).base.tacc) ∧
    (runFine pairSolver (stayEnv Real.exp) [2, 3]
      [move1, move0, move0, move0, move0, move0, move0]).base.gamma = (0 : ℝ) ∧
    ¬ ((1 : ℝ) ≤ (runFine pairSolver (stayEnv Real.exp) [2, 3]
      [move1, move0, move0, move0, move0, move0, move0]).base.gamma) ∧
    (runFine pairSolver (stayEnv Real.exp) [2, 3]
      [move1, move0, move0, move0, move0, move0, move0]).base.threads[1]?
      = some { pc := Pc.top, max_cost := (5 : ℝ) } ∧
    (runFine pairSolver (stayEnv Real.exp) [2, 3]
      [move1, move0, move0, move0, move0, move0, move0]).base.shared_states[1]?
      = some { x := [2, 3], cost := (5 : ℝ), best_x := [2, 3], best_cost := 5 } ∧
    ¬ ((stayEnv Real.exp).fx ((stayEnv Real.exp).step () [2, 3]
        (runFine pairSolver (stayEnv Real.exp) [2, 3]
          [move1, move0, move0, move0, move0, move0, move0]).base.tgen) < (5 : ℝ)) ∧
    (runFine pairSolver (downEnv Real.exp) [2, 3]
      [move1, move0, move0, move0, move0, move0, move0, move0, move0, move0]).upd = none ∧
    (runFine pairSolver (downEnv Real.exp) [2, 3]
      [move1, move0, move0, move0, move0, move0, move0, move0, move0, move0]).base.tacc
      = (1 : ℝ) / 2 ∧
    (runFine pairSolver (downEnv Real.exp) [2, 3]
      [move1, move0, move0, move0, move0, move0, move0, move0, move0, move0]).base.gamma
      = Real.exp (-2) + 1 ∧
    (runFine pairSolver (downEnv Real.exp) [2, 3]
      [move1, move0, move0, move0, move0, move0, move0, move0, move0, move0]).base.threads[0]?
      = some { pc := Pc.top, max_cost := (5 : ℝ) } ∧
    (runFine pairSolver (downEnv Real.exp) [2, 3]
      [move1, move0, move0, move0, move0, move0, move0, move0, move0,
        move0]).base.shared_states.map (fun c => c.cost) = [(3 : ℝ), 5] ∧
    ((runFine pairSolver (downEnv Real.exp) [2, 3]
      [move1, move0, move0, move0, move0, move0, move0, move0, move0,
        move0]).base.shared_states.map (fun c => acceptProb Real.exp c.cost 5
          (runFine pairSolver (downEnv Real.exp) [2, 3]
            [move1, move0, move0, move0, move0, move0, move0, move0, move0, move0]).base.tacc
          (runFine pairSolver (downEnv Real.exp) [2, 3]
            [move1, move0, move0, move0, move0, move0, move0, move0, move0,
              move0]).base.gamma)).sum < 1 := by
  have hA : runFine pairSolver (stayEnv Real.exp) [2, 3]
      [move1, move0, move0, move0, move0, move0, move0]
      = { base := { shared_states := [{ x := [2, 3], cost := (5 : ℝ), best_x := [2, 3], best_cost := 5 },
                      { x := [2, 3], cost := 5, best_x := [2, 3], best_cost := 5 }]
                    tacc := 1, tgen := 1, gamma := 0, lock := some 0
                    threads := [{ pc := Pc.param 0, max_cost := 5 },
                      { pc := Pc.top, max_cost := 5 }]
                    started := [0], calls := [] }
          upd := some { opt_id := 0, k := 0, max_cost := 5, sum_a := 0 } } := by
    norm_num [runFine, nextFine, atParam, updateStart, updateStep, updateEnd, next, init,
      pairSolver, stayEnv, SharedStates, List.replicate, move0, move1, decideBranch,
      afterDecision, commit, updateBest, Context.step, logCall, maxCostLoop, acceptProb,
      toNat_two]
  have hB : runFine pairSolver (downEnv Real.exp) [2, 3]
      [move1, move0, move0, move0, move0, move0, move0, move0, move0, move0]
      = { base := { shared_states := [{ x := [1, 2], cost := (3 : ℝ), best_x := [1, 2], best_cost := 3 },
                      { x := [2, 3], cost := 5, best_x := [2, 3], best_cost := 5 }]
                    tacc := 1 / 2, tgen := 1 / 2, gamma := Real.exp (-2) + 1, lock := none
                    threads := [{ pc := Pc.top, max_cost := 5 },
                      { pc := Pc.top, max_cost := 5 }]
                    started := [0]
                    calls := [{ cost := 3, tgen := 1, tacc := 1, opt_id := 0, iter := 0 }] }
          upd := none } := by
    norm_num [runFine, nextFine, atParam, updateStart, updateStep, updateEnd, next, init,
      pairSolver, downEnv, SharedStates, List.replicate, move0, move1, decideBranch,
      afterDecision, commit, updateBest, Context.step, logCall, maxCostLoop, acceptProb,
      toNat_two, pair_probVar_small]
  rw [hA, hB]
  refine ⟨by norm_num [pairSolver], ?_, ?_, rfl, by norm_num, rfl, rfl, ?_, rfl, rfl, rfl, rfl,
    rfl, ?_⟩
  · intro sched
    exact runFine_tacc_pos _ _ _ (by norm_num [pairSolver]) (by norm_num [pairSolver])
      (by norm_num [pairSolver]) sched
  · intro sched
    exact runFine_tacc_pos _ _ _ (by norm_num [pairSolver]) (by norm_num [pairSolver])
      (by norm_num [pairSolver]) sched
  · norm_num [stayEnv]
  · have hlt : Real.exp (-4) < Real.exp (-2) := Real.exp_lt_exp.mpr (by norm_num)
    have hg : 0 < Real.exp (-2) + 1 := by positivity
    have e : Real.exp (-4) / (Real.exp (-2) + 1) + (Real.exp (-2) + 1)⁻¹
        = (Real.exp (-4) + 1) / (Real.exp (-2) + 1) := by
      field_simp
    norm_num [acceptProb]
    rw [e, div_lt_one hg]
    linarith

end CSA
